import Mathlib

/-!
# ALN chainlexeme parser, validator and serializer

A shallow embedding of `src/aln/core/runtime/aln_parser.js`.

Modelling conventions.

* A JavaScript string is a `List Char` (`Str`).  Lean characters are Unicode
  scalar values, so strings holding unpaired surrogates are outside the model.
* A JavaScript number is a `JSNumber`: a sign, a whole part and the digits of
  a finite decimal fraction.  A `JSNumber` denotes the double nearest to it.
  The numerals the parser reads are kept as written; the rounding of numerals
  with more than 15 significant digits to the nearest IEEE-754 double (and
  `NaN`, `Infinity` held in a document) is not modelled in `parseInt` and
  `parseFloat`.  A numeral of at most 15 digits is the shortest decimal of
  its double, so there the numeral kept and the Number computed are the same
  (`shortNumerals`); for a natural, `nearestDouble` is the value of the double
  that JavaScript computes, the natural itself up to `2^53`.
* A JavaScript object used as a mapping is the list of its own enumerable
  string-keyed properties in `Object.entries` order (`JSObject`): integer
  index keys first, ascending, then the other keys in creation order.
* `String.prototype.toLowerCase` is modelled on ASCII letters; no character
  outside ASCII lowercases to a letter of `header`, `data` or `footer`.
  Statements on raw sections of arbitrary names are made for texts whose
  section markers are ASCII (`asciiMarkers`).
* A thrown `TypeError` is the `Except.error` of the validator.
-/

namespace ALN

/-- JavaScript string: a sequence of characters. -/
abbrev Str := List Char

/-! ## String primitives -/

/-- ECMAScript `WhiteSpace` and `LineTerminator` code points, the characters
removed by `String.prototype.trim`. -/
def isWhiteSpace (c : Char) : Bool :=
  let n := c.toNat
  n == 0x09 || n == 0x0A || n == 0x0B || n == 0x0C || n == 0x0D || n == 0x20 ||
  n == 0xA0 || n == 0x1680 || (0x2000 ≤ n && n ≤ 0x200A) || n == 0x2028 ||
  n == 0x2029 || n == 0x202F || n == 0x205F || n == 0x3000 || n == 0xFEFF

/-- Drop the leading white space of a string. -/
def trimStart : Str → Str
  | [] => []
  | c :: cs => if isWhiteSpace c then trimStart cs else c :: cs

/-- Drop the trailing white space of a string. -/
def trimEnd (s : Str) : Str := (trimStart s.reverse).reverse

/-- The method `String.prototype.trim`. -/
def trim (s : Str) : Str := trimEnd (trimStart s)

/-- The method `s.startsWith(p)`. -/
def startsWith (s p : Str) : Bool := p.isPrefixOf s

/-- The method `s.endsWith(p)`. -/
def endsWith (s p : Str) : Bool := p.reverse.isPrefixOf s.reverse

/-- The call `s.slice(1, -1)`: drop the first and the last character (the
empty string when `s` has fewer than two characters). -/
def slice1 (s : Str) : Str := (s.drop 1).take (s.length - 2)

/-- The call `s.split(sep)` for a one-character separator `sep`. -/
def splitOnChar (sep : Char) : Str → List Str
  | [] => [[]]
  | c :: cs =>
    if c = sep then [] :: splitOnChar sep cs
    else
      match splitOnChar sep cs with
      | [] => [[c]]
      | p :: ps => (c :: p) :: ps

/-- The call `s.indexOf(ch)` for a character `ch`; `none` stands for `-1`. -/
def indexOf (ch : Char) : Str → Option Nat
  | [] => none
  | c :: cs => if c = ch then some 0 else (indexOf ch cs).map (· + 1)

/-- The method `toLowerCase`, on ASCII letters: it is
`String.prototype.toLowerCase` on every string of ASCII characters.  The
parser applies it to the text of section markers only; no character outside
ASCII is lowercased to a letter of `header`, `data` or `footer`, so the three
mappings do not depend on the difference, and the statements on raw sections
of arbitrary names are made for texts whose markers are ASCII
(`asciiMarkers`). -/
def toLowerCase (s : Str) : Str := s.map Char.toLower

/-- The regular expression class `\d`. -/
def isDigit (c : Char) : Bool := 48 ≤ c.toNat && c.toNat ≤ 57

/-- The test `/^\d+$/`. -/
def isDigits (s : Str) : Bool := !s.isEmpty && s.all isDigit

/-- The test `/^\d+\.\d+$/`. -/
def isDecimal (s : Str) : Bool :=
  match indexOf '.' s with
  | none => false
  | some i => isDigits (s.take i) && isDigits (s.drop (i + 1))

/-! ## Numbers -/

/-- A finite JavaScript number, written in decimal: `frac = none` for an
integral value, and `some (ds, d)` for the fraction digits `ds` followed by the
last, non-zero digit `d + 1`. -/
structure JSNumber where
  neg : Bool
  whole : Nat
  frac : Option (List (Fin 10) × Fin 9)
deriving DecidableEq, Repr

/-- The result of `ToNumber`. -/
inductive JSNumeric where
  | nan
  | inf (neg : Bool)
  | fin (x : JSNumber)
deriving DecidableEq, Repr

namespace JSNumber

/-- The number of a natural. -/
def ofNat (n : Nat) : JSNumber := ⟨false, n, none⟩

/-- The test `Number.isInteger`. -/
def isInteger (x : JSNumber) : Bool := x.frac.isNone

/-- The value is `+0` or `-0`. -/
def isZero (x : JSNumber) : Bool := x.whole == 0 && x.frac.isNone

/-- The comparison `x < 0`. -/
def ltZero (x : JSNumber) : Bool := x.neg && !x.isZero

/-- The comparison `x <= 0`. -/
def leZero (x : JSNumber) : Bool := x.neg || x.isZero

/-- The comparison `x < n` for a natural `n`. -/
def ltNat (x : JSNumber) (n : Nat) : Bool :=
  if x.isZero then decide (0 < n) else x.neg || decide (x.whole < n)

/-- The fraction digits of a number, the last one non-zero. -/
def fracDigits (x : JSNumber) : List (Fin 10) :=
  match x.frac with
  | none => []
  | some (ds, d) => ds ++ [⟨d.val + 1, by omega⟩]

end JSNumber

/-- The character of a decimal digit. -/
def digitChar (d : Fin 10) : Char := Char.ofNat (48 + d.val)

/-- The digit of a character, `0` when it is not a decimal digit. -/
def charDigit (c : Char) : Fin 10 :=
  if h : 48 ≤ c.toNat ∧ c.toNat ≤ 57 then ⟨c.toNat - 48, by omega⟩ else 0

/-- The decimal digits of a natural, most significant first, with `fuel`
bounding their number; the digits of `0` are empty. -/
def natDigitsAux : Nat → Nat → List (Fin 10) → List (Fin 10)
  | 0, _, acc => acc
  | fuel + 1, n, acc =>
    if n = 0 then acc
    else natDigitsAux fuel (n / 10) (⟨n % 10, Nat.mod_lt _ (by decide)⟩ :: acc)

/-- The decimal digits of a natural, most significant first; none for `0`. -/
def natDigits (n : Nat) : List (Fin 10) := natDigitsAux n n []

/-- The value of a sequence of decimal digits. -/
def digitsValue (ds : List (Fin 10)) : Nat := ds.foldl (fun a d => 10 * a + d.val) 0

/-- The decimal rendering of a natural (`"0"` for zero). -/
def natToStr (n : Nat) : Str :=
  if n = 0 then ['0'] else (natDigits n).map digitChar

/-- Remove the trailing zeros of a digit sequence. -/
def stripTrailingZeros (ds : List (Fin 10)) : List (Fin 10) :=
  (ds.reverse.dropWhile (· = 0)).reverse

/-- Remove the leading zeros of a digit sequence. -/
def stripLeadingZeros (ds : List (Fin 10)) : List (Fin 10) := ds.dropWhile (· = 0)

/-- The fraction field of a number from fraction digits with no trailing zero. -/
def mkFrac (ds : List (Fin 10)) : Option (List (Fin 10) × Fin 9) :=
  match ds.reverse with
  | [] => none
  | d :: rest => if h : d.val = 0 then none else some (rest.reverse, ⟨d.val - 1, by omega⟩)

/-- The finite decimal with the given sign, whole digits and fraction digits. -/
def JSNumber.ofDigits (neg : Bool) (w f : List (Fin 10)) : JSNumber :=
  ⟨neg, digitsValue w, mkFrac (stripTrailingZeros f)⟩

/-- The call `parseInt(s, 10)` on a string of decimal digits.  The numeral is
kept as written: it denotes the double that `parseInt` computes, and it is the
value of that double whenever the numeral has at most 15 digits (more
generally, whenever `nearestDouble` leaves its value unchanged, as it does up
to `2^53`).  The rounding of longer numerals is left out of the embedding. -/
def parseInt (s : Str) : JSNumber := JSNumber.ofDigits false (s.map charDigit) []

/-- The call `parseFloat(s)` on a string `digits.digits`.  The numeral is kept
as written: it denotes the double that `parseFloat` computes, and it is the
shortest decimal of that double whenever the numeral has at most 15 digits.
The rounding of longer numerals, their underflow to zero and their overflow to
`Infinity` are left out of the embedding. -/
def parseFloat (s : Str) : JSNumber :=
  match indexOf '.' s with
  | none => parseInt s
  | some i => JSNumber.ofDigits false ((s.take i).map charDigit) ((s.drop (i + 1)).map charDigit)

/-- The exponent part of `Number::toString`: `e+N` or `e-N`. -/
def expPart (neg : Bool) (e : Nat) : Str :=
  ['e', if neg then '-' else '+'] ++ natToStr e

/-- The mantissa of the exponent form: `d` or `d.ddd` for the significant
digits. -/
def mantissaStr (sig : List (Fin 10)) : Str :=
  match sig with
  | [] => ['0']
  | [d] => [digitChar d]
  | d :: rest => digitChar d :: '.' :: rest.map digitChar

/-- The operation `Number::toString(x)` (radix 10) on a non-negative number. -/
def absToString (x : JSNumber) : Str :=
  let w := natDigits x.whole
  let f := x.fracDigits
  if w.isEmpty && f.isEmpty then ['0']
  else if !w.isEmpty then
    if w.length ≤ 21 then
      if f.isEmpty then w.map digitChar else w.map digitChar ++ '.' :: f.map digitChar
    else mantissaStr (stripTrailingZeros (w ++ f)) ++ expPart false (w.length - 1)
  else
    let z := (f.takeWhile (· = 0)).length
    if z < 6 then '0' :: '.' :: f.map digitChar
    else mantissaStr (stripLeadingZeros f) ++ expPart true (z + 1)

/-- The operation `Number::toString(x)`, as used by `String(x)` and by
template literals. -/
def numberToString (x : JSNumber) : Str :=
  if x.neg && !x.isZero then '-' :: absToString x else absToString x

/-! ## String to number conversion -/

/-- The value of a digit character in a radix up to 16, when it is one. -/
def radixDigit (radix : Nat) (c : Char) : Option Nat :=
  let n := c.toNat
  let v := if 48 ≤ n ∧ n ≤ 57 then some (n - 48)
    else if 97 ≤ n ∧ n ≤ 102 then some (n - 87)
    else if 65 ≤ n ∧ n ≤ 70 then some (n - 55)
    else none
  v.bind fun d => if d < radix then some d else none

/-- The value of a non-empty string of digits in the given radix. -/
def radixValue (radix : Nat) (s : Str) : Option Nat :=
  if s.isEmpty then none
  else s.foldl (fun acc c => acc.bind fun a => (radixDigit radix c).map fun d => radix * a + d) (some 0)

/-- Move the decimal point of `w.f` by `e` places to the right. -/
def shiftRight (w f : List (Fin 10)) (e : Nat) : List (Fin 10) × List (Fin 10) :=
  (w ++ (f ++ List.replicate e 0).take e, f.drop e)

/-- Move the decimal point of `w.f` by `e` places to the left. -/
def shiftLeft (w f : List (Fin 10)) (e : Nat) : List (Fin 10) × List (Fin 10) :=
  let w0 := List.replicate e 0 ++ w
  (w0.take (w0.length - e), w0.drop (w0.length - e) ++ f)

/-- The grammar `StrUnsignedDecimalLiteral` without `Infinity`: the mantissa
`digits`, `digits.`, `digits.digits` or `.digits`, then an optional exponent. -/
def strDecimal (neg : Bool) (s : Str) : JSNumeric :=
  let (m, ex) : Str × Option Str :=
    match indexOf 'e' (s.map Char.toLower) with
    | none => (s, none)
    | some i => (s.take i, some (s.drop (i + 1)))
  let (w, f) : Str × Str :=
    match indexOf '.' m with
    | none => (m, [])
    | some i => (m.take i, m.drop (i + 1))
  let mantOk : Bool :=
    w.all isDigit && f.all isDigit && !(w.isEmpty && f.isEmpty)
  let wd := w.map charDigit
  let fd := f.map charDigit
  if !mantOk then .nan
  else
    match ex with
    | none => .fin (JSNumber.ofDigits neg wd fd)
    | some e =>
      match e with
      | '-' :: ds =>
        if isDigits ds then
          let r := shiftLeft wd fd (digitsValue (ds.map charDigit))
          .fin (JSNumber.ofDigits neg r.1 r.2)
        else .nan
      | '+' :: ds =>
        if isDigits ds then
          let r := shiftRight wd fd (digitsValue (ds.map charDigit))
          .fin (JSNumber.ofDigits neg r.1 r.2)
        else .nan
      | ds =>
        if isDigits ds then
          let r := shiftRight wd fd (digitsValue (ds.map charDigit))
          .fin (JSNumber.ofDigits neg r.1 r.2)
        else .nan

/-- The grammar `StrUnsignedDecimalLiteral`. -/
def strUnsigned (neg : Bool) (s : Str) : JSNumeric :=
  if s = "Infinity".toList then .inf neg else strDecimal neg s

/-- The operation `StringToNumber`: the numeric value of a string, `NaN` when
it is not a `StringNumericLiteral`. -/
def stringToNumber (s : Str) : JSNumeric :=
  match trim s with
  | [] => .fin (JSNumber.ofNat 0)
  | '0' :: c :: rest =>
    if c = 'x' ∨ c = 'X' then
      match radixValue 16 rest with
      | some n => .fin (JSNumber.ofNat n)
      | none => .nan
    else if c = 'o' ∨ c = 'O' then
      match radixValue 8 rest with
      | some n => .fin (JSNumber.ofNat n)
      | none => .nan
    else if c = 'b' ∨ c = 'B' then
      match radixValue 2 rest with
      | some n => .fin (JSNumber.ofNat n)
      | none => .nan
    else strUnsigned false ('0' :: c :: rest)
  | '+' :: rest => strUnsigned false rest
  | '-' :: rest => strUnsigned true rest
  | t => strUnsigned false t

/-- The comparison `x < n` of a `ToNumber` result with a natural. -/
def JSNumeric.ltNat : JSNumeric → Nat → Bool
  | .nan, _ => false
  | .inf neg, _ => neg
  | .fin x, n => x.ltNat n

/-! ## Values -/

/-- A value held by a document: what `parseValue` returns. -/
inductive Value where
  | str (s : Str)
  | bool (b : Bool)
  | num (x : JSNumber)
  | arr (xs : List Value)

mutual
/-- Decide the equality of two values. -/
def Value.decEq : (a b : Value) → Decidable (a = b)
  | .str s, .str t =>
    if h : s = t then isTrue (by rw [h]) else isFalse (fun e => h (by injection e))
  | .bool s, .bool t =>
    if h : s = t then isTrue (by rw [h]) else isFalse (fun e => h (by injection e))
  | .num s, .num t =>
    if h : s = t then isTrue (by rw [h]) else isFalse (fun e => h (by injection e))
  | .arr xs, .arr ys =>
    match Value.decEqList xs ys with
    | isTrue h => isTrue (by rw [h])
    | isFalse h => isFalse (fun e => h (by injection e))
  | .str _, .bool _ => isFalse (fun e => by cases e)
  | .str _, .num _ => isFalse (fun e => by cases e)
  | .str _, .arr _ => isFalse (fun e => by cases e)
  | .bool _, .str _ => isFalse (fun e => by cases e)
  | .bool _, .num _ => isFalse (fun e => by cases e)
  | .bool _, .arr _ => isFalse (fun e => by cases e)
  | .num _, .str _ => isFalse (fun e => by cases e)
  | .num _, .bool _ => isFalse (fun e => by cases e)
  | .num _, .arr _ => isFalse (fun e => by cases e)
  | .arr _, .str _ => isFalse (fun e => by cases e)
  | .arr _, .bool _ => isFalse (fun e => by cases e)
  | .arr _, .num _ => isFalse (fun e => by cases e)
/-- Decide the equality of two lists of values. -/
def Value.decEqList : (xs ys : List Value) → Decidable (xs = ys)
  | [], [] => isTrue rfl
  | [], _ :: _ => isFalse (fun e => by cases e)
  | _ :: _, [] => isFalse (fun e => by cases e)
  | x :: xs, y :: ys =>
    match Value.decEq x y, Value.decEqList xs ys with
    | isTrue h, isTrue k => isTrue (by rw [h, k])
    | isFalse h, _ => isFalse (fun e => h (by injection e))
    | _, isFalse k => isFalse (fun e => k (by injection e))
end

instance : DecidableEq Value := Value.decEq

/-- The double quote character. -/
def dquote : Char := Char.ofNat 34

/-- The single quote character. -/
def squote : Char := Char.ofNat 39

/-- The call `parts.join(sep)` on strings. -/
def joinWith (sep : Str) : List Str → Str
  | [] => []
  | [p] => p
  | p :: q :: ps => p ++ sep ++ joinWith sep (q :: ps)

/-- The text of a boolean. -/
def boolToString (b : Bool) : Str := if b then "true".toList else "false".toList

mutual
/-- The operation `ToString(value)`: `String(value)` and template literals. -/
def toJSString : Value → Str
  | .str s => s
  | .bool b => boolToString b
  | .num x => numberToString x
  | .arr xs => joinWith [','] (toJSStrings xs)
/-- The operation `ToString` on the elements of an array. -/
def toJSStrings : List Value → List Str
  | [] => []
  | v :: vs => toJSString v :: toJSStrings vs
end

/-- The operation `ToNumber(value)`; an array is first converted to a string. -/
def toNumber : Value → JSNumeric
  | .str s => stringToNumber s
  | .bool b => .fin (JSNumber.ofNat (if b then 1 else 0))
  | .num x => .fin x
  | .arr xs => stringToNumber (toJSString (.arr xs))

/-- The operation `ToBoolean(value)`: truthiness. -/
def truthy : Value → Bool
  | .str s => !s.isEmpty
  | .bool b => b
  | .num x => !x.isZero
  | .arr _ => true

/-- The function `parseValue` of the source, with `fuel` bounding the depth of
the recursion into array literals. -/
def parseValueAux : Nat → Str → Value
  | 0, value => .str value
  | fuel + 1, value =>
    if (startsWith value [dquote] && endsWith value [dquote]) ||
        (startsWith value [squote] && endsWith value [squote]) then
      .str (slice1 value)
    else if value = "true".toList then .bool true
    else if value = "false".toList then .bool false
    else if isDigits value then .num (parseInt value)
    else if isDecimal value then .num (parseFloat value)
    else if startsWith value ['['] && endsWith value [']'] then
      .arr (((splitOnChar ',' (slice1 value)).map trim).map (parseValueAux fuel))
    else .str value

/-- The function `parseValue`: the typed value of a raw string.  Every
recursive call is on a shorter string, so the fuel never runs out. -/
def parseValue (value : Str) : Value := parseValueAux (value.length + 1) value

mutual
/-- The function `formatValue`: the text of a value in a serialized document. -/
def formatValue : Value → Str
  | .arr xs => '[' :: (joinWith ", ".toList (formatValues xs) ++ [']'])
  | .str s => if s.contains ' ' || s.contains ':' then dquote :: (s ++ [dquote]) else s
  | .bool b => boolToString b
  | .num x => numberToString x
/-- The function `formatValue` on the elements of an array. -/
def formatValues : List Value → List Str
  | [] => []
  | v :: vs => formatValue v :: formatValues vs
end

/-! ## Objects used as mappings -/

/-- The own enumerable properties of a JavaScript object, in the order of
`Object.keys` and `Object.entries`. -/
abbrev JSObject (α : Type) := List (Str × α)

/-- The numeric value of a property key that is an array index: a canonical
decimal numeral below `2^32 - 1`. -/
def indexValue (k : Str) : Option Nat :=
  if isDigits k && (k == ['0'] || k.head? != some '0') &&
      decide (digitsValue (k.map charDigit) < 4294967295) then
    some (digitsValue (k.map charDigit))
  else none

/-- The property key `__proto__`, whose assignment runs the inherited setter
instead of creating an own property. -/
def protoKey : Str := "__proto__".toList

namespace JSObject

variable {α : Type}

/-- The own property lookup `o[k]`; `none` stands for `undefined`.  For the
keys the validator reads nothing is inherited from the prototype chain. -/
def get? : JSObject α → Str → Option α
  | [], _ => none
  | (k', v) :: rest, k => if k' = k then some v else get? rest k

/-- The test `k in o`, for keys that the prototype chain does not define. -/
def has (o : JSObject α) (k : Str) : Bool := (o.get? k).isSome

/-- The keys of an object: `Object.keys(o)`. -/
def keys (o : JSObject α) : List Str := o.map (·.1)

/-- Overwrite the value of an existing own property, keeping its position. -/
def replace (o : JSObject α) (k : Str) (v : α) : JSObject α :=
  o.map fun e => if e.1 = k then (k, v) else e

/-- Create an array-index property: it goes before the first property that is
not an array index or that has a larger index. -/
def insertIndex (k : Str) (i : Nat) (v : α) : JSObject α → JSObject α
  | [] => [(k, v)]
  | (k', v') :: rest =>
    match indexValue k' with
    | some j => if j < i then (k', v') :: insertIndex k i v rest else (k, v) :: (k', v') :: rest
    | none => (k, v) :: (k', v') :: rest

/-- The assignment `o[k] = v` on an ordinary object. -/
def set (o : JSObject α) (k : Str) (v : α) : JSObject α :=
  if k = protoKey then o
  else if o.has k then o.replace k v
  else
    match indexValue k with
    | some i => insertIndex k i v o
    | none => o ++ [(k, v)]

/-- The object obtained by assigning the given entries, in order, to an empty
object. -/
def fromEntries (es : List (Str × α)) : JSObject α :=
  es.foldl (fun o e => o.set e.1 e.2) []

end JSObject

/-! ## Documents -/

/-- One element of a raw section: `{ key, value, line }`. -/
structure RawEntry where
  key : Str
  value : Str
  line : Nat
deriving DecidableEq, Repr

/-- The object `rawSections`: its own properties, and the array that became
its prototype when a section named `__proto__` was declared. -/
structure RawSections where
  proto : Option (List RawEntry) := none
  own : JSObject (List RawEntry) := []
deriving DecidableEq, Repr

namespace RawSections

/-- The assignment `rawSections[name] = []`. -/
def declare (r : RawSections) (name : Str) : RawSections :=
  if name = protoKey then { r with proto := some [] }
  else { r with own := r.own.set name [] }

/-- The call `rawSections[name].push(e)` for a declared section `name`. -/
def push (r : RawSections) (name : Str) (e : RawEntry) : RawSections :=
  if name = protoKey then { r with proto := r.proto.map (· ++ [e]) }
  else { r with own := r.own.map fun p => if p.1 = name then (p.1, p.2 ++ [e]) else p }

/-- The lookup `rawSections[name]`. -/
def get? (r : RawSections) (name : Str) : Option (List RawEntry) :=
  if name = protoKey then r.proto else r.own.get? name

end RawSections

/-- The class `ParsedAlnDoc`. -/
structure ParsedAlnDoc where
  header : JSObject Value := []
  data : JSObject Value := []
  footer : JSObject Value := []
  rawSections : RawSections := {}
  isValid : Bool := false
  errors : List Str := []
deriving DecidableEq

/-- One element of `errors` or `warnings`: `{ message, line }`. -/
structure ReportEntry where
  message : Str
  line : Option Nat
deriving DecidableEq, Repr

/-- The class `ValidationReport`. -/
structure ValidationReport where
  isValid : Bool := true
  errors : List ReportEntry := []
  warnings : List ReportEntry := []
deriving DecidableEq, Repr

namespace ValidationReport

/-- The method `addError(message)`; the line defaults to `null`. -/
def addError (r : ValidationReport) (message : Str) : ValidationReport :=
  { r with errors := r.errors ++ [⟨message, none⟩], isValid := false }

/-- The method `addWarning(message)`; the line defaults to `null`. -/
def addWarning (r : ValidationReport) (message : Str) : ValidationReport :=
  { r with warnings := r.warnings ++ [⟨message, none⟩] }

/-- The report holding the entries of `a` followed by those of `b`. -/
def append (a b : ValidationReport) : ValidationReport :=
  { isValid := a.isValid && b.isValid
    errors := a.errors ++ b.errors
    warnings := a.warnings ++ b.warnings }

/-- The messages of the errors of a report. -/
def errorMessages (r : ValidationReport) : List Str := r.errors.map (·.message)

/-- The messages of the warnings of a report. -/
def warningMessages (r : ValidationReport) : List Str := r.warnings.map (·.message)

end ValidationReport

/-- Decide the equality of two outcomes of a computation that may throw. -/
instance decEqExcept {ε α : Type} [DecidableEq ε] [DecidableEq α] : DecidableEq (Except ε α)
  | .ok a, .ok b => if h : a = b then isTrue (by rw [h]) else isFalse (fun e => h (by injection e))
  | .error a, .error b =>
    if h : a = b then isTrue (by rw [h]) else isFalse (fun e => h (by injection e))
  | .ok _, .error _ => isFalse (fun e => by cases e)
  | .error _, .ok _ => isFalse (fun e => by cases e)

/-! ## Parsing -/

/-- The variables of the loop of `parseAlnDocument`. -/
structure ParseState where
  doc : ParsedAlnDoc := {}
  currentSection : Option Str := none
  lineNumber : Nat := 0
deriving DecidableEq

/-- The error of `parseAlnDocument` on an empty text. -/
def invalidInputMsg : Str := "Invalid input: text must be non-empty string".toList

/-- Store a coerced key-value pair in the mapping of a recognized section. -/
def storeEntry (doc : ParsedAlnDoc) (sec key value : Str) : ParsedAlnDoc :=
  if sec = "header".toList then { doc with header := doc.header.set key (parseValue value) }
  else if sec = "data".toList then { doc with data := doc.data.set key (parseValue value) }
  else if sec = "footer".toList then { doc with footer := doc.footer.set key (parseValue value) }
  else doc

/-- One iteration of the loop of `parseAlnDocument`. -/
def parseLine (st : ParseState) (line : Str) : ParseState :=
  let lineNumber := st.lineNumber + 1
  let trimmed := trim line
  if trimmed.isEmpty || startsWith trimmed ['#'] then
    { st with lineNumber := lineNumber }
  else if startsWith trimmed ['['] && endsWith trimmed [']'] then
    let sec := toLowerCase (slice1 trimmed)
    { doc := { st.doc with rawSections := st.doc.rawSections.declare sec }
      currentSection := some sec
      lineNumber := lineNumber }
  else
    match indexOf ':' trimmed, st.currentSection with
    | some colonIndex, some sec =>
      if 0 < colonIndex ∧ ¬ sec.isEmpty then
        let key := trim (trimmed.take colonIndex)
        let value := trim (trimmed.drop (colonIndex + 1))
        let doc := storeEntry st.doc sec key value
        { doc := { doc with rawSections := doc.rawSections.push sec ⟨key, value, lineNumber⟩ }
          currentSection := some sec
          lineNumber := lineNumber }
      else { st with lineNumber := lineNumber }
    | _, _ => { st with lineNumber := lineNumber }

/-- The function `parseAlnDocument`. -/
def parseAlnDocument (text : Str) : ParsedAlnDoc :=
  if text.isEmpty then { errors := [invalidInputMsg] }
  else ((splitOnChar '\n' text).foldl parseLine {}).doc

/-! ## Validation -/

/-- The key `op_code`. -/
def kOpCode : Str := "op_code".toList
/-- The key `from`. -/
def kFrom : Str := "from".toList
/-- The key `to`. -/
def kTo : Str := "to".toList
/-- The key `nonce`. -/
def kNonce : Str := "nonce".toList
/-- The key `signature`. -/
def kSignature : Str := "signature".toList
/-- The key `timestamp`. -/
def kTimestamp : Str := "timestamp".toList
/-- The key `gas_limit`. -/
def kGasLimit : Str := "gas_limit".toList
/-- The key `amount`. -/
def kAmount : Str := "amount".toList
/-- The op-code `transfer`. -/
def opTransfer : Str := "transfer".toList
/-- The op-code `governance_proposal`. -/
def opProposal : Str := "governance_proposal".toList

/-- The error of rule 1 for the section `s`. -/
def missingSectionMsg (s : Str) : Str :=
  "Missing required [".toList ++ s ++ "] section".toList
/-- The error of rule 2 for a field. -/
def missingHeaderFieldMsg (field : Str) : Str :=
  "Missing required header field: ".toList ++ field
/-- The error of rule 3 for the text of the offending value. -/
def invalidOpCodeMsg (v : Str) : Str := "Invalid op_code: ".toList ++ v
/-- The error of rule 4 on `header.from`. -/
def fromErr : Str := "Invalid from address format: must start with 'aln1'".toList
/-- The error of rule 4 on `header.to`. -/
def toErr : Str := "Invalid to address format: must start with 'aln1'".toList
/-- The error of rule 5. -/
def nonceErr : Str := "Nonce must be non-negative integer".toList
/-- The error of rule 6 for a field. -/
def missingFooterFieldMsg (field : Str) : Str :=
  "Missing required footer field: ".toList ++ field
/-- The warning of rule 7. -/
def sigWarn : Str := "Signature should use ed25519: prefix".toList
/-- The error of rule 8. -/
def timestampErr : Str := "Timestamp must be positive integer (Unix timestamp)".toList
/-- The warning of rule 9. -/
def gasWarn : Str := "Gas limit below minimum (21000)".toList
/-- The error of rule 10 for a transfer. -/
def transferErr : Str := "Transfer requires amount in data section".toList
/-- The error of rule 10 for a field of a governance proposal. -/
def proposalFieldMsg (field : Str) : Str :=
  "Governance proposal requires ".toList ++ field ++ " in data section".toList
/-- The expression named by the `TypeError` of rule 4 on `header.from`. -/
def exprFrom : Str := "doc.header.from".toList
/-- The expression named by the `TypeError` of rule 4 on `header.to`. -/
def exprTo : Str := "doc.header.to".toList
/-- The expression named by the `TypeError` of rule 7. -/
def exprSig : Str := "doc.footer.signature".toList
/-- The prefix `aln1` of an address. -/
def addrPrefix : Str := "aln1".toList
/-- The prefix `ed25519:` of a signature. -/
def sigPrefix : Str := "ed25519:".toList

/-- The constant `requiredHeaderFields`. -/
def requiredHeaderFields : List Str :=
  [kOpCode, kFrom, kTo, kNonce]

/-- The constant `validOpCodes`. -/
def validOpCodes : List Str :=
  [opTransfer, opProposal, "governance_vote".toList,
   "migration_lock".toList, "migration_mint".toList, "migration_burn".toList,
   "token_mint".toList, "token_transfer".toList, "delegation".toList]

/-- The constant `requiredFooterFields`. -/
def requiredFooterFields : List Str := [kSignature, kTimestamp]

/-- The constant `requiredFields` of a governance proposal. -/
def requiredProposalFields : List Str :=
  ["proposal_id".toList, "title".toList, "category".toList]

/-- The call `validOpCodes.includes(v)`: only a string can be an element. -/
def includesOpCode : Value → Bool
  | .str s => validOpCodes.contains s
  | _ => false

/-- The test `typeof v === 'number'`. -/
def isNumber : Value → Bool
  | .num _ => true
  | _ => false

/-- The test `!o[k]`: the property is absent or falsy. -/
def falsyAt (o : JSObject Value) (k : Str) : Bool :=
  match o.get? k with
  | none => true
  | some v => !truthy v

/-- Rule 1: the three sections must have keys. -/
def rule1 (doc : ParsedAlnDoc) (r : ValidationReport) : ValidationReport :=
  let r := if doc.header.keys.length = 0 then
    r.addError (missingSectionMsg "header".toList) else r
  let r := if doc.data.keys.length = 0 then
    r.addError (missingSectionMsg "data".toList) else r
  if doc.footer.keys.length = 0 then
    r.addError (missingSectionMsg "footer".toList) else r

/-- The loops of rules 2, 6 and 10: one error for every field of `fields`
that `missing` reports. -/
def requireFields (missing : Str → Bool) (msg : Str → Str) (fields : List Str)
    (r : ValidationReport) : ValidationReport :=
  fields.foldl (fun r field => if missing field then r.addError (msg field) else r) r

/-- Rule 2: the required header fields. -/
def rule2 (doc : ParsedAlnDoc) (r : ValidationReport) : ValidationReport :=
  requireFields (fun field => !doc.header.has field)
    missingHeaderFieldMsg requiredHeaderFields r

/-- Rule 3: the op-code domain. -/
def rule3 (doc : ParsedAlnDoc) (r : ValidationReport) : ValidationReport :=
  match doc.header.get? kOpCode with
  | none => r
  | some v =>
    if truthy v && !includesOpCode v then
      r.addError (invalidOpCodeMsg (toJSString v))
    else r

/-- The test `v && !v.startsWith(p)` of rules 4 and 7 on the property value
`v`: calling `startsWith` on a truthy value that is not a string throws a
`TypeError`. -/
def lacksPrefix (name p : Str) : Option Value → Except Str Bool
  | none => .ok false
  | some v =>
    if !truthy v then .ok false
    else
      match v with
      | .str s => .ok (!startsWith s p)
      | _ => .error ("TypeError: ".toList ++ name ++ ".startsWith is not a function".toList)

/-- Rule 4: the shape of the addresses. -/
def rule4 (doc : ParsedAlnDoc) (r : ValidationReport) : Except Str ValidationReport := do
  let badFrom ← lacksPrefix exprFrom addrPrefix (doc.header.get? kFrom)
  let r := if badFrom then r.addError fromErr else r
  let badTo ← lacksPrefix exprTo addrPrefix (doc.header.get? kTo)
  return if badTo then r.addError toErr else r

/-- Rule 5: the nonce. -/
def rule5 (doc : ParsedAlnDoc) (r : ValidationReport) : ValidationReport :=
  match doc.header.get? kNonce with
  | none => r
  | some (.num x) =>
    if x.ltZero then r.addError nonceErr else r
  | some _ => r.addError nonceErr

/-- Rule 6: the required footer fields. -/
def rule6 (doc : ParsedAlnDoc) (r : ValidationReport) : ValidationReport :=
  requireFields (fun field => !doc.footer.has field)
    missingFooterFieldMsg requiredFooterFields r

/-- Rule 7: the style of the signature. -/
def rule7 (doc : ParsedAlnDoc) (r : ValidationReport) : Except Str ValidationReport := do
  let bad ← lacksPrefix exprSig sigPrefix (doc.footer.get? kSignature)
  return if bad then r.addWarning sigWarn else r

/-- Rule 8: the timestamp. -/
def rule8 (doc : ParsedAlnDoc) (r : ValidationReport) : ValidationReport :=
  match doc.footer.get? kTimestamp with
  | none => r
  | some (.num x) =>
    if x.leZero then r.addError timestampErr else r
  | some _ => r.addError timestampErr

/-- Rule 9: the gas limit. -/
def rule9 (doc : ParsedAlnDoc) (r : ValidationReport) : ValidationReport :=
  match doc.footer.get? kGasLimit with
  | none => r
  | some v =>
    if (toNumber v).ltNat 21000 then r.addWarning gasWarn else r

/-- Rule 10: the payload of a transfer and of a governance proposal. -/
def rule10 (doc : ParsedAlnDoc) (r : ValidationReport) : ValidationReport :=
  let r :=
    if doc.header.get? kOpCode = some (.str opTransfer) then
      if falsyAt doc.data kAmount then r.addError transferErr else r
    else r
  if doc.header.get? kOpCode = some (.str opProposal) then
    requireFields (fun field => falsyAt doc.data field) proposalFieldMsg requiredProposalFields r
  else r

/-- The function `validateChainlexemes`; `Except.error` is a thrown
`TypeError`. -/
def validateChainlexemes (doc : ParsedAlnDoc) : Except Str ValidationReport := do
  let r : ValidationReport := {}
  let r := rule1 doc r
  let r := rule2 doc r
  let r := rule3 doc r
  let r ← rule4 doc r
  let r := rule5 doc r
  let r := rule6 doc r
  let r ← rule7 doc r
  let r := rule8 doc r
  let r := rule9 doc r
  return rule10 doc r

/-- The report with the one error `m` when `b` holds, the empty report
otherwise. -/
def flagError (b : Bool) (m : Str) : ValidationReport :=
  if b then ({} : ValidationReport).addError m else {}

/-- The report with the one warning `m` when `b` holds, the empty report
otherwise. -/
def flagWarning (b : Bool) (m : Str) : ValidationReport :=
  if b then ({} : ValidationReport).addWarning m else {}

/-- The report of a run of the validator in which the prefix tests of rules 4
and 7 gave `bf`, `bt` and `bs`: the entries of the rules, in order. -/
def reportOf (doc : ParsedAlnDoc) (bf bt bs : Bool) : ValidationReport :=
  (rule1 doc {}).append <| (rule2 doc {}).append <| (rule3 doc {}).append <|
  (flagError bf fromErr).append <| (flagError bt toErr).append <|
  (rule5 doc {}).append <| (rule6 doc {}).append <| (flagWarning bs sigWarn).append <|
  (rule8 doc {}).append <| (rule9 doc {}).append (rule10 doc {})

/-- The three prefix tests of a run of the validator. -/
def prefixTests (doc : ParsedAlnDoc) : Except Str (Bool × Bool × Bool) := do
  let bf ← lacksPrefix exprFrom addrPrefix (doc.header.get? kFrom)
  let bt ← lacksPrefix exprTo addrPrefix (doc.header.get? kTo)
  let bs ← lacksPrefix exprSig sigPrefix (doc.footer.get? kSignature)
  return (bf, bt, bs)

/-- The invariant of a report: it is valid exactly when it has no error. -/
def ValidationReport.Consistent (r : ValidationReport) : Prop :=
  r.isValid = true ↔ r.errors = []

/-- The test of rule 5 on the property value: not a number, or below zero. -/
def badNonce : Option Value → Bool
  | none => false
  | some (.num x) => x.ltZero
  | some _ => true

/-- The test of rule 8 on the property value: not a number, or not above
zero. -/
def badTimestamp : Option Value → Bool
  | none => false
  | some (.num x) => x.leZero
  | some _ => true

/-- A property value on which `v && !v.startsWith(p)` does not throw: absent,
falsy, or a string. -/
def strOrFalsy : Option Value → Bool
  | none => true
  | some (.str _) => true
  | some v => !truthy v

/-! ## Serialization -/

/-- One loop of `serializeAlnDocument`: append a line for every entry of a
mapping. -/
def appendEntries (output : Str) (o : JSObject Value) : Str :=
  o.foldl (fun out e => out ++ (e.1 ++ ": ".toList ++ formatValue e.2 ++ "\n".toList)) output

/-- The function `serializeAlnDocument`. -/
def serializeAlnDocument (doc : ParsedAlnDoc) : Str :=
  let output := "[header]\n".toList
  let output := appendEntries output doc.header
  let output := output ++ "\n[data]\n".toList
  let output := appendEntries output doc.data
  let output := output ++ "\n[footer]\n".toList
  appendEntries output doc.footer

/-! ## Reading a serialized document back -/

/-- The line that the serializer writes for an entry, without its line break. -/
def entryLine (e : Str × Value) : Str := e.1 ++ ": ".toList ++ formatValue e.2

/-- The entry that the scanner reads from the line of an entry: the key with
the coerced text of the value. -/
def reread (e : Str × Value) : Str × Value := (e.1, parseValue (formatValue e.2))

/-- The part of the loop state of `parseAlnDocument` that decides the three
mappings: the current section and the mappings themselves. -/
structure ScanView where
  currentSection : Option Str
  header : JSObject Value
  data : JSObject Value
  footer : JSObject Value

/-- The view of a loop state. -/
def ParseState.view (st : ParseState) : ScanView :=
  ⟨st.currentSection, st.doc.header, st.doc.data, st.doc.footer⟩

/-- The effect of `storeEntry` on a view. -/
def ScanView.store (v : ScanView) (sec key value : Str) : ScanView :=
  if sec = "header".toList then { v with header := v.header.set key (parseValue value) }
  else if sec = "data".toList then { v with data := v.data.set key (parseValue value) }
  else if sec = "footer".toList then { v with footer := v.footer.set key (parseValue value) }
  else v

/-- The effect of one iteration of the loop of `parseAlnDocument` on a view. -/
def ScanView.step (v : ScanView) (line : Str) : ScanView :=
  let trimmed := trim line
  if trimmed.isEmpty || startsWith trimmed ['#'] then v
  else if startsWith trimmed ['['] && endsWith trimmed [']'] then
    { v with currentSection := some (toLowerCase (slice1 trimmed)) }
  else
    match indexOf ':' trimmed, v.currentSection with
    | some colonIndex, some sec =>
      if 0 < colonIndex ∧ ¬ sec.isEmpty then
        v.store sec (trim (trimmed.take colonIndex)) (trim (trimmed.drop (colonIndex + 1)))
      else v
    | _, _ => v

/-- An entry whose serialized line the scanner reads back as one key-value
line with the same key and the text of the value: the key is not empty, has no
white space at either end, no colon and no line break and does not begin with
`#`; the text of the value has no line break and no white space at either end;
and the line is not a section marker. -/
structure CleanEntry (e : Str × Value) : Prop where
  key_ne : e.1 ≠ []
  key_trim : trim e.1 = e.1
  key_colon : ':' ∉ e.1
  key_nl : '\n' ∉ e.1
  key_hash : e.1.head? ≠ some '#'
  val_nl : '\n' ∉ formatValue e.2
  val_trim : trim (formatValue e.2) = formatValue e.2
  not_marker : ¬ (e.1.head? = some '[' ∧ (formatValue e.2).getLast? = some ']')

/-- The lines that the serializer writes for a mapping. -/
def body (o : JSObject Value) : Str := (o.map fun e => entryLine e ++ ['\n']).flatten

/-- Apply a function to the values of an object. -/
def JSObject.mapValues {α β : Type} (g : α → β) (o : JSObject α) : JSObject β :=
  o.map fun e => (e.1, g e.2)

/-- The canonical text of the number is a plain decimal numeral: the number is
not negative, is below `10^21` and is an integer or at least `10^-6`. -/
def JSNumber.isPlain (x : JSNumber) : Bool :=
  !x.neg && decide ((natDigits x.whole).length ≤ 21) &&
    (x.whole != 0 || x.frac.isNone || decide ((x.fracDigits.takeWhile (· = 0)).length < 6))

mutual
/-- A value that the coercer reads back from its serialized text: a boolean; a
plain number; a string that contains a space or a colon (it is written in
quotes), or else has no white space at either end and is returned unchanged by
the coercer; a non-empty array of such values whose texts contain no comma. -/
def faithful : Value → Bool
  | .str s =>
    if s.contains ' ' || s.contains ':' then true
    else decide (trim s = s) && decide (parseValue s = .str s)
  | .bool _ => true
  | .num x => x.isPlain
  | .arr xs => !xs.isEmpty && faithfulItems xs
/-- The elements of an array that the coercer reads back. -/
def faithfulItems : List Value → Bool
  | [] => true
  | v :: vs => faithful v && !(formatValue v).contains ',' && faithfulItems vs
end

/-- No run of consecutive digits and dots of the string, scanned with `n`
digits already seen in the current run, holds more than 15 digits. -/
def shortNumeralsAux : Nat → Str → Bool
  | _, [] => true
  | n, c :: cs =>
    if isDigit c then decide (n + 1 ≤ 15) && shortNumeralsAux (n + 1) cs
    else if c = '.' then shortNumeralsAux n cs
    else shortNumeralsAux 0 cs

/-- No run of consecutive digits and dots of the string holds more than 15
digits.  Every numeral that `parseInt` or `parseFloat` reads inside such a
string has at most 15 digits, so it lies between `10^-15` and `10^15` and is the
shortest decimal of the double nearest to it: the double computed is denoted by
the numeral itself. -/
def shortNumerals (s : Str) : Bool := shortNumeralsAux 0 s

/-- A scalar value whose serialized text is reproduced when it is read back and
serialized again: a boolean; a number whose canonical text has short numerals;
a string that contains a space or a colon (it is written in quotes), or else
has short numerals and is the text of its own coerced value. -/
def canonicalScalar : Value → Bool
  | .str s =>
    if s.contains ' ' || s.contains ':' then true
    else decide (formatValue (parseValue s) = s) && shortNumerals s
  | .bool _ => true
  | .num x => shortNumerals (numberToString x)
  | .arr _ => false

/-- The characters of the canonical text of a number: digits, `.`, `e`, `+`
and `-`. -/
def numChar (c : Char) : Bool :=
  let n := c.toNat
  (decide (48 ≤ n) && decide (n ≤ 57)) || n == 46 || n == 101 || n == 43 || n == 45

/-- Decide whether an entry is clean. -/
instance decCleanEntry (e : Str × Value) : Decidable (CleanEntry e) :=
  decidable_of_iff
    (e.1 ≠ [] ∧ trim e.1 = e.1 ∧ ':' ∉ e.1 ∧ '\n' ∉ e.1 ∧ e.1.head? ≠ some '#' ∧
      '\n' ∉ formatValue e.2 ∧ trim (formatValue e.2) = formatValue e.2 ∧
      ¬ (e.1.head? = some '[' ∧ (formatValue e.2).getLast? = some ']'))
    ⟨fun h => ⟨h.1, h.2.1, h.2.2.1, h.2.2.2.1, h.2.2.2.2.1, h.2.2.2.2.2.1, h.2.2.2.2.2.2.1,
        h.2.2.2.2.2.2.2⟩,
      fun h => ⟨h.key_ne, h.key_trim, h.key_colon, h.key_nl, h.key_hash, h.val_nl, h.val_trim,
        h.not_marker⟩⟩

/-! ## Documents used as examples -/

/-- The valid transfer document of the specification. -/
def validTransferDoc : ParsedAlnDoc :=
  { header := [(kOpCode, .str opTransfer), (kFrom, .str "aln1abc".toList),
      (kTo, .str "aln1def".toList), (kNonce, .num (.ofNat 0))]
    data := [(kAmount, .str "5".toList)]
    footer := [(kSignature, .str "ed25519:00".toList), (kTimestamp, .num (.ofNat 1700000000))] }

/-- The valid transfer document with a gas limit below the minimum. -/
def lowGasDoc : ParsedAlnDoc :=
  { validTransferDoc with
    footer := validTransferDoc.footer ++ [(kGasLimit, .num (.ofNat 10000))] }

/-- The valid transfer document with the sender `bob`. -/
def bobDoc : ParsedAlnDoc :=
  { validTransferDoc with
    header := [(kOpCode, .str opTransfer), (kFrom, .str "bob".toList),
      (kTo, .str "aln1def".toList), (kNonce, .num (.ofNat 0))] }

/-- The text of the valid transfer document with the op-code `0`. -/
def zeroOpCodeText : Str :=
  ("[header]\nop_code: 0\nfrom: aln1abc\nto: aln1def\nnonce: 0\n" ++
   "[data]\namount: 5\n[footer]\nsignature: ed25519:00\ntimestamp: 1700000000").toList

/-- The text of the valid transfer document with the nonce `3.14`. -/
def floatNonceText : Str :=
  ("[header]\nop_code: transfer\nfrom: aln1abc\nto: aln1def\nnonce: 3.14\n" ++
   "[data]\namount: 5\n[footer]\nsignature: ed25519:00\ntimestamp: 1700000000").toList

/-- A document with the string value `007`, as parsed from the quoted text. -/
def leadingZeroDoc : ParsedAlnDoc :=
  { header := [("zip".toList, .str "007".toList)] }

/-- A document with a quoted string, a number, a boolean and an array. -/
def mixedDoc : ParsedAlnDoc :=
  { header := [(kOpCode, .str opTransfer), (kNonce, .num (.ofNat 7))]
    data := [("memo".toList, .str "to: bob".toList), ("ok".toList, .bool true),
      ("tags".toList, .arr [.str "a b".toList, .num (parseFloat "2.5".toList)])]
    footer := [(kTimestamp, .num (.ofNat 1700000000))] }

/-- The number of an integer. -/
def JSNumber.ofInt (i : Int) : JSNumber := ⟨decide (i < 0), i.natAbs, none⟩

/-- The valid transfer document with the string `0` as amount. -/
def zeroStringAmountDoc : ParsedAlnDoc :=
  { validTransferDoc with data := [(kAmount, .str "0".toList)] }

/-- A governance proposal, otherwise valid, whose data holds the given
entries. -/
def proposalDoc (data : JSObject Value) : ParsedAlnDoc :=
  { header := [(kOpCode, .str opProposal), (kFrom, .str "aln1abc".toList),
      (kTo, .str "aln1def".toList), (kNonce, .num (.ofNat 0))]
    data := data
    footer := [(kSignature, .str "ed25519:00".toList), (kTimestamp, .num (.ofNat 1700000000))] }

/-- The valid transfer document with the given gas limit. -/
def gasDoc (g : Int) : ParsedAlnDoc :=
  { validTransferDoc with
    footer := validTransferDoc.footer ++ [(kGasLimit, .num (.ofInt g))] }

/-- The values of a list of results, when none is missing. -/
def allSome {α : Type} : List (Option α) → Option (List α)
  | [] => some []
  | none :: _ => none
  | some a :: rest => (allSome rest).map (a :: ·)

/-- The function `parseValue` run with a bound `fuel` on the depth of its
recursion: `none` when the bound is reached before a value is returned. -/
def parseValueFuel : Nat → Str → Option Value
  | 0, _ => none
  | fuel + 1, value =>
    if (startsWith value [dquote] && endsWith value [dquote]) ||
        (startsWith value [squote] && endsWith value [squote]) then
      some (.str (slice1 value))
    else if value = "true".toList then some (.bool true)
    else if value = "false".toList then some (.bool false)
    else if isDigits value then some (.num (parseInt value))
    else if isDecimal value then some (.num (parseFloat value))
    else if startsWith value ['['] && endsWith value [']'] then
      (allSome (((splitOnChar ',' (slice1 value)).map trim).map (parseValueFuel fuel))).map .arr
    else some (.str value)

/-! ## The kinds of lines -/

/-- A line that the loop skips: blank, or a comment. -/
def isSkippedLine (line : Str) : Bool :=
  (trim line).isEmpty || startsWith (trim line) ['#']

/-- A line that declares a section: not skipped, and its trimmed content
begins with `[` and ends with `]`. -/
def isMarkerLine (line : Str) : Bool :=
  !isSkippedLine line && (startsWith (trim line) ['['] && endsWith (trim line) [']'])

/-- The section name that a marker line declares. -/
def markerName (line : Str) : Str := toLowerCase (slice1 (trim line))

/-- Every line of the text that declares a section holds ASCII characters
only, so that the names of the sections are the ones that
`String.prototype.toLowerCase` gives. -/
def asciiMarkers (text : Str) : Bool :=
  (splitOnChar '\n' text).all fun line =>
    !isMarkerLine line || line.all fun c => decide (c.toNat < 128)

/-- The key and the raw value that the loop reads from a line that is neither
skipped nor a marker: the trimmed texts before and after the first colon, when
that colon is at a position greater than zero. -/
def keyValueOf (line : Str) : Option (Str × Str) :=
  if isSkippedLine line || isMarkerLine line then none
  else
    match indexOf ':' (trim line) with
    | some i =>
      if 0 < i then some (trim ((trim line).take i), trim ((trim line).drop (i + 1))) else none
    | none => none

/-- The loop state after a line that contributes the key `key` and the raw
value `value` under the section `sec`. -/
def ParseState.withEntry (st : ParseState) (sec key value : Str) : ParseState :=
  { doc := { storeEntry st.doc sec key value with
             rawSections := (storeEntry st.doc sec key value).rawSections.push sec
               ⟨key, value, st.lineNumber + 1⟩ }
    currentSection := some sec
    lineNumber := st.lineNumber + 1 }

/-- The loop state after a line that contributes nothing. -/
def ParseState.skip (st : ParseState) : ParseState :=
  { st with lineNumber := st.lineNumber + 1 }

/-- The loop state after a marker line that declares the section `sec`. -/
def ParseState.declare (st : ParseState) (sec : Str) : ParseState :=
  { doc := { st.doc with rawSections := st.doc.rawSections.declare sec }
    currentSection := some sec
    lineNumber := st.lineNumber + 1 }

/-- The invariant of the raw sections in the loop of the parser: the current
section has a list, and the entries of every list have increasing line numbers
that do not exceed the number of lines read. -/
structure ParseState.Good (st : ParseState) : Prop where
  declared : ∀ sec, st.currentSection = some sec → sec ≠ [] →
    (st.doc.rawSections.get? sec).isSome = true
  ordered : ∀ name es, st.doc.rawSections.get? name = some es →
    es.Pairwise (fun a b => a.line < b.line) ∧ ∀ e ∈ es, e.line ≤ st.lineNumber

/-- The mapping of a document for a section name; empty for a name that is
not `header`, `data` or `footer`. -/
def ParsedAlnDoc.mapping (doc : ParsedAlnDoc) (name : Str) : JSObject Value :=
  if name = "header".toList then doc.header
  else if name = "data".toList then doc.data
  else if name = "footer".toList then doc.footer
  else []

/-- The names of the three recognized sections. -/
def recognizedSections : List Str := ["header".toList, "data".toList, "footer".toList]

/-- The key-value pairs of the lines that the loop reads under the section
`name`, in text order, starting from the current section `cur`. -/
def sectionEntries (name : Str) : Option Str → List Str → List (Str × Str)
  | _, [] => []
  | cur, line :: rest =>
    if isSkippedLine line then sectionEntries name cur rest
    else if isMarkerLine line then sectionEntries name (some (markerName line)) rest
    else
      match keyValueOf line, cur with
      | some kv, some sec =>
        if sec ≠ [] ∧ sec = name then kv :: sectionEntries name cur rest
        else sectionEntries name cur rest
      | _, _ => sectionEntries name cur rest

/-- Add a key at the end of a list of keys unless the list has it. -/
def addKey (ks : List Str) (k : Str) : List Str := if k ∈ ks then ks else ks ++ [k]

/-- The keys of a sequence, each at the place of its first occurrence. -/
def firstOccurrences (ks : List Str) : List Str := ks.foldl addKey []

/-- The number of binary digits of a natural, with `fuel` bounding the
recursion. -/
def bitLengthAux : Nat → Nat → Nat
  | 0, _ => 0
  | fuel + 1, n => if n = 0 then 0 else bitLengthAux fuel (n / 2) + 1

/-- The number of binary digits of a natural. -/
def bitLength (n : Nat) : Nat := bitLengthAux n n

/-- The value of the IEEE-754 double nearest to a natural below the overflow
threshold: the natural is rounded to 53 significant binary digits, ties going
to the even significand.  It is the value of the Number that `parseInt`
returns for a numeral of at most 20 digits. -/
def nearestDouble (n : Nat) : Nat :=
  let e := bitLength n - 53
  let q := n / 2 ^ e
  let r := n % 2 ^ e
  if 2 * r < 2 ^ e ∨ (2 * r = 2 ^ e ∧ q % 2 = 0) then q * 2 ^ e else (q + 1) * 2 ^ e

/-- The value of the last entry with the given key in a sequence of entries. -/
def lastValue {α : Type} : List (Str × α) → Str → Option α
  | [], _ => none
  | e :: rest, k =>
    match lastValue rest k with
    | some w => some w
    | none => if e.1 = k then some e.2 else none

/-! ## The validator as a sequence of independent rules -/

namespace ValidationReport

theorem append_empty (r : ValidationReport) : r.append {} = r := by
  cases r; simp [append]

theorem empty_append (r : ValidationReport) : ({} : ValidationReport).append r = r := by
  cases r; simp [append]

theorem append_assoc (a b c : ValidationReport) :
    (a.append b).append c = a.append (b.append c) := by
  simp [append, Bool.and_assoc]

theorem addError_eq_append (r : ValidationReport) (m : Str) :
    r.addError m = r.append (({} : ValidationReport).addError m) := by
  simp [append, addError]

theorem addWarning_eq_append (r : ValidationReport) (m : Str) :
    r.addWarning m = r.append (({} : ValidationReport).addWarning m) := by
  simp [append, addWarning]

theorem consistent_empty : Consistent {} := by simp [Consistent]

theorem consistent_addError (r : ValidationReport) (m : Str) : Consistent (r.addError m) := by
  simp [Consistent, addError]

theorem consistent_addWarning {r : ValidationReport} (h : Consistent r) (m : Str) :
    Consistent (r.addWarning m) := by
  simpa [Consistent, addWarning] using h

theorem consistent_append {a b : ValidationReport} (ha : Consistent a) (hb : Consistent b) :
    Consistent (a.append b) := by
  simp only [Consistent] at *
  simp [append, ha, hb]

end ValidationReport

open ValidationReport

theorem requireFields_append (missing : Str → Bool) (msg : Str → Str) (fields : List Str)
    (r : ValidationReport) :
    requireFields missing msg fields r = r.append (requireFields missing msg fields {}) := by
  induction fields generalizing r with
  | nil => simp [requireFields, append_empty]
  | cons f fs ih =>
    have step : ∀ r : ValidationReport,
        requireFields missing msg (f :: fs) r =
          requireFields missing msg fs (if missing f then r.addError (msg f) else r) := by
      intro r; simp [requireFields]
    rw [step r, step {}, ih, ih (if missing f then _ else _)]
    by_cases hm : missing f = true
    · simp only [hm, if_true]
      rw [addError_eq_append r, append_assoc]
    · simp only [hm, if_false, Bool.false_eq_true]
      rw [empty_append]

theorem requireFields_consistent (missing : Str → Bool) (msg : Str → Str) (fields : List Str)
    (r : ValidationReport) (h : Consistent r) :
    Consistent (requireFields missing msg fields r) := by
  induction fields generalizing r with
  | nil => simpa [requireFields] using h
  | cons f fs ih =>
    simp only [requireFields, List.foldl_cons]
    apply ih
    split
    · exact consistent_addError _ _
    · exact h

theorem rule1_append (doc : ParsedAlnDoc) (r : ValidationReport) :
    rule1 doc r = r.append (rule1 doc {}) := by
  simp only [rule1]
  split_ifs <;> simp [append, addError]

theorem rule2_append (doc : ParsedAlnDoc) (r : ValidationReport) :
    rule2 doc r = r.append (rule2 doc {}) := requireFields_append _ _ _ r

theorem rule3_append (doc : ParsedAlnDoc) (r : ValidationReport) :
    rule3 doc r = r.append (rule3 doc {}) := by
  simp only [rule3]
  split
  · rw [append_empty]
  · split_ifs
    · exact addError_eq_append _ _
    · rw [append_empty]

theorem rule5_append (doc : ParsedAlnDoc) (r : ValidationReport) :
    rule5 doc r = r.append (rule5 doc {}) := by
  simp only [rule5]
  split
  · rw [append_empty]
  · split_ifs
    · exact addError_eq_append _ _
    · rw [append_empty]
  · exact addError_eq_append _ _

theorem rule6_append (doc : ParsedAlnDoc) (r : ValidationReport) :
    rule6 doc r = r.append (rule6 doc {}) := requireFields_append _ _ _ r

theorem rule8_append (doc : ParsedAlnDoc) (r : ValidationReport) :
    rule8 doc r = r.append (rule8 doc {}) := by
  simp only [rule8]
  split
  · rw [append_empty]
  · split_ifs
    · exact addError_eq_append _ _
    · rw [append_empty]
  · exact addError_eq_append _ _

theorem rule9_append (doc : ParsedAlnDoc) (r : ValidationReport) :
    rule9 doc r = r.append (rule9 doc {}) := by
  simp only [rule9]
  split
  · rw [append_empty]
  · split_ifs
    · exact addWarning_eq_append _ _
    · rw [append_empty]

theorem rule10_append (doc : ParsedAlnDoc) (r : ValidationReport) :
    rule10 doc r = r.append (rule10 doc {}) := by
  simp only [rule10]
  split_ifs <;>
    first
    | rw [append_empty]
    | exact addError_eq_append _ _
    | (rw [requireFields_append]; try rw [requireFields_append _ _ _ (addError _ _)]
       try rw [addError_eq_append r, append_assoc])

theorem validate_eq (doc : ParsedAlnDoc) :
    validateChainlexemes doc = (prefixTests doc).map fun b => reportOf doc b.1 b.2.1 b.2.2 := by
  unfold validateChainlexemes prefixTests rule4 rule7
  cases hf : lacksPrefix exprFrom addrPrefix (doc.header.get? kFrom) with
  | error e => rfl
  | ok bf =>
    cases ht : lacksPrefix exprTo addrPrefix (doc.header.get? kTo) with
    | error e => rfl
    | ok bt =>
      cases hs : lacksPrefix exprSig sigPrefix
          (doc.footer.get? kSignature) with
      | error e => simp only [bind, Except.bind, Except.map, hs, pure, Except.pure]
      | ok bs =>
        simp only [bind, Except.bind, Except.map, hs, pure, Except.pure, Except.ok.injEq]
        rw [rule10_append, rule9_append, rule8_append, rule6_append, rule5_append]
        rw [rule1_append doc {}, rule2_append, rule3_append]
        simp only [reportOf, flagError, flagWarning, fromErr, toErr, sigWarn, empty_append]
        cases bf <;> cases bt <;> cases bs <;>
          simp [append, addError, addWarning, Bool.and_assoc]

/-! ## The messages of each rule -/

theorem errorMessages_append (a b : ValidationReport) :
    (a.append b).errorMessages = a.errorMessages ++ b.errorMessages := by
  simp [errorMessages, append]

theorem warningMessages_append (a b : ValidationReport) :
    (a.append b).warningMessages = a.warningMessages ++ b.warningMessages := by
  simp [warningMessages, append]

theorem requireFields_messages (missing : Str → Bool) (msg : Str → Str) (fields : List Str) :
    (requireFields missing msg fields {}).errorMessages = (fields.filter missing).map msg := by
  induction fields with
  | nil => rfl
  | cons f fs ih =>
    have step : requireFields missing msg (f :: fs) {} =
        requireFields missing msg fs (if missing f then ({} : ValidationReport).addError (msg f) else {}) := by
      simp [requireFields]
    rw [step, requireFields_append, errorMessages_append, ih]
    by_cases hm : missing f = true
    · simp [hm, errorMessages, addError]
    · simp [hm, errorMessages]

theorem requireFields_warnings (missing : Str → Bool) (msg : Str → Str) (fields : List Str) :
    (requireFields missing msg fields {}).warnings = [] := by
  induction fields with
  | nil => rfl
  | cons f fs ih =>
    have step : requireFields missing msg (f :: fs) {} =
        requireFields missing msg fs (if missing f then ({} : ValidationReport).addError (msg f) else {}) := by
      simp [requireFields]
    rw [step, requireFields_append]
    simp only [append, ih, List.append_nil]
    split <;> rfl

theorem rule1_messages (doc : ParsedAlnDoc) :
    (rule1 doc {}).errorMessages =
      (if doc.header = [] then [missingSectionMsg "header".toList] else []) ++
      (if doc.data = [] then [missingSectionMsg "data".toList] else []) ++
      (if doc.footer = [] then [missingSectionMsg "footer".toList] else []) := by
  have hlen : ∀ o : JSObject Value, (o.keys.length = 0) = (o = []) := by
    intro o; cases o <;> simp [JSObject.keys]
  simp only [rule1, hlen]
  split_ifs <;> simp [errorMessages, addError]

theorem rule2_messages (doc : ParsedAlnDoc) :
    (rule2 doc {}).errorMessages =
      (requiredHeaderFields.filter fun f => !doc.header.has f).map missingHeaderFieldMsg :=
  requireFields_messages _ _ _

theorem rule3_messages (doc : ParsedAlnDoc) :
    (rule3 doc {}).errorMessages =
      match doc.header.get? kOpCode with
      | none => []
      | some v => if truthy v && !includesOpCode v then [invalidOpCodeMsg (toJSString v)] else [] := by
  simp only [rule3]
  split
  · rfl
  · split_ifs <;> simp [errorMessages, addError]

theorem rule5_messages (doc : ParsedAlnDoc) :
    (rule5 doc {}).errorMessages = if badNonce (doc.header.get? kNonce) then [nonceErr] else [] := by
  unfold rule5
  cases h : doc.header.get? kNonce with
  | none => simp [badNonce, errorMessages]
  | some v =>
    cases v with
    | num x => by_cases hx : x.ltZero = true <;> simp [badNonce, errorMessages, addError, hx]
    | _ => simp [badNonce, errorMessages, addError]

theorem rule6_messages (doc : ParsedAlnDoc) :
    (rule6 doc {}).errorMessages =
      (requiredFooterFields.filter fun f => !doc.footer.has f).map missingFooterFieldMsg :=
  requireFields_messages _ _ _

theorem rule8_messages (doc : ParsedAlnDoc) :
    (rule8 doc {}).errorMessages =
      if badTimestamp (doc.footer.get? kTimestamp) then [timestampErr] else [] := by
  unfold rule8
  cases h : doc.footer.get? kTimestamp with
  | none => simp [badTimestamp, errorMessages]
  | some v =>
    cases v with
    | num x => by_cases hx : x.leZero = true <;> simp [badTimestamp, errorMessages, addError, hx]
    | _ => simp [badTimestamp, errorMessages, addError]

theorem rule9_messages (doc : ParsedAlnDoc) : (rule9 doc {}).errorMessages = [] := by
  unfold rule9
  cases h : doc.footer.get? kGasLimit with
  | none => rfl
  | some v => simp only []; split <;> rfl

theorem rule10_messages (doc : ParsedAlnDoc) :
    (rule10 doc {}).errorMessages =
      (if doc.header.get? kOpCode = some (.str opTransfer) ∧ falsyAt doc.data kAmount = true
        then [transferErr] else []) ++
      (if doc.header.get? kOpCode = some (.str opProposal)
        then (requiredProposalFields.filter fun f => falsyAt doc.data f).map proposalFieldMsg
        else []) := by
  have hne : opTransfer ≠ opProposal := by decide
  unfold rule10
  by_cases h1 : doc.header.get? kOpCode = some (.str opTransfer)
  · have h2 : doc.header.get? kOpCode ≠ some (.str opProposal) := by
      rw [h1]; intro h; injection h with h; injection h with h; exact hne h
    by_cases h3 : falsyAt doc.data kAmount = true <;>
      simp [h1, hne, h3, errorMessages, addError]
  · by_cases h2 : doc.header.get? kOpCode = some (.str opProposal)
    · simp only [h1, h2, if_false, if_true, false_and, List.nil_append]
      exact requireFields_messages _ _ _
    · simp [h1, h2, errorMessages]

theorem flagError_messages (b : Bool) (m : Str) :
    (flagError b m).errorMessages = if b then [m] else [] := by
  cases b <;> rfl

theorem flagWarning_messages (b : Bool) (m : Str) : (flagWarning b m).errorMessages = [] := by
  cases b <;> rfl

/-- The error messages of a run of the validator, rule by rule. -/
theorem reportOf_messages (doc : ParsedAlnDoc) (bf bt bs : Bool) :
    (reportOf doc bf bt bs).errorMessages =
      (rule1 doc {}).errorMessages ++ ((rule2 doc {}).errorMessages ++
      ((rule3 doc {}).errorMessages ++ ((if bf then [fromErr] else []) ++
      ((if bt then [toErr] else []) ++ ((rule5 doc {}).errorMessages ++
      ((rule6 doc {}).errorMessages ++ ((rule8 doc {}).errorMessages ++
      (rule10 doc {}).errorMessages))))))) := by
  simp only [reportOf, errorMessages_append, flagError_messages, flagWarning_messages,
    rule9_messages, List.nil_append]

theorem lacksPrefix_ok_iff (name p : Str) (ov : Option Value) :
    (∃ b, lacksPrefix name p ov = .ok b) ↔ strOrFalsy ov = true := by
  cases ov with
  | none => simp [lacksPrefix, strOrFalsy]
  | some v =>
    cases v with
    | str s => by_cases hs : s = [] <;> simp [lacksPrefix, strOrFalsy, truthy, hs]
    | bool b => cases b <;> simp [lacksPrefix, strOrFalsy, truthy]
    | num x => by_cases hx : x.isZero = true <;> simp [lacksPrefix, strOrFalsy, truthy, hx]
    | arr xs => simp [lacksPrefix, strOrFalsy, truthy]

/-- The validator returns a report exactly when `header.from`, `header.to` and
`footer.signature` are each absent, falsy or a string. -/
theorem validate_returns_iff (doc : ParsedAlnDoc) :
    (∃ r, validateChainlexemes doc = .ok r) ↔
      (strOrFalsy (doc.header.get? kFrom) = true ∧ strOrFalsy (doc.header.get? kTo) = true ∧
        strOrFalsy (doc.footer.get? kSignature) = true) := by
  rw [validate_eq, ← lacksPrefix_ok_iff exprFrom addrPrefix,
    ← lacksPrefix_ok_iff exprTo addrPrefix,
    ← lacksPrefix_ok_iff exprSig sigPrefix]
  unfold prefixTests
  cases lacksPrefix exprFrom addrPrefix (doc.header.get? kFrom) <;>
  cases lacksPrefix exprTo addrPrefix (doc.header.get? kTo) <;>
  cases lacksPrefix exprSig sigPrefix (doc.footer.get? kSignature) <;>
  simp [bind, Except.bind, Except.map, pure, Except.pure]

/-- Every report of the validator is the rule-by-rule report for some outcome
of the three prefix tests. -/
theorem validate_ok_reportOf {doc : ParsedAlnDoc} {r : ValidationReport}
    (h : validateChainlexemes doc = .ok r) :
    ∃ bf bt bs,
      lacksPrefix exprFrom addrPrefix (doc.header.get? kFrom) = .ok bf ∧
      lacksPrefix exprTo addrPrefix (doc.header.get? kTo) = .ok bt ∧
      lacksPrefix exprSig sigPrefix (doc.footer.get? kSignature) = .ok bs ∧
      r = reportOf doc bf bt bs := by
  rw [validate_eq] at h
  unfold prefixTests at h
  revert h
  cases hf : lacksPrefix exprFrom addrPrefix (doc.header.get? kFrom) with
  | error e => simp [bind, Except.bind, Except.map]
  | ok bf =>
    cases ht : lacksPrefix exprTo addrPrefix (doc.header.get? kTo) with
    | error e => simp [bind, Except.bind, Except.map]
    | ok bt =>
      cases hs : lacksPrefix exprSig sigPrefix
          (doc.footer.get? kSignature) with
      | error e => simp [bind, Except.bind, Except.map]
      | ok bs =>
        intro h
        simp [bind, Except.bind, Except.map, pure, Except.pure] at h
        exact ⟨bf, bt, bs, rfl, rfl, rfl, h.symm⟩

theorem get?_some_ne_nil {α : Type} {o : JSObject α} {k : Str} {v : α}
    (h : o.get? k = some v) : o ≠ [] := by
  rintro rfl; simp [JSObject.get?] at h

theorem parseLine_errors (st : ParseState) (line : Str) :
    (parseLine st line).doc.errors = st.doc.errors := by
  unfold parseLine
  simp only []
  split_ifs
  · rfl
  · rfl
  · split
    · split_ifs
      · simp only [storeEntry]; split_ifs <;> rfl
      · rfl
    · rfl

theorem foldl_parseLine_errors (lines : List Str) (st : ParseState) :
    (lines.foldl parseLine st).doc.errors = st.doc.errors := by
  induction lines generalizing st with
  | nil => rfl
  | cons l ls ih => rw [List.foldl_cons, ih, parseLine_errors]

/-- C5: on the empty text the parser returns the fail-fast document (empty
header, data, footer and raw sections, and the single error `Invalid input:
text must be non-empty string`); on every non-empty text the error list of the
returned document is empty. -/
theorem parse_empty_text_fail_fast :
    parseAlnDocument [] =
      { header := [], data := [], footer := [], rawSections := { proto := none, own := [] },
        isValid := false,
        errors := ["Invalid input: text must be non-empty string".toList] } ∧
    ∀ text : Str, text ≠ [] → (parseAlnDocument text).errors = [] := by
  refine ⟨rfl, ?_⟩
  intro text ht
  have : text.isEmpty = false := by cases text <;> simp_all
  simp only [parseAlnDocument, this]
  exact foldl_parseLine_errors _ _

theorem parse_empty_text_fail_fast_witness :
    "[header]\nnonce: 1".toList ≠ [] ∧
      (parseAlnDocument "[header]\nnonce: 1".toList).errors = [] :=
  ⟨by decide, parse_empty_text_fail_fast.2 "[header]\nnonce: 1".toList (by decide)⟩

theorem flag_consistent (b : Bool) (m : Str) : Consistent (flagError b m) := by
  cases b <;> simp [flagError, Consistent, addError]

theorem flagWarning_consistent (b : Bool) (m : Str) : Consistent (flagWarning b m) := by
  cases b <;> simp [flagWarning, Consistent, addWarning]

theorem rule1_consistent (doc : ParsedAlnDoc) : Consistent (rule1 doc {}) := by
  simp only [rule1]
  split_ifs <;> simp [Consistent, addError]

theorem rule3_consistent (doc : ParsedAlnDoc) : Consistent (rule3 doc {}) := by
  simp only [rule3]
  split
  · exact consistent_empty
  · split_ifs
    · exact consistent_addError _ _
    · exact consistent_empty

theorem rule5_consistent (doc : ParsedAlnDoc) : Consistent (rule5 doc {}) := by
  simp only [rule5]
  split
  · exact consistent_empty
  · split_ifs
    · exact consistent_addError _ _
    · exact consistent_empty
  · exact consistent_addError _ _

theorem rule8_consistent (doc : ParsedAlnDoc) : Consistent (rule8 doc {}) := by
  simp only [rule8]
  split
  · exact consistent_empty
  · split_ifs
    · exact consistent_addError _ _
    · exact consistent_empty
  · exact consistent_addError _ _

theorem rule9_consistent (doc : ParsedAlnDoc) : Consistent (rule9 doc {}) := by
  simp only [rule9]
  split
  · exact consistent_empty
  · split_ifs
    · exact consistent_addWarning consistent_empty _
    · exact consistent_empty

theorem rule10_consistent (doc : ParsedAlnDoc) : Consistent (rule10 doc {}) := by
  simp only [rule10]
  split_ifs <;>
    first
    | exact consistent_empty
    | exact consistent_addError _ _
    | exact requireFields_consistent _ _ _ _ consistent_empty
    | exact requireFields_consistent _ _ _ _ (consistent_addError _ _)

theorem reportOf_consistent (doc : ParsedAlnDoc) (bf bt bs : Bool) :
    Consistent (reportOf doc bf bt bs) := by
  unfold reportOf
  refine consistent_append (rule1_consistent doc) <|
    consistent_append (requireFields_consistent _ _ _ _ consistent_empty) <|
    consistent_append (rule3_consistent doc) <|
    consistent_append (flag_consistent _ _) <|
    consistent_append (flag_consistent _ _) <|
    consistent_append (rule5_consistent doc) <|
    consistent_append (requireFields_consistent _ _ _ _ consistent_empty) <|
    consistent_append (flagWarning_consistent _ _) <|
    consistent_append (rule8_consistent doc) <|
    consistent_append (rule9_consistent doc) (rule10_consistent doc)

/-- C4: for every document, the report that the validator returns has
`isValid = true` exactly when its list of errors is empty; the warnings play
no part. -/
theorem report_valid_iff_no_errors (doc : ParsedAlnDoc) (r : ValidationReport)
    (h : validateChainlexemes doc = .ok r) : r.isValid = true ↔ r.errors = [] := by
  obtain ⟨bf, bt, bs, -, -, -, rfl⟩ := validate_ok_reportOf h
  exact reportOf_consistent doc bf bt bs

theorem report_valid_iff_no_errors_witness :
    validateChainlexemes lowGasDoc =
        .ok { isValid := true, errors := [], warnings := [⟨gasWarn, none⟩] } ∧
      ((true = true) ↔ ([] : List ReportEntry) = []) :=
  ⟨by decide,
    report_valid_iff_no_errors lowGasDoc
      { isValid := true, errors := [], warnings := [⟨gasWarn, none⟩] } (by decide)⟩

/-- The messages of rule 1 are produced by no other rule. -/
theorem sectionMsg_mem_reportOf (doc : ParsedAlnDoc) (bf bt bs : Bool) (s : Str) :
    missingSectionMsg s ∈ (reportOf doc bf bt bs).errorMessages ↔
      missingSectionMsg s ∈ (rule1 doc {}).errorMessages := by
  rw [reportOf_messages, rule2_messages, rule3_messages, rule5_messages, rule6_messages,
    rule8_messages, rule10_messages]
  have h2 : ∀ f, missingHeaderFieldMsg f ≠ missingSectionMsg s := by
    intro f; simp [missingHeaderFieldMsg, missingSectionMsg]
  have h3 : ∀ v, invalidOpCodeMsg v ≠ missingSectionMsg s := by
    intro f; simp [invalidOpCodeMsg, missingSectionMsg]
  have h4 : fromErr ≠ missingSectionMsg s := by simp [fromErr, missingSectionMsg]
  have h4' : toErr ≠ missingSectionMsg s := by simp [toErr, missingSectionMsg]
  have h5 : nonceErr ≠ missingSectionMsg s := by simp [nonceErr, missingSectionMsg]
  have h6 : ∀ f, missingFooterFieldMsg f ≠ missingSectionMsg s := by
    intro f; simp [missingFooterFieldMsg, missingSectionMsg]
  have h8 : timestampErr ≠ missingSectionMsg s := by simp [timestampErr, missingSectionMsg]
  have h10 : transferErr ≠ missingSectionMsg s := by simp [transferErr, missingSectionMsg]
  have h10' : ∀ f, proposalFieldMsg f ≠ missingSectionMsg s := by
    intro f; simp [proposalFieldMsg, missingSectionMsg]
  constructor
  · intro h
    simp only [List.mem_append] at h
    rcases h with h | h | h | h | h | h | h | h | h | h
    · exact h
    · simp only [List.mem_map] at h
      obtain ⟨f, -, hf⟩ := h
      exact absurd hf (h2 f)
    · exfalso
      split at h
      · simp at h
      · split at h
        · simp only [List.mem_singleton] at h; exact h3 _ h.symm
        · simp at h
    · exfalso; split at h
      · simp only [List.mem_singleton] at h; exact h4 h.symm
      · simp at h
    · exfalso; split at h
      · simp only [List.mem_singleton] at h; exact h4' h.symm
      · simp at h
    · exfalso; split at h
      · simp only [List.mem_singleton] at h; exact h5 h.symm
      · simp at h
    · simp only [List.mem_map] at h
      obtain ⟨f, -, hf⟩ := h
      exact absurd hf (h6 f)
    · exfalso; split at h
      · simp only [List.mem_singleton] at h; exact h8 h.symm
      · simp at h
    · exfalso; split at h
      · simp only [List.mem_singleton] at h; exact h10 h.symm
      · simp at h
    · exfalso; split at h
      · simp only [List.mem_map] at h
        obtain ⟨f, -, hf⟩ := h
        exact absurd hf (h10' f)
      · simp at h
  · intro h
    exact List.mem_append_left _ h

theorem rule1_mem_header (doc : ParsedAlnDoc) :
    missingSectionMsg "header".toList ∈ (rule1 doc {}).errorMessages ↔ doc.header = [] := by
  rw [rule1_messages]
  by_cases h1 : doc.header = [] <;> by_cases h2 : doc.data = [] <;> by_cases h3 : doc.footer = [] <;>
    simp [h1, h2, h3, missingSectionMsg]

theorem rule1_mem_data (doc : ParsedAlnDoc) :
    missingSectionMsg "data".toList ∈ (rule1 doc {}).errorMessages ↔ doc.data = [] := by
  rw [rule1_messages]
  by_cases h1 : doc.header = [] <;> by_cases h2 : doc.data = [] <;> by_cases h3 : doc.footer = [] <;>
    simp [h1, h2, h3, missingSectionMsg]

theorem rule1_mem_footer (doc : ParsedAlnDoc) :
    missingSectionMsg "footer".toList ∈ (rule1 doc {}).errorMessages ↔ doc.footer = [] := by
  rw [rule1_messages]
  by_cases h1 : doc.header = [] <;> by_cases h2 : doc.data = [] <;> by_cases h3 : doc.footer = [] <;>
    simp [h1, h2, h3, missingSectionMsg]

theorem invalid_of_error_mem {r : ValidationReport} (hc : Consistent r) {m : Str}
    (hm : m ∈ r.errorMessages) : r.isValid = false := by
  cases hv : r.isValid with
  | false => rfl
  | true =>
    have := hc.mp hv
    simp [errorMessages, this] at hm

/-- Missing sections, in the reports returned: for every text and each of the
sections header, data and footer, every report that the validator returns for the parsed document holds the error
`Missing required [s] section` exactly when the mapping of `s` is empty, and
is then invalid; and a report is returned whenever `header.from`, `header.to`
and `footer.signature` are absent, falsy or strings. -/
theorem missing_section_reported (text : Str) :
    (∀ r, validateChainlexemes (parseAlnDocument text) = .ok r →
      (((parseAlnDocument text).header = [] →
          r.isValid = false ∧ "Missing required [header] section".toList ∈ r.errorMessages) ∧
        ("Missing required [header] section".toList ∈ r.errorMessages →
          (parseAlnDocument text).header = [])) ∧
      (((parseAlnDocument text).data = [] →
          r.isValid = false ∧ "Missing required [data] section".toList ∈ r.errorMessages) ∧
        ("Missing required [data] section".toList ∈ r.errorMessages →
          (parseAlnDocument text).data = [])) ∧
      (((parseAlnDocument text).footer = [] →
          r.isValid = false ∧ "Missing required [footer] section".toList ∈ r.errorMessages) ∧
        ("Missing required [footer] section".toList ∈ r.errorMessages →
          (parseAlnDocument text).footer = []))) ∧
    (strOrFalsy ((parseAlnDocument text).header.get? kFrom) = true ∧
      strOrFalsy ((parseAlnDocument text).header.get? kTo) = true ∧
      strOrFalsy ((parseAlnDocument text).footer.get? kSignature) = true →
      ∃ r, validateChainlexemes (parseAlnDocument text) = .ok r) := by
  refine ⟨?_, (validate_returns_iff _).mpr⟩
  intro r h
  obtain ⟨bf, bt, bs, -, -, -, rfl⟩ := validate_ok_reportOf h
  have hc := reportOf_consistent (parseAlnDocument text) bf bt bs
  have hh := (sectionMsg_mem_reportOf (parseAlnDocument text) bf bt bs "header".toList).trans
    (rule1_mem_header _)
  have hd := (sectionMsg_mem_reportOf (parseAlnDocument text) bf bt bs "data".toList).trans
    (rule1_mem_data _)
  have hf := (sectionMsg_mem_reportOf (parseAlnDocument text) bf bt bs "footer".toList).trans
    (rule1_mem_footer _)
  exact ⟨⟨fun e => ⟨invalid_of_error_mem hc (hh.mpr e), hh.mpr e⟩, hh.mp⟩,
    ⟨fun e => ⟨invalid_of_error_mem hc (hd.mpr e), hd.mpr e⟩, hd.mp⟩,
    ⟨fun e => ⟨invalid_of_error_mem hc (hf.mpr e), hf.mpr e⟩, hf.mp⟩⟩

theorem missing_section_reported_witness :
    (parseAlnDocument "[header]\nnonce: 1\n[footer]\ntimestamp: 5".toList).data = [] ∧
      ∃ r, validateChainlexemes
          (parseAlnDocument "[header]\nnonce: 1\n[footer]\ntimestamp: 5".toList) = .ok r ∧
        r.isValid = false ∧ "Missing required [data] section".toList ∈ r.errorMessages ∧
        "Missing required [header] section".toList ∉ r.errorMessages :=
  have hm := missing_section_reported "[header]\nnonce: 1\n[footer]\ntimestamp: 5".toList
  have hr := hm.2 (by decide)
  ⟨by decide, hr.elim fun r hr =>
    ⟨r, hr, ((hm.1 r hr).2.1.1 (by decide)).1, ((hm.1 r hr).2.1.1 (by decide)).2,
      fun e => absurd ((hm.1 r hr).1.2 e) (by decide)⟩⟩

theorem count_map_eq_zero {α : Type} (m : Str) (msg : α → Str) (l : List α)
    (h : ∀ f, msg f ≠ m) : (l.map msg).count m = 0 := by
  rw [List.count_eq_zero]
  intro hm
  obtain ⟨f, -, hf⟩ := List.mem_map.mp hm
  exact h f hf

theorem count_flag (b : Prop) [Decidable b] (m m' : Str) :
    (if b then [m'] else []).count m = if b ∧ m' = m then 1 else 0 := by
  by_cases hb : b <;> by_cases hm : m' = m <;> simp [hb, hm, List.count_cons]

/-- The number of occurrences, among the errors of a run of the validator, of
a message that is not one of rules 1, 2, 3, 6 and 8. -/
theorem count_reportOf (doc : ParsedAlnDoc) (bf bt bs : Bool) (m : Str)
    (h1 : ∀ s, missingSectionMsg s ≠ m) (h2 : ∀ f, missingHeaderFieldMsg f ≠ m)
    (h3 : ∀ v, invalidOpCodeMsg v ≠ m) (h6 : ∀ f, missingFooterFieldMsg f ≠ m)
    (h8 : timestampErr ≠ m) :
    (reportOf doc bf bt bs).errorMessages.count m =
      (if bf = true ∧ fromErr = m then 1 else 0) + ((if bt = true ∧ toErr = m then 1 else 0) +
      ((if badNonce (doc.header.get? kNonce) = true ∧ nonceErr = m then 1 else 0) +
      (rule10 doc {}).errorMessages.count m)) := by
  have e1 : (rule1 doc {}).errorMessages.count m = 0 := by
    rw [rule1_messages, List.count_eq_zero]
    intro hm
    simp only [List.mem_append] at hm
    rcases hm with (hm | hm) | hm <;> split at hm <;>
      first
      | (simp only [List.mem_singleton] at hm; exact h1 _ hm.symm)
      | simp at hm
  have e2 : (rule2 doc {}).errorMessages.count m = 0 := by
    rw [rule2_messages]; exact count_map_eq_zero m _ _ h2
  have e3 : (rule3 doc {}).errorMessages.count m = 0 := by
    rw [rule3_messages, List.count_eq_zero]
    intro hm
    split at hm
    · simp at hm
    · split at hm
      · simp only [List.mem_singleton] at hm; exact h3 _ hm.symm
      · simp at hm
  have e6 : (rule6 doc {}).errorMessages.count m = 0 := by
    rw [rule6_messages]; exact count_map_eq_zero m _ _ h6
  have e8 : (rule8 doc {}).errorMessages.count m = 0 := by
    rw [rule8_messages, count_flag]; simp [h8]
  rw [reportOf_messages]
  simp only [List.count_append, e1, e2, e3, e6, e8, rule5_messages, count_flag, Nat.zero_add]

theorem lacksPrefix_str (name p s : Str) (hs : s ≠ []) :
    lacksPrefix name p (some (.str s)) = .ok (!startsWith s p) := by
  cases s with
  | nil => exact absurd rfl hs
  | cons c cs => simp [lacksPrefix, truthy]

/-- Address errors, in the reports returned: for every document whose
`header.from` and `header.to` are non-empty strings, every report that the
validator returns holds the error on `from`
once when `header.from` does not begin with `aln1` and not at all otherwise,
and independently the error on `to` once exactly when `header.to` does not
begin with `aln1`; a report is returned whenever `footer.signature` is absent,
falsy or a string; and the valid transfer document with `from = bob` yields the
one error on `from`. -/
theorem address_errors_counted (doc : ParsedAlnDoc) (f t : Str)
    (hfrom : doc.header.get? kFrom = some (.str f)) (hf : f ≠ [])
    (hto : doc.header.get? kTo = some (.str t)) (ht : t ≠ []) :
    (∀ r, validateChainlexemes doc = .ok r →
      r.errorMessages.count "Invalid from address format: must start with 'aln1'".toList =
          (if startsWith f "aln1".toList then 0 else 1) ∧
        r.errorMessages.count "Invalid to address format: must start with 'aln1'".toList =
          (if startsWith t "aln1".toList then 0 else 1)) ∧
    (strOrFalsy (doc.footer.get? kSignature) = true → ∃ r, validateChainlexemes doc = .ok r) ∧
    validateChainlexemes bobDoc =
      .ok { isValid := false,
            errors := [⟨"Invalid from address format: must start with 'aln1'".toList, none⟩],
            warnings := [] } := by
  refine ⟨?_, ?_, by decide⟩
  · intro r h
    obtain ⟨bf, bt, bs, h1, h2, -, rfl⟩ := validate_ok_reportOf h
    rw [hfrom, lacksPrefix_str _ _ _ hf] at h1
    rw [hto, lacksPrefix_str _ _ _ ht] at h2
    injection h1 with h1
    injection h2 with h2
    subst h1 h2
    have hne : opTransfer ≠ opProposal := by decide
    constructor
    · show (reportOf doc _ _ bs).errorMessages.count fromErr = _
      rw [count_reportOf doc _ _ bs fromErr (by simp [missingSectionMsg, fromErr])
        (by simp [missingHeaderFieldMsg, fromErr]) (by simp [invalidOpCodeMsg, fromErr])
        (by simp [missingFooterFieldMsg, fromErr]) (by decide), rule10_messages]
      have e10 : ∀ l : List Str, (l.map proposalFieldMsg).count fromErr = 0 := fun l =>
        count_map_eq_zero _ _ _ (by simp [proposalFieldMsg, fromErr])
      have d1 : toErr ≠ fromErr := by decide
      have d2 : nonceErr ≠ fromErr := by decide
      have d3 : transferErr ≠ fromErr := by decide
      simp only [List.count_append, count_flag, d1, d2, d3, and_false, if_false]
      split_ifs <;> simp_all [addrPrefix]
    · show (reportOf doc _ _ bs).errorMessages.count toErr = _
      rw [count_reportOf doc _ _ bs toErr (by simp [missingSectionMsg, toErr])
        (by simp [missingHeaderFieldMsg, toErr]) (by simp [invalidOpCodeMsg, toErr])
        (by simp [missingFooterFieldMsg, toErr]) (by decide), rule10_messages]
      have e10 : ∀ l : List Str, (l.map proposalFieldMsg).count toErr = 0 := fun l =>
        count_map_eq_zero _ _ _ (by simp [proposalFieldMsg, toErr])
      have d1 : fromErr ≠ toErr := by decide
      have d2 : nonceErr ≠ toErr := by decide
      have d3 : transferErr ≠ toErr := by decide
      simp only [List.count_append, count_flag, d1, d2, d3, and_false, if_false]
      split_ifs <;> simp_all [addrPrefix]
  · intro hs
    apply (validate_returns_iff doc).mpr
    rw [hfrom, hto]
    exact ⟨rfl, rfl, hs⟩

theorem address_errors_counted_witness :
    ∃ r, validateChainlexemes bobDoc = .ok r ∧
      r.errorMessages.count "Invalid from address format: must start with 'aln1'".toList = 1 ∧
      r.errorMessages.count "Invalid to address format: must start with 'aln1'".toList = 0 :=
  have h := address_errors_counted bobDoc "bob".toList "aln1def".toList
    (by decide) (by decide) (by decide) (by decide)
  ⟨_, h.2.2, (h.1 _ h.2.2).1.trans (by decide), (h.1 _ h.2.2).2.trans (by decide)⟩

theorem startsWith_ne_nil {s p : Str} (hp : p ≠ []) (h : startsWith s p = true) : s ≠ [] := by
  rintro rfl
  cases p with
  | nil => exact hp rfl
  | cons c cs => simp [startsWith, List.isPrefixOf] at h

/-- C7: a document whose header has `op_code = transfer`, `from` and `to`
strings beginning with `aln1` and `nonce` an integer that is not negative,
whose data has `amount` a non-empty string, and whose footer has `signature` a
string beginning with `ed25519:`, `timestamp` a positive integer and no
`gas_limit` key, is validated with `isValid = true`, no error and no warning,
whatever other keys it holds. -/
theorem valid_transfer_accepted (doc : ParsedAlnDoc) (f t a s : Str) (n ts : JSNumber)
    (hop : doc.header.get? kOpCode = some (.str "transfer".toList))
    (hfrom : doc.header.get? kFrom = some (.str f)) (hf : startsWith f "aln1".toList = true)
    (hto : doc.header.get? kTo = some (.str t)) (ht : startsWith t "aln1".toList = true)
    (hnonce : doc.header.get? kNonce = some (.num n))
    (hn : n.isInteger = true ∧ n.ltZero = false)
    (hamount : doc.data.get? kAmount = some (.str a)) (ha : a ≠ [])
    (hsig : doc.footer.get? kSignature = some (.str s))
    (hs : startsWith s "ed25519:".toList = true)
    (hts : doc.footer.get? kTimestamp = some (.num ts))
    (hpos : ts.isInteger = true ∧ ts.leZero = false)
    (hgas : doc.footer.get? kGasLimit = none) :
    validateChainlexemes doc = .ok { isValid := true, errors := [], warnings := [] } := by
  have hf' : f ≠ [] := startsWith_ne_nil (by decide) hf
  have ht' : t ≠ [] := startsWith_ne_nil (by decide) ht
  have hs' : s ≠ [] := startsWith_ne_nil (by decide) hs
  have hh : doc.header ≠ [] := get?_some_ne_nil hop
  have hd : doc.data ≠ [] := get?_some_ne_nil hamount
  have hft : doc.footer ≠ [] := get?_some_ne_nil hsig
  have hop' : doc.header.get? kOpCode = some (.str opTransfer) := hop
  have hne : opTransfer ≠ opProposal := by decide
  have ha' : a.isEmpty = false := by cases a <;> simp_all
  have hlen : ∀ o : JSObject Value, o ≠ [] → ¬ (o.keys.length = 0) := by
    intro o ho; cases o <;> simp_all [JSObject.keys]
  rw [validate_eq]
  simp only [prefixTests, hfrom, hto, hsig, lacksPrefix_str _ _ _ hf', lacksPrefix_str _ _ _ ht',
    lacksPrefix_str _ _ _ hs', bind, Except.bind, pure, Except.pure, Except.map]
  have e1 : rule1 doc {} = {} := by
    simp [rule1, hlen _ hh, hlen _ hd, hlen _ hft]
  have e2 : rule2 doc {} = {} := by
    simp [rule2, requireFields, requiredHeaderFields, JSObject.has, hop', hfrom, hto, hnonce]
  have e3 : rule3 doc {} = {} := by
    simp [rule3, hop', truthy, includesOpCode, validOpCodes, opTransfer]
  have e5 : rule5 doc {} = {} := by
    simp [rule5, hnonce, hn.2]
  have e6 : rule6 doc {} = {} := by
    simp [rule6, requireFields, requiredFooterFields, JSObject.has, hsig, hts]
  have e8 : rule8 doc {} = {} := by
    simp [rule8, hts, hpos.2]
  have e9 : rule9 doc {} = {} := by
    simp [rule9, hgas]
  have e10 : rule10 doc {} = {} := by
    simp [rule10, hop', hne, falsyAt, hamount, truthy, ha']
  have b1 : startsWith f addrPrefix = true := hf
  have b2 : startsWith t addrPrefix = true := ht
  have b3 : startsWith s sigPrefix = true := hs
  simp only [reportOf, e1, e2, e3, e5, e6, e8, e9, e10, b1, b2, b3, flagError, flagWarning,
    Bool.not_true, Bool.false_eq_true, if_false, empty_append]

theorem valid_transfer_accepted_witness :
    validateChainlexemes validTransferDoc =
      .ok { isValid := true, errors := [], warnings := [] } :=
  valid_transfer_accepted validTransferDoc "aln1abc".toList "aln1def".toList "5".toList
    "ed25519:00".toList (.ofNat 0) (.ofNat 1700000000)
    (by decide) (by decide) (by decide) (by decide) (by decide) (by decide) (by decide)
    (by decide) (by decide) (by decide) (by decide) (by decide) (by decide) (by decide)

/-- C3: the validator throws on the parsed text `[header]` / `from: 5`: the
numeric `header.from` has no method `startsWith`, so no report is returned. -/
theorem validate_throws_on_numeric_from :
    (parseAlnDocument "[header]\nfrom: 5".toList).header = [(kFrom, .num (.ofNat 5))] ∧
    validateChainlexemes (parseAlnDocument "[header]\nfrom: 5".toList) =
      .error "TypeError: doc.header.from.startsWith is not a function".toList := by
  decide

/-- C8: the valid transfer document with `op_code: 0`, a value that is not an
allowed op-code, is validated with no error at all, because the falsy value
skips rule 3. -/
theorem falsy_op_code_accepted :
    (parseAlnDocument zeroOpCodeText).header.get? kOpCode = some (.num (.ofNat 0)) ∧
    validateChainlexemes (parseAlnDocument zeroOpCodeText) =
      .ok { isValid := true, errors := [], warnings := [] } := by
  decide

/-- C10: the valid transfer document with `nonce: 3.14`, a number that is not
an integer, is validated with no error: rule 5 only tests that the nonce is a
number that is not negative. -/
theorem float_nonce_accepted :
    (parseAlnDocument floatNonceText).header.get? kNonce =
      some (.num ⟨false, 3, some ([1], 3)⟩) ∧
    JSNumber.isInteger ⟨false, 3, some ([1], 3)⟩ = false ∧
    validateChainlexemes (parseAlnDocument floatNonceText) =
      .ok { isValid := true, errors := [], warnings := [] } := by
  decide

/-! ## Lemmas on the string primitives -/

theorem splitOnChar_ne_nil (sep : Char) (s : Str) : splitOnChar sep s ≠ [] := by
  induction s with
  | nil => simp [splitOnChar]
  | cons c cs ih =>
    unfold splitOnChar
    split_ifs
    · simp
    · split <;> simp

/-- Splitting at the first separator: the text before it is the first piece. -/
theorem splitOnChar_append_sep (sep : Char) (l rest : Str) (h : sep ∉ l) :
    splitOnChar sep (l ++ sep :: rest) = l :: splitOnChar sep rest := by
  induction l with
  | nil => simp [splitOnChar]
  | cons c cs ih =>
    have hc : c ≠ sep := fun e => h (by simp [e])
    have hcs : sep ∉ cs := fun e => h (List.mem_cons_of_mem _ e)
    rw [List.cons_append, splitOnChar, if_neg hc, ih hcs]

theorem splitOnChar_of_not_mem (sep : Char) (l : Str) (h : sep ∉ l) :
    splitOnChar sep l = [l] := by
  induction l with
  | nil => simp [splitOnChar]
  | cons c cs ih =>
    have hc : c ≠ sep := fun e => h (by simp [e])
    have hcs : sep ∉ cs := fun e => h (List.mem_cons_of_mem _ e)
    rw [splitOnChar, if_neg hc, ih hcs]

theorem trimStart_cons_of_not_ws {c : Char} (cs : Str) (h : isWhiteSpace c = false) :
    trimStart (c :: cs) = c :: cs := by
  simp [trimStart, h]

theorem trimStart_cons_of_ws {c : Char} (cs : Str) (h : isWhiteSpace c = true) :
    trimStart (c :: cs) = trimStart cs := by
  simp [trimStart, h]

theorem trimStart_length_le (s : Str) : (trimStart s).length ≤ s.length := by
  induction s with
  | nil => simp [trimStart]
  | cons c cs ih =>
    unfold trimStart
    split_ifs
    · exact Nat.le_succ_of_le ih
    · exact Nat.le_refl _

theorem trimEnd_length_le (s : Str) : (trimEnd s).length ≤ s.length := by
  have := trimStart_length_le s.reverse
  simpa [trimEnd] using this

theorem trimEnd_append_of_not_ws (s : Str) {c : Char} (h : isWhiteSpace c = false) :
    trimEnd (s ++ [c]) = s ++ [c] := by
  simp [trimEnd, trimStart, h]

theorem trimEnd_append_of_ws (s : Str) {c : Char} (h : isWhiteSpace c = true) :
    trimEnd (s ++ [c]) = trimEnd s := by
  simp [trimEnd, trimStart, h]

/-- A string with no white space at either end is left unchanged by `trim`. -/
theorem trim_eq_self_of_edges (s : Str)
    (hh : ∀ c ∈ s.head?, isWhiteSpace c = false)
    (hl : ∀ c ∈ s.getLast?, isWhiteSpace c = false) : trim s = s := by
  cases s with
  | nil => rfl
  | cons c cs =>
    have h1 : trimStart (c :: cs) = c :: cs :=
      trimStart_cons_of_not_ws cs (hh c (by simp))
    rw [trim, h1]
    obtain ⟨i, l, hil⟩ : ∃ i l, c :: cs = i ++ [l] :=
      ⟨(c :: cs).dropLast, (c :: cs).getLast (by simp),
        (List.dropLast_append_getLast (by simp)).symm⟩
    rw [hil] at hl ⊢
    exact trimEnd_append_of_not_ws i (hl l (by simp))

/-- A non-empty string that `trim` leaves unchanged has no white space at
either end. -/
theorem edges_of_trim_eq_self (s : Str) (h : trim s = s) :
    (∀ c ∈ s.head?, isWhiteSpace c = false) ∧ (∀ c ∈ s.getLast?, isWhiteSpace c = false) := by
  cases s with
  | nil => simp
  | cons c cs =>
    have hc : isWhiteSpace c = false := by
      by_contra hws
      have hws : isWhiteSpace c = true := by simpa using hws
      have h1 := trimEnd_length_le (trimStart (c :: cs))
      rw [← trim, h, trimStart_cons_of_ws cs hws] at h1
      have h2 := trimStart_length_le cs
      simp at h1
      omega
    refine ⟨by simpa using hc, ?_⟩
    rw [trim, trimStart_cons_of_not_ws cs hc] at h
    obtain ⟨i, l, hil⟩ : ∃ i l, c :: cs = i ++ [l] :=
      ⟨(c :: cs).dropLast, (c :: cs).getLast (by simp),
        (List.dropLast_append_getLast (by simp)).symm⟩
    rw [hil] at h ⊢
    intro d hd
    have hd : d = l := by simpa using hd.symm
    subst hd
    by_contra hws
    have hws : isWhiteSpace d = true := by simpa using hws
    rw [trimEnd_append_of_ws i hws] at h
    have := trimEnd_length_le i
    rw [h] at this
    simp at this

theorem indexOf_append_of_not_mem (ch : Char) (k rest : Str) (h : ch ∉ k) :
    indexOf ch (k ++ ch :: rest) = some k.length := by
  induction k with
  | nil => simp [indexOf]
  | cons c cs ih =>
    have hc : c ≠ ch := fun e => h (by simp [e])
    have hcs : ch ∉ cs := fun e => h (List.mem_cons_of_mem _ e)
    simp [indexOf, hc, ih hcs]

theorem indexOf_eq_none_of_not_mem (ch : Char) (k : Str) (h : ch ∉ k) : indexOf ch k = none := by
  induction k with
  | nil => simp [indexOf]
  | cons c cs ih =>
    have hc : c ≠ ch := fun e => h (by simp [e])
    have hcs : ch ∉ cs := fun e => h (List.mem_cons_of_mem _ e)
    simp [indexOf, hc, ih hcs]

theorem startsWith_singleton (s : Str) (c : Char) :
    startsWith s [c] = decide (s.head? = some c) := by
  cases s with
  | nil => simp [startsWith, List.isPrefixOf]
  | cons d ds =>
    by_cases h : c = d
    · simp [startsWith, List.isPrefixOf, h]
    · have h' : ¬ d = c := fun e => h e.symm
      simp [startsWith, List.isPrefixOf, h, h']

theorem endsWith_singleton (s : Str) (c : Char) :
    endsWith s [c] = decide (s.getLast? = some c) := by
  rw [endsWith, List.reverse_singleton, ← startsWith, startsWith_singleton, List.head?_reverse]

theorem view_parseLine (st : ParseState) (line : Str) :
    (parseLine st line).view = st.view.step line := by
  unfold parseLine ScanView.step
  simp only []
  split_ifs with h1 h2
  · rfl
  · rfl
  · cases hi : indexOf ':' (trim line) with
    | none => rfl
    | some i =>
      cases hs : st.currentSection with
      | none => simp [ParseState.view, hs]
      | some sec =>
        simp only [ParseState.view, hs]
        split_ifs
        · simp only [storeEntry, ScanView.store]
          split_ifs <;> rfl
        · simp [hs]

theorem view_foldl_parseLine (lines : List Str) (st : ParseState) :
    (lines.foldl parseLine st).view = lines.foldl ScanView.step st.view := by
  induction lines generalizing st with
  | nil => rfl
  | cons l ls ih => rw [List.foldl_cons, List.foldl_cons, ih, view_parseLine]

theorem entryLine_eq (k : Str) (v : Value) :
    entryLine (k, v) = k ++ ':' :: ' ' :: formatValue v := by
  simp [entryLine]

theorem getLast?_key_colon_space (k fv : Str) (hf : fv ≠ []) :
    (k ++ ':' :: ' ' :: fv).getLast? = fv.getLast? := by
  have : k ++ ':' :: ' ' :: fv = (k ++ [':', ' ']) ++ fv := by simp
  rw [this, List.getLast?_append_of_ne_nil _ hf]

/-- The trimmed line of a clean entry: the key, a colon and, unless the text
of the value is empty, a space and that text. -/
theorem trim_entryLine (e : Str × Value) (h : CleanEntry e) :
    trim (entryLine e) =
      e.1 ++ ':' :: (if formatValue e.2 = [] then [] else ' ' :: formatValue e.2) := by
  obtain ⟨k, v⟩ := e
  have hk := edges_of_trim_eq_self k h.key_trim
  have hv := edges_of_trim_eq_self _ h.val_trim
  have hne := h.key_ne
  simp only at hk hv hne ⊢
  cases k with
  | nil => exact absurd rfl hne
  | cons c cs =>
    have hc : isWhiteSpace c = false := hk.1 c (by simp)
    by_cases hf : formatValue v = []
    · rw [entryLine_eq]
      simp only [hf, if_true]
      rw [trim, List.cons_append, trimStart_cons_of_not_ws _ hc]
      have : c :: (cs ++ [':', ' ']) = (c :: cs ++ [':']) ++ [' '] := by simp
      rw [this, trimEnd_append_of_ws _ (by decide), trimEnd_append_of_not_ws _ (by decide)]
    · rw [entryLine_eq]
      simp only [hf, if_false]
      apply trim_eq_self_of_edges
      · intro d hd
        have : d = c := by simpa using hd.symm
        rw [this]; exact hc
      · intro d hd
        apply hv.2 d
        rw [getLast?_key_colon_space _ _ hf] at hd
        exact hd

theorem trim_space_cons (s : Str) (h : trim s = s) : trim (' ' :: s) = s := by
  rw [trim, trimStart_cons_of_ws _ (by decide), ← trim, h]

/-- The scanner reads the line of a clean entry, under a current section, as
the key and the text of the value. -/
theorem step_entryLine (v : ScanView) (sec : Str) (hs : v.currentSection = some sec)
    (hsec : sec ≠ []) (e : Str × Value) (h : CleanEntry e) :
    v.step (entryLine e) = v.store sec e.1 (formatValue e.2) := by
  have ht := trim_entryLine e h
  obtain ⟨k, val⟩ := e
  simp only at ht ⊢
  have hne : k ≠ [] := h.key_ne
  have hcolon : ':' ∉ k := h.key_colon
  have hhash : k.head? ≠ some '#' := h.key_hash
  have hmark := h.not_marker
  have hktrim : trim k = k := h.key_trim
  have hvtrim : trim (formatValue val) = formatValue val := h.val_trim
  simp only at hmark
  generalize hrest : (if formatValue val = [] then [] else ' ' :: formatValue val) = rest at ht
  have hhead : (k ++ ':' :: rest).head? = k.head? := by
    cases k with
    | nil => exact absurd rfl hne
    | cons c cs => rfl
  have c1 : (k ++ ':' :: rest).isEmpty = false := by
    cases k <;> simp_all
  have c2 : startsWith (k ++ ':' :: rest) ['#'] = false := by
    rw [startsWith_singleton, hhead]; simpa using hhash
  have c3 : (startsWith (k ++ ':' :: rest) ['['] && endsWith (k ++ ':' :: rest) [']']) = false := by
    rw [startsWith_singleton, endsWith_singleton, hhead]
    by_cases hb : k.head? = some '['
    · have hl : (formatValue val).getLast? ≠ some ']' := fun e => hmark ⟨hb, e⟩
      have : (k ++ ':' :: rest).getLast? ≠ some ']' := by
        by_cases hf : formatValue val = []
        · simp only [hf, if_true] at hrest; subst hrest
          simp
        · simp only [hf, if_false] at hrest; subst hrest
          rw [getLast?_key_colon_space _ _ hf]
          exact hl
      rw [decide_eq_false this, Bool.and_false]
    · rw [decide_eq_false hb, Bool.false_and]
  have c4 : indexOf ':' (k ++ ':' :: rest) = some k.length := indexOf_append_of_not_mem _ _ _ hcolon
  have c5 : 0 < k.length := List.length_pos.mpr hne
  have c6 : sec.isEmpty = false := by cases sec <;> simp_all
  have c7 : trim rest = formatValue val := by
    by_cases hf : formatValue val = []
    · simp [hf] at hrest; subst hrest; rw [hf]; rfl
    · simp [hf] at hrest; subst hrest; exact trim_space_cons _ hvtrim
  unfold ScanView.step
  simp only [ht, c1, c2, c3, c4, hs, c5, c6, Bool.or_self, Bool.false_eq_true, if_false,
    true_and, not_false_eq_true, if_true, List.take_left', List.drop_left', hktrim]
  have : List.drop (k.length + 1) (k ++ ':' :: rest) = rest := by
    rw [List.drop_append_eq_append_drop]
    simp [List.drop_eq_nil_of_le]
  rw [this, c7]

theorem step_blank (v : ScanView) : v.step [] = v := rfl

theorem step_header_marker (v : ScanView) :
    v.step "[header]".toList = { v with currentSection := some "header".toList } := by
  have h1 : trim "[header]".toList = "[header]".toList := by decide
  unfold ScanView.step
  simp only [h1]
  rfl

theorem step_data_marker (v : ScanView) :
    v.step "[data]".toList = { v with currentSection := some "data".toList } := by
  have h1 : trim "[data]".toList = "[data]".toList := by decide
  unfold ScanView.step
  simp only [h1]
  rfl

theorem step_footer_marker (v : ScanView) :
    v.step "[footer]".toList = { v with currentSection := some "footer".toList } := by
  have h1 : trim "[footer]".toList = "[footer]".toList := by decide
  unfold ScanView.step
  simp only [h1]
  rfl

theorem store_currentSection (v : ScanView) (sec key value : Str) :
    (v.store sec key value).currentSection = v.currentSection := by
  unfold ScanView.store
  split_ifs <;> rfl

theorem foldl_step_entries (sec : Str) (hsec : sec ≠ []) (es : List (Str × Value))
    (hes : ∀ e ∈ es, CleanEntry e) (v : ScanView) (hv : v.currentSection = some sec) :
    (es.map entryLine).foldl ScanView.step v =
      es.foldl (fun v e => v.store sec e.1 (formatValue e.2)) v := by
  induction es generalizing v with
  | nil => rfl
  | cons e es ih =>
    rw [List.map_cons, List.foldl_cons, List.foldl_cons,
      step_entryLine v sec hv hsec e (hes e (by simp))]
    exact ih (fun e' he' => hes e' (List.mem_cons_of_mem _ he')) _
      ((store_currentSection _ _ _ _).trans hv)

theorem foldl_store_header (es : List (Str × Value)) (v : ScanView) :
    es.foldl (fun v e => v.store "header".toList e.1 (formatValue e.2)) v =
      { v with header := (es.map reread).foldl (fun o e => o.set e.1 e.2) v.header } := by
  induction es generalizing v with
  | nil => rfl
  | cons e es ih =>
    rw [List.foldl_cons, ih]
    simp [ScanView.store, reread]

theorem foldl_store_data (es : List (Str × Value)) (v : ScanView) :
    es.foldl (fun v e => v.store "data".toList e.1 (formatValue e.2)) v =
      { v with data := (es.map reread).foldl (fun o e => o.set e.1 e.2) v.data } := by
  induction es generalizing v with
  | nil => rfl
  | cons e es ih =>
    rw [List.foldl_cons, ih]
    simp [ScanView.store, reread]

theorem foldl_store_footer (es : List (Str × Value)) (v : ScanView) :
    es.foldl (fun v e => v.store "footer".toList e.1 (formatValue e.2)) v =
      { v with footer := (es.map reread).foldl (fun o e => o.set e.1 e.2) v.footer } := by
  induction es generalizing v with
  | nil => rfl
  | cons e es ih =>
    rw [List.foldl_cons, ih]
    simp [ScanView.store, reread]

theorem appendEntries_eq (output : Str) (o : JSObject Value) :
    appendEntries output o = output ++ body o := by
  unfold appendEntries body
  induction o generalizing output with
  | nil => simp
  | cons e es ih =>
    rw [List.foldl_cons, ih]
    simp [entryLine, List.append_assoc]

/-- The text of a serialized document: the three markers, each followed by
the lines of its mapping, with a blank line between the sections. -/
theorem serialize_eq (doc : ParsedAlnDoc) :
    serializeAlnDocument doc =
      "[header]".toList ++ '\n' :: (body doc.header ++ '\n' :: ("[data]".toList ++ '\n' ::
        (body doc.data ++ '\n' :: ("[footer]".toList ++ '\n' :: body doc.footer)))) := by
  unfold serializeAlnDocument
  simp only [appendEntries_eq]
  simp [List.append_assoc]

theorem entryLine_no_newline (e : Str × Value) (h : CleanEntry e) : '\n' ∉ entryLine e := by
  rw [show entryLine e = e.1 ++ ':' :: ' ' :: formatValue e.2 from entryLine_eq e.1 e.2]
  simp only [List.mem_append, List.mem_cons, not_or]
  exact ⟨h.key_nl, by decide, by decide, h.val_nl⟩

theorem split_body (o : JSObject Value) (ho : ∀ e ∈ o, CleanEntry e) (rest : Str) :
    splitOnChar '\n' (body o ++ rest) = o.map entryLine ++ splitOnChar '\n' rest := by
  induction o with
  | nil => rfl
  | cons e es ih =>
    have : body (e :: es) ++ rest = entryLine e ++ '\n' :: (body es ++ rest) := by
      simp [body, List.append_assoc]
    rw [this, splitOnChar_append_sep _ _ _ (entryLine_no_newline e (ho e (by simp))),
      ih (fun e' he' => ho e' (List.mem_cons_of_mem _ he'))]
    rfl

theorem splitOnChar_cons_sep (sep : Char) (rest : Str) :
    splitOnChar sep (sep :: rest) = [] :: splitOnChar sep rest := by
  simp [splitOnChar]

/-- The lines of a serialized document. -/
theorem split_serialize (doc : ParsedAlnDoc)
    (hh : ∀ e ∈ doc.header, CleanEntry e) (hd : ∀ e ∈ doc.data, CleanEntry e)
    (hf : ∀ e ∈ doc.footer, CleanEntry e) :
    splitOnChar '\n' (serializeAlnDocument doc) =
      "[header]".toList :: (doc.header.map entryLine ++ ([] :: "[data]".toList ::
        (doc.data.map entryLine ++ ([] :: "[footer]".toList ::
          (doc.footer.map entryLine ++ [[]]))))) := by
  rw [serialize_eq, splitOnChar_append_sep _ _ _ (by decide), split_body _ hh,
    splitOnChar_cons_sep, splitOnChar_append_sep _ _ _ (by decide),
    split_body _ hd, splitOnChar_cons_sep,
    splitOnChar_append_sep _ _ _ (by decide)]
  have := split_body doc.footer hf []
  rw [List.append_nil] at this
  rw [this]
  rfl

/-- Reading a serialized document back: when every entry is clean, each
mapping of the parsed text is the object built from the entries of the
document's mapping with their values coerced from their text. -/
theorem parse_serialize (doc : ParsedAlnDoc)
    (hh : ∀ e ∈ doc.header, CleanEntry e) (hd : ∀ e ∈ doc.data, CleanEntry e)
    (hf : ∀ e ∈ doc.footer, CleanEntry e) :
    (parseAlnDocument (serializeAlnDocument doc)).header =
        JSObject.fromEntries (doc.header.map reread) ∧
      (parseAlnDocument (serializeAlnDocument doc)).data =
        JSObject.fromEntries (doc.data.map reread) ∧
      (parseAlnDocument (serializeAlnDocument doc)).footer =
        JSObject.fromEntries (doc.footer.map reread) := by
  have hne : (serializeAlnDocument doc).isEmpty = false := by
    rw [serialize_eq]; rfl
  have hview : ((splitOnChar '\n' (serializeAlnDocument doc)).foldl parseLine {}).view =
      ⟨some "footer".toList, JSObject.fromEntries (doc.header.map reread),
        JSObject.fromEntries (doc.data.map reread),
        JSObject.fromEntries (doc.footer.map reread)⟩ := by
    rw [view_foldl_parseLine, split_serialize doc hh hd hf]
    simp only [List.foldl_cons, List.foldl_append, List.foldl_nil, step_header_marker,
      step_blank, step_data_marker, step_footer_marker]
    rw [foldl_step_entries "header".toList (by decide) _ hh _ rfl, foldl_store_header]
    simp only [step_blank, step_data_marker]
    rw [foldl_step_entries "data".toList (by decide) _ hd _ rfl, foldl_store_data]
    simp only [step_blank, step_footer_marker]
    rw [foldl_step_entries "footer".toList (by decide) _ hf _ rfl, foldl_store_footer]
    rfl
  simp only [parseAlnDocument, hne]
  have h1 := congrArg ScanView.header hview
  have h2 := congrArg ScanView.data hview
  have h3 := congrArg ScanView.footer hview
  exact ⟨h1, h2, h3⟩

namespace JSObject

variable {α β : Type}

theorem get?_mapValues (g : α → β) (o : JSObject α) (k : Str) :
    (mapValues g o).get? k = (o.get? k).map g := by
  induction o with
  | nil => rfl
  | cons e es ih =>
    obtain ⟨k', v⟩ := e
    by_cases h : k' = k
    · simp [mapValues, get?, h]
    · simp only [mapValues, List.map_cons, get?, h, if_false]
      exact ih

theorem has_mapValues (g : α → β) (o : JSObject α) (k : Str) :
    (mapValues g o).has k = o.has k := by
  simp [has, get?_mapValues]

theorem replace_mapValues (g : α → β) (o : JSObject α) (k : Str) (v : α) :
    mapValues g (o.replace k v) = (mapValues g o).replace k (g v) := by
  simp only [mapValues, replace, List.map_map]
  apply List.map_congr_left
  intro e _
  by_cases h : e.1 = k <;> simp [h]

theorem insertIndex_mapValues (g : α → β) (k : Str) (i : Nat) (v : α) (o : JSObject α) :
    mapValues g (insertIndex k i v o) = insertIndex k i (g v) (mapValues g o) := by
  induction o with
  | nil => rfl
  | cons e es ih =>
    obtain ⟨k', v'⟩ := e
    simp only [insertIndex, mapValues, List.map_cons]
    cases indexValue k' with
    | none => rfl
    | some j =>
      simp only
      split_ifs
      · simp only [List.map_cons, List.cons.injEq, true_and]
        exact ih
      · rfl

theorem set_mapValues (g : α → β) (o : JSObject α) (k : Str) (v : α) :
    mapValues g (o.set k v) = (mapValues g o).set k (g v) := by
  unfold set
  rw [has_mapValues]
  split_ifs
  · rfl
  · exact replace_mapValues g o k v
  · cases indexValue k with
    | none => simp [mapValues]
    | some i => exact insertIndex_mapValues g k i v o

theorem foldl_set_mapValues (g : α → β) (es : List (Str × α)) (o : JSObject α) :
    mapValues g (es.foldl (fun o e => o.set e.1 e.2) o) =
      (mapValues g es).foldl (fun o e => o.set e.1 e.2) (mapValues g o) := by
  induction es generalizing o with
  | nil => rfl
  | cons e es ih =>
    rw [List.foldl_cons, ih, set_mapValues]
    rfl

/-- Changing the values of the entries changes the values of the object they
build, and nothing else. -/
theorem fromEntries_mapValues (g : α → β) (es : List (Str × α)) :
    fromEntries (mapValues g es) = mapValues g (fromEntries es) := by
  unfold fromEntries
  rw [foldl_set_mapValues]
  rfl

end JSObject

theorem map_reread_eq (o : JSObject Value) :
    o.map reread = JSObject.mapValues (fun v => parseValue (formatValue v)) o := rfl

/-- The object read back from the lines of a mapping that lists the own
properties of an object: the same keys, in the same order, with the coerced
values. -/
theorem fromEntries_reread (o : JSObject Value) (h : JSObject.fromEntries o = o) :
    JSObject.fromEntries (o.map reread) = o.map reread := by
  rw [map_reread_eq, JSObject.fromEntries_mapValues, h]

/-! ## The coercer: fuel and unfolding -/

theorem splitOnChar_piece_length (sep : Char) (s : Str) :
    ∀ p ∈ splitOnChar sep s, p.length ≤ s.length := by
  induction s with
  | nil => simp [splitOnChar]
  | cons c cs ih =>
    intro p hp
    unfold splitOnChar at hp
    split_ifs at hp
    · rcases List.mem_cons.mp hp with rfl | hp
      · simp
      · exact Nat.le_succ_of_le (ih p hp)
    · cases hs : splitOnChar sep cs with
      | nil => exact absurd hs (splitOnChar_ne_nil sep cs)
      | cons q qs =>
        rw [hs] at hp ih
        rcases List.mem_cons.mp hp with rfl | hp
        · simpa using ih q (by simp)
        · exact Nat.le_succ_of_le (ih p (List.mem_cons_of_mem _ hp))

theorem trim_length_le (s : Str) : (trim s).length ≤ s.length :=
  Nat.le_trans (trimEnd_length_le _) (trimStart_length_le s)

theorem slice1_length (s : Str) : (slice1 s).length = s.length - 2 := by
  simp [slice1]; omega

theorem bracketed_length {s : Str} (h : (startsWith s ['['] && endsWith s [']']) = true) :
    2 ≤ s.length := by
  rw [startsWith_singleton, endsWith_singleton] at h
  simp only [Bool.and_eq_true, decide_eq_true_eq] at h
  match s, h with
  | [], h => simp at h
  | [c], h =>
    simp at h
    obtain ⟨h1, h2⟩ := h
    rw [h1] at h2
    exact absurd h2 (by decide)
  | _ :: _ :: _, _ => simp

/-- The pieces of an array literal are shorter than the literal. -/
theorem item_length_lt {s item : Str} (hb : (startsWith s ['['] && endsWith s [']']) = true)
    (hi : item ∈ (splitOnChar ',' (slice1 s)).map trim) : item.length + 2 ≤ s.length := by
  obtain ⟨p, hp, rfl⟩ := List.mem_map.mp hi
  have h1 := splitOnChar_piece_length ',' (slice1 s) p hp
  have h2 := trim_length_le p
  have h3 := slice1_length s
  have h4 := bracketed_length hb
  omega

/-- The fuel of `parseValue` never runs out: any larger amount of fuel gives
the same value. -/
theorem parseValueAux_fuel (fuel : Nat) (s : Str) (h : s.length + 1 ≤ fuel) :
    parseValueAux fuel s = parseValue s := by
  induction fuel using Nat.strong_induction_on generalizing s with
  | _ fuel ih =>
    cases fuel with
    | zero => omega
    | succ f =>
      unfold parseValue parseValueAux
      split_ifs with h1 h2 h3 h4 h5 h6
      · rfl
      · rfl
      · rfl
      · rfl
      · rfl
      · congr 1
        apply List.map_congr_left
        intro item hi
        have hl := item_length_lt h6 hi
        rw [ih f (Nat.lt_succ_self f) item (by omega)]
        have hs : s.length < f + 1 := by omega
        rw [ih s.length hs item (by omega)]
      · rfl

/-- The function `parseValue`, rule by rule, as in the source: the elements of
an array literal are coerced by `parseValue` itself. -/
theorem parseValue_eq (value : Str) :
    parseValue value =
      if (startsWith value [dquote] && endsWith value [dquote]) ||
          (startsWith value [squote] && endsWith value [squote]) then
        .str (slice1 value)
      else if value = "true".toList then .bool true
      else if value = "false".toList then .bool false
      else if isDigits value then .num (parseInt value)
      else if isDecimal value then .num (parseFloat value)
      else if startsWith value ['['] && endsWith value [']'] then
        .arr (((splitOnChar ',' (slice1 value)).map trim).map parseValue)
      else .str value := by
  conv => lhs; unfold parseValue parseValueAux
  split_ifs with h1 h2 h3 h4 h5 h6
  · rfl
  · rfl
  · rfl
  · rfl
  · rfl
  · congr 1
    apply List.map_congr_left
    intro item hi
    have hl := item_length_lt h6 hi
    exact parseValueAux_fuel _ _ (by omega)
  · rfl

/-! ## Decimal digits -/

theorem charDigit_digitChar : ∀ d : Fin 10, charDigit (digitChar d) = d := by decide

theorem isDigit_digitChar : ∀ d : Fin 10, isDigit (digitChar d) = true := by decide

theorem map_charDigit_digitChar (ds : List (Fin 10)) :
    (ds.map digitChar).map charDigit = ds := by
  induction ds with
  | nil => rfl
  | cons d ds ih => simp [charDigit_digitChar, ih]

theorem all_isDigit_map (ds : List (Fin 10)) : (ds.map digitChar).all isDigit = true := by
  induction ds with
  | nil => rfl
  | cons d ds ih => simp [isDigit_digitChar, ih]

theorem isDigits_map (ds : List (Fin 10)) (h : ds ≠ []) : isDigits (ds.map digitChar) = true := by
  cases ds with
  | nil => exact absurd rfl h
  | cons d ds =>
    have := all_isDigit_map (d :: ds)
    simp only [isDigits, this, Bool.and_true]
    rfl

theorem foldl_digits (ds : List (Fin 10)) (a : Nat) :
    ds.foldl (fun a d => 10 * a + d.val) a = a * 10 ^ ds.length + digitsValue ds := by
  induction ds generalizing a with
  | nil => simp [digitsValue]
  | cons d ds ih =>
    rw [digitsValue, List.foldl_cons, List.foldl_cons, ih, ih (10 * 0 + d.val)]
    simp [pow_succ]
    ring

theorem digitsValue_cons (d : Fin 10) (ds : List (Fin 10)) :
    digitsValue (d :: ds) = d.val * 10 ^ ds.length + digitsValue ds := by
  rw [digitsValue, List.foldl_cons, foldl_digits]
  simp

theorem digitsValue_natDigitsAux (fuel n : Nat) (acc : List (Fin 10)) (h : n ≤ fuel) :
    digitsValue (natDigitsAux fuel n acc) = n * 10 ^ acc.length + digitsValue acc := by
  induction fuel generalizing n acc with
  | zero =>
    have : n = 0 := by omega
    simp [natDigitsAux, this]
  | succ f ih =>
    unfold natDigitsAux
    split_ifs with h0
    · simp [h0]
    · have hle : n / 10 ≤ f := by
        have : n / 10 < n := Nat.div_lt_self (Nat.pos_of_ne_zero h0) (by decide)
        omega
      rw [ih (n / 10) _ hle, digitsValue_cons]
      simp only [List.length_cons, pow_succ]
      have hn : n * 10 ^ acc.length = (10 * (n / 10) + n % 10) * 10 ^ acc.length := by
        rw [Nat.div_add_mod n 10]
      rw [hn]
      ring

/-- The digits of a natural have its value. -/
theorem digitsValue_natDigits (n : Nat) : digitsValue (natDigits n) = n := by
  rw [natDigits, digitsValue_natDigitsAux n n [] (Nat.le_refl n)]
  simp [digitsValue]

theorem natDigitsAux_ne_nil (fuel n : Nat) (acc : List (Fin 10)) (h : acc ≠ []) :
    natDigitsAux fuel n acc ≠ [] := by
  induction fuel generalizing n acc with
  | zero => simpa [natDigitsAux] using h
  | succ f ih =>
    unfold natDigitsAux
    split_ifs
    · exact h
    · exact ih _ _ (by simp)

theorem natDigits_eq_nil_iff (n : Nat) : natDigits n = [] ↔ n = 0 := by
  constructor
  · intro h
    have := digitsValue_natDigits n
    rw [h] at this
    simpa [digitsValue] using this.symm
  · rintro rfl; rfl

theorem mkFrac_strip_fracDigits (x : JSNumber) :
    mkFrac (stripTrailingZeros x.fracDigits) = x.frac := by
  obtain ⟨neg, w, frac⟩ := x
  cases frac with
  | none => rfl
  | some p =>
    obtain ⟨ds, d⟩ := p
    have hd : (⟨d.val + 1, by omega⟩ : Fin 10) ≠ 0 := by
      intro h
      have := congrArg Fin.val h
      simp at this
    have hs : stripTrailingZeros (ds ++ [⟨d.val + 1, by omega⟩]) = ds ++ [⟨d.val + 1, by omega⟩] := by
      simp [stripTrailingZeros, List.dropWhile, hd]
    simp only [JSNumber.fracDigits, hs]
    simp [mkFrac]

theorem fracDigits_ne_nil_iff (x : JSNumber) : x.fracDigits ≠ [] ↔ x.frac ≠ none := by
  obtain ⟨neg, w, frac⟩ := x
  cases frac with
  | none => simp [JSNumber.fracDigits]
  | some p => simp [JSNumber.fracDigits]

/-! ## The coercer on numerals -/

theorem not_mem_of_all_isDigit {s : Str} (h : s.all isDigit = true) {c : Char}
    (hc : isDigit c = false) : c ∉ s := by
  intro hm
  have := List.all_eq_true.mp h c hm
  rw [hc] at this
  exact absurd this (by decide)

/-- A text that begins with a character which is neither a quote nor `t` nor
`f` falls through the first rules of the coercer. -/
theorem not_quoted_of_head {s : Str} {c : Char} (hs : s.head? = some c)
    (h1 : c ≠ dquote) (h2 : c ≠ squote) :
    ((startsWith s [dquote] && endsWith s [dquote]) ||
      (startsWith s [squote] && endsWith s [squote])) = false := by
  rw [startsWith_singleton, startsWith_singleton, hs]
  have e1 : decide (some c = some dquote) = false := decide_eq_false (by simpa using h1)
  have e2 : decide (some c = some squote) = false := decide_eq_false (by simpa using h2)
  rw [e1, e2]; rfl

theorem ne_of_head {s t : Str} {c d : Char} (hs : s.head? = some c) (ht : t.head? = some d)
    (h : c ≠ d) : s ≠ t := by
  rintro rfl
  rw [hs] at ht
  exact h (Option.some.inj ht)

theorem head?_map_digitChar (ds : List (Fin 10)) (h : ds ≠ []) :
    ∃ d, (ds.map digitChar).head? = some (digitChar d) := by
  cases ds with
  | nil => exact absurd rfl h
  | cons d ds => exact ⟨d, rfl⟩

theorem digitChar_ne_dquote : ∀ d : Fin 10, digitChar d ≠ dquote := by decide
theorem digitChar_ne_squote : ∀ d : Fin 10, digitChar d ≠ squote := by decide
theorem digitChar_ne_t : ∀ d : Fin 10, digitChar d ≠ 't' := by decide
theorem digitChar_ne_f : ∀ d : Fin 10, digitChar d ≠ 'f' := by decide

/-- The first rules of the coercer do not apply to a text that begins with a
decimal digit. -/
theorem digit_head_rules {s : Str} {d : Fin 10} (hs : s.head? = some (digitChar d)) :
    ((startsWith s [dquote] && endsWith s [dquote]) ||
      (startsWith s [squote] && endsWith s [squote])) = false ∧
    s ≠ "true".toList ∧ s ≠ "false".toList :=
  ⟨not_quoted_of_head hs (digitChar_ne_dquote d) (digitChar_ne_squote d),
    ne_of_head hs rfl (digitChar_ne_t d), ne_of_head hs rfl (digitChar_ne_f d)⟩

/-- The coercer reads a string of decimal digits as the integer they denote. -/
theorem parseValue_digits (ds : List (Fin 10)) (h : ds ≠ []) :
    parseValue (ds.map digitChar) = .num (JSNumber.ofDigits false ds []) := by
  obtain ⟨d, hd⟩ := head?_map_digitChar ds h
  obtain ⟨h1, h2, h3⟩ := digit_head_rules hd
  rw [parseValue_eq, h1]
  simp only [Bool.false_eq_true, if_false, h2, h3, isDigits_map ds h, if_true, parseInt,
    map_charDigit_digitChar]

theorem indexOf_dot_digits (a : List (Fin 10)) (rest : Str) :
    indexOf '.' (a.map digitChar ++ '.' :: rest) = some a.length := by
  rw [indexOf_append_of_not_mem _ _ _
    (not_mem_of_all_isDigit (all_isDigit_map a) (by decide))]
  simp

theorem isDigits_with_dot (a : List (Fin 10)) (rest : Str) :
    isDigits (a.map digitChar ++ '.' :: rest) = false := by
  simp [isDigits, List.all_append, isDigit]

/-- The coercer reads `digits.digits` as the decimal number it denotes. -/
theorem parseValue_decimal (a b : List (Fin 10)) (ha : a ≠ []) (hb : b ≠ []) :
    parseValue (a.map digitChar ++ '.' :: b.map digitChar) =
      .num (JSNumber.ofDigits false a b) := by
  obtain ⟨d, hd⟩ := head?_map_digitChar a ha
  have hd' : (a.map digitChar ++ '.' :: b.map digitChar).head? = some (digitChar d) := by
    cases a with
    | nil => exact absurd rfl ha
    | cons x xs => exact hd
  obtain ⟨h1, h2, h3⟩ := digit_head_rules hd'
  have htake : List.take a.length (a.map digitChar ++ '.' :: b.map digitChar) =
      a.map digitChar := by
    rw [List.take_append_eq_append_take]; simp
  have hdrop : List.drop (a.length + 1) (a.map digitChar ++ '.' :: b.map digitChar) =
      b.map digitChar := by
    rw [List.drop_append_eq_append_drop]; simp [List.drop_eq_nil_of_le]
  have hdec : isDecimal (a.map digitChar ++ '.' :: b.map digitChar) = true := by
    simp only [isDecimal, indexOf_dot_digits, htake, hdrop, isDigits_map a ha,
      isDigits_map b hb, Bool.and_self]
  rw [parseValue_eq, h1]
  simp only [Bool.false_eq_true, if_false, h2, h3, isDigits_with_dot, hdec, if_true,
    parseFloat, indexOf_dot_digits, htake, hdrop, map_charDigit_digitChar]

/-- The coercer reads the canonical text of a plain number back as that
number. -/
theorem parseValue_numberToString (x : JSNumber) (h : x.isPlain = true) :
    parseValue (numberToString x) = .num x := by
  obtain ⟨neg, w, frac⟩ := x
  simp only [JSNumber.isPlain, Bool.and_eq_true, Bool.not_eq_true', decide_eq_true_eq,
    Bool.or_eq_true, bne_iff_ne, ne_eq, Option.isNone_iff_eq_none] at h
  obtain ⟨⟨hneg, hlen⟩, hz⟩ := h
  subst hneg
  have hfrac := mkFrac_strip_fracDigits ⟨false, w, frac⟩
  have hval := digitsValue_natDigits w
  simp only [numberToString, Bool.false_and, Bool.false_eq_true, if_false, absToString]
  by_cases hw : natDigits w = []
  · have hw0 : w = 0 := (natDigits_eq_nil_iff w).mp hw
    subst hw0
    by_cases hf : JSNumber.fracDigits ⟨false, 0, frac⟩ = []
    · have : frac = none := by
        by_contra hne
        exact (fracDigits_ne_nil_iff ⟨false, 0, frac⟩).mpr hne hf
      subst this
      rfl
    · have hz' : (List.takeWhile (· = 0) (JSNumber.fracDigits ⟨false, 0, frac⟩)).length < 6 := by
        rcases hz with (hz | hz) | hz
        · exact absurd rfl hz
        · exact absurd hz ((fracDigits_ne_nil_iff ⟨false, 0, frac⟩).mp hf)
        · exact hz
      simp only [hw, List.isEmpty_nil, Bool.true_and, List.isEmpty_eq_true, hf, if_false,
        Bool.not_true, Bool.false_eq_true, hz', if_true]
      have key : parseValue ('0' :: '.' ::
          List.map digitChar (JSNumber.fracDigits ⟨false, 0, frac⟩)) =
          .num (JSNumber.ofDigits false [0] (JSNumber.fracDigits ⟨false, 0, frac⟩)) :=
        parseValue_decimal [0] (JSNumber.fracDigits ⟨false, 0, frac⟩) (by simp) hf
      rw [key, JSNumber.ofDigits, hfrac]
      rfl
  · have hwe : (natDigits w).isEmpty = false := by
      cases hn : natDigits w with
      | nil => exact absurd hn hw
      | cons a as => rfl
    simp only [hwe, Bool.false_and, Bool.false_eq_true, if_false, Bool.not_false, if_true, hlen]
    by_cases hf : JSNumber.fracDigits ⟨false, w, frac⟩ = []
    · have : frac = none := by
        by_contra hne
        exact (fracDigits_ne_nil_iff ⟨false, w, frac⟩).mpr hne hf
      subst this
      simp only [hf, List.isEmpty_nil, if_true]
      rw [parseValue_digits _ hw, JSNumber.ofDigits, hval]
      rfl
    · have hfe : (JSNumber.fracDigits ⟨false, w, frac⟩).isEmpty = false := by
        cases hn : JSNumber.fracDigits ⟨false, w, frac⟩ with
        | nil => exact absurd hn hf
        | cons a as => rfl
      simp only [hfe, Bool.false_eq_true, if_false]
      rw [parseValue_decimal _ _ hw hf, JSNumber.ofDigits, hval, hfrac]

/-! ## The canonical text of a number -/

theorem numChar_not_ws {c : Char} (h : numChar c = true) : isWhiteSpace c = false := by
  simp only [numChar, Bool.or_eq_true, Bool.and_eq_true, decide_eq_true_eq, beq_iff_eq] at h
  simp only [isWhiteSpace, Bool.or_eq_false_iff, Bool.and_eq_false_iff, beq_eq_false_iff_ne,
    decide_eq_false_iff_not, ne_eq]
  omega

theorem ne_of_numChar {c d : Char} (hc : numChar c = true) (hd : numChar d = false) : c ≠ d := by
  rintro rfl
  rw [hc] at hd
  exact absurd hd (by decide)

theorem numChar_digitChar : ∀ d : Fin 10, numChar (digitChar d) = true := by decide

theorem all_numChar_map (ds : List (Fin 10)) : (ds.map digitChar).all numChar = true := by
  induction ds with
  | nil => rfl
  | cons d ds ih => simp [numChar_digitChar, ih]

theorem all_numChar_natToStr (n : Nat) : (natToStr n).all numChar = true := by
  unfold natToStr
  split_ifs
  · rfl
  · exact all_numChar_map _

theorem all_numChar_mantissaStr (sig : List (Fin 10)) : (mantissaStr sig).all numChar = true := by
  unfold mantissaStr
  split
  · rfl
  · simp [numChar_digitChar]
  · have := all_numChar_map
    simp only [List.all_cons, numChar_digitChar, all_numChar_map, Bool.and_true, Bool.true_and]
    rfl

theorem all_numChar_expPart (neg : Bool) (e : Nat) : (expPart neg e).all numChar = true := by
  unfold expPart
  rw [List.all_append, all_numChar_natToStr]
  cases neg <;> rfl

theorem all_numChar_absToString (x : JSNumber) : (absToString x).all numChar = true := by
  unfold absToString
  simp only
  split_ifs <;>
    simp only [List.all_append, List.all_cons, all_numChar_map, all_numChar_mantissaStr,
      all_numChar_expPart, Bool.and_true, Bool.true_and, List.all_nil] <;> rfl

/-- The canonical text of a number is made of digits, `.`, `e`, `+` and `-`. -/
theorem all_numChar_numberToString (x : JSNumber) : (numberToString x).all numChar = true := by
  unfold numberToString
  split_ifs
  · simp only [List.all_cons, all_numChar_absToString, Bool.and_true]; rfl
  · exact all_numChar_absToString x

theorem head?_mantissaStr (sig : List (Fin 10)) (rest : Str) :
    ∃ d, (mantissaStr sig ++ rest).head? = some (digitChar d) := by
  unfold mantissaStr
  split
  · exact ⟨0, rfl⟩
  · exact ⟨_, rfl⟩
  · exact ⟨_, rfl⟩

/-- The text of a non-negative number begins with a digit. -/
theorem head?_absToString (x : JSNumber) : ∃ d, (absToString x).head? = some (digitChar d) := by
  unfold absToString
  simp only
  split_ifs with h1 h2 h3 h4 h5
  · exact ⟨0, rfl⟩
  · have hne : natDigits x.whole ≠ [] := by
      intro e; rw [e] at h2; simp at h2
    exact head?_map_digitChar _ hne
  · have hne : natDigits x.whole ≠ [] := by
      intro e; rw [e] at h2; simp at h2
    obtain ⟨d, hd⟩ := head?_map_digitChar _ hne
    refine ⟨d, ?_⟩
    cases hn : natDigits x.whole with
    | nil => exact absurd hn hne
    | cons a as => rw [hn] at hd; exact hd
  · exact head?_mantissaStr _ _
  · exact ⟨0, rfl⟩
  · exact head?_mantissaStr _ _

theorem numberToString_ne_nil (x : JSNumber) : numberToString x ≠ [] := by
  unfold numberToString
  split_ifs
  · simp
  · obtain ⟨d, hd⟩ := head?_absToString x
    intro e; rw [e] at hd; simp at hd

theorem trim_of_all_numChar (s : Str) (h : s.all numChar = true) : trim s = s := by
  apply trim_eq_self_of_edges
  · intro c hc
    exact numChar_not_ws (List.all_eq_true.mp h c (List.mem_of_mem_head? hc))
  · intro c hc
    exact numChar_not_ws (List.all_eq_true.mp h c (List.mem_of_mem_getLast? hc))

theorem not_mem_of_all_numChar {s : Str} (h : s.all numChar = true) {c : Char}
    (hc : numChar c = false) : c ∉ s := by
  intro hm
  exact ne_of_numChar (List.all_eq_true.mp h c hm) hc rfl

/-! ## The coercer on quoted strings and array literals -/

theorem slice1_wrap (a b : Char) (s : Str) : slice1 (a :: (s ++ [b])) = s := by
  simp [slice1]

theorem head?_wrap (a b : Char) (s : Str) : (a :: (s ++ [b])).head? = some a := rfl

theorem getLast?_wrap (a b : Char) (s : Str) : (a :: (s ++ [b])).getLast? = some b := by
  have : a :: (s ++ [b]) = (a :: s) ++ [b] := rfl
  rw [this, List.getLast?_append_of_ne_nil _ (by simp)]
  rfl

theorem trim_wrap (a b : Char) (s : Str) (ha : isWhiteSpace a = false)
    (hb : isWhiteSpace b = false) : trim (a :: (s ++ [b])) = a :: (s ++ [b]) := by
  apply trim_eq_self_of_edges
  · intro c hc
    have : c = a := by simpa using hc.symm
    rw [this]; exact ha
  · intro c hc
    rw [getLast?_wrap] at hc
    have : c = b := by simpa using hc.symm
    rw [this]; exact hb

/-- The coercer strips the quotes that the serializer puts around a string. -/
theorem parseValue_quoted (s : Str) : parseValue (dquote :: (s ++ [dquote])) = .str s := by
  rw [parseValue_eq, startsWith_singleton, endsWith_singleton, head?_wrap, getLast?_wrap]
  simp only [decide_True, Bool.and_self, Bool.true_or, if_true, slice1_wrap]

theorem isDigits_of_head_not_digit {s : Str} {c : Char} (hs : s.head? = some c)
    (hc : isDigit c = false) : isDigits s = false := by
  cases s with
  | nil => rfl
  | cons d ds =>
    have : d = c := by simpa using hs
    subst this
    simp [isDigits, hc]

theorem isDecimal_of_head_not_digit {s : Str} {c : Char} (hs : s.head? = some c)
    (hc : isDigit c = false) : isDecimal s = false := by
  unfold isDecimal
  cases hi : indexOf '.' s with
  | none => rfl
  | some i =>
    simp only
    cases i with
    | zero => simp [isDigits]
    | succ j =>
      have : (s.take (j + 1)).head? = some c := by
        cases s with
        | nil => simp at hs
        | cons d ds => simpa using hs
      rw [isDigits_of_head_not_digit this hc, Bool.false_and]

theorem trim_space_cons_eq (s : Str) : trim (' ' :: s) = trim s := by
  rw [trim, trimStart_cons_of_ws _ (by decide), ← trim]

theorem map_trim_split_space (sep : Char) (hsep : ' ' ≠ sep) (s : Str) :
    (splitOnChar sep (' ' :: s)).map trim = (splitOnChar sep s).map trim := by
  rw [splitOnChar, if_neg hsep]
  cases hs : splitOnChar sep s with
  | nil => exact absurd hs (splitOnChar_ne_nil sep s)
  | cons p ps => simp [trim_space_cons_eq]

/-- Splitting the comma-space join of texts that contain no comma and trimming
the pieces gives the trimmed texts back. -/
theorem map_trim_split_join (parts : List Str) (hne : parts ≠ [])
    (hc : ∀ p ∈ parts, ',' ∉ p) :
    (splitOnChar ',' (joinWith ", ".toList parts)).map trim = parts.map trim := by
  induction parts with
  | nil => exact absurd rfl hne
  | cons p ps ih =>
    cases ps with
    | nil =>
      rw [joinWith, splitOnChar_of_not_mem _ _ (hc p (by simp))]
    | cons q qs =>
      have hj : joinWith ", ".toList (p :: q :: qs) =
          p ++ ',' :: (' ' :: joinWith ", ".toList (q :: qs)) := by
        simp [joinWith]
      rw [hj, splitOnChar_append_sep _ _ _ (hc p (by simp)), List.map_cons,
        map_trim_split_space _ (by decide),
        ih (by simp) (fun p' hp' => hc p' (List.mem_cons_of_mem _ hp'))]
      rfl

theorem contains_eq_false_iff (s : Str) (c : Char) : s.contains c = false ↔ c ∉ s := by
  simp [List.contains]

mutual
/-- A faithful value is read back from its text, and its text has no white
space at either end. -/
theorem parseValue_formatValue :
    ∀ v : Value, faithful v = true →
      parseValue (formatValue v) = v ∧ trim (formatValue v) = formatValue v
  | .str s, h => by
    unfold faithful at h
    unfold formatValue
    split_ifs at h ⊢ with hq
    · exact ⟨parseValue_quoted s, trim_wrap _ _ _ (by decide) (by decide)⟩
    · simp only [Bool.and_eq_true, decide_eq_true_eq] at h
      exact ⟨h.2, h.1⟩
  | .bool b, _ => by
    cases b
    · exact ⟨by decide, by decide⟩
    · exact ⟨by decide, by decide⟩
  | .num x, h => by
    unfold faithful at h
    have h1 := parseValue_numberToString x h
    unfold formatValue
    exact ⟨h1, trim_of_all_numChar _ (all_numChar_numberToString x)⟩
  | .arr xs, h => by
    unfold faithful at h
    simp only [Bool.and_eq_true, Bool.not_eq_true', List.isEmpty_eq_false] at h
    obtain ⟨hne, hitems⟩ := h
    obtain ⟨h1, h2⟩ := parseValues_formatValues xs hitems
    have hfne : formatValues xs ≠ [] := by
      cases xs with
      | nil => simp at hne
      | cons y ys => simp [formatValues]
    unfold formatValue
    refine ⟨?_, trim_wrap _ _ _ (by decide) (by decide)⟩
    have hh := head?_wrap '[' ']' (joinWith ", ".toList (formatValues xs))
    rw [parseValue_eq, not_quoted_of_head hh (by decide) (by decide)]
    have ht : '[' :: (joinWith ", ".toList (formatValues xs) ++ [']']) ≠ "true".toList :=
      ne_of_head (d := 't') hh rfl (by decide)
    have hf : '[' :: (joinWith ", ".toList (formatValues xs) ++ [']']) ≠ "false".toList :=
      ne_of_head (d := 'f') hh rfl (by decide)
    simp only [Bool.false_eq_true, if_false, ht, hf,
      isDigits_of_head_not_digit hh (by decide), isDecimal_of_head_not_digit hh (by decide)]
    rw [startsWith_singleton, endsWith_singleton, hh, getLast?_wrap]
    simp only [decide_True, Bool.and_self, if_true, slice1_wrap]
    rw [map_trim_split_join _ hfne (fun p hp => (h2 p hp).1)]
    congr 1
    rw [List.map_congr_left (fun p hp => (h2 p hp).2), List.map_id'']
    · exact h1
    · intro; rfl
/-- The elements of a faithful array are read back from their texts, which
contain no comma and have no white space at either end. -/
theorem parseValues_formatValues :
    ∀ vs : List Value, faithfulItems vs = true →
      (formatValues vs).map parseValue = vs ∧
        ∀ t ∈ formatValues vs, ',' ∉ t ∧ trim t = t
  | [], _ => by simp [formatValues]
  | v :: vs, h => by
    unfold faithfulItems at h
    simp only [Bool.and_eq_true, Bool.not_eq_true', contains_eq_false_iff] at h
    obtain ⟨⟨hv, hcomma⟩, hvs⟩ := h
    obtain ⟨h1, h2⟩ := parseValue_formatValue v hv
    obtain ⟨h3, h4⟩ := parseValues_formatValues vs hvs
    unfold formatValues
    refine ⟨by simp [h1, h3], ?_⟩
    intro t ht
    rcases List.mem_cons.mp ht with rfl | ht
    · exact ⟨hcomma, h2⟩
    · exact h4 t ht
end

theorem indexOf_split (ch : Char) (s : Str) (i : Nat) (h : indexOf ch s = some i) :
    s = s.take i ++ ch :: s.drop (i + 1) := by
  induction s generalizing i with
  | nil => simp [indexOf] at h
  | cons c cs ih =>
    unfold indexOf at h
    split_ifs at h with hc
    · have : i = 0 := by simpa using h.symm
      subst this
      simp [hc]
    · cases hi : indexOf ch cs with
      | none => simp [hi] at h
      | some j =>
        simp only [hi, Option.map_some', Option.some.injEq] at h
        subst h
        have := ih j hi
        simp only [List.take_succ_cons, List.drop_succ_cons, List.cons_append, List.cons.injEq,
          true_and]
        exact this

theorem isDigits_of_mem {s : Str} {c : Char} (hc : c ∈ s) (hd : isDigit c = false) :
    isDigits s = false := by
  have : s.all isDigit = false := by
    rw [List.all_eq_false]
    exact ⟨c, hc, by simp [hd]⟩
  simp [isDigits, this]

theorem isDecimal_of_mem {s : Str} {c : Char} (hc : c ∈ s) (hd : isDigit c = false)
    (hdot : c ≠ '.') : isDecimal s = false := by
  unfold isDecimal
  cases hi : indexOf '.' s with
  | none => rfl
  | some i =>
    simp only
    have hs := indexOf_split '.' s i hi
    rw [hs] at hc
    rcases List.mem_append.mp hc with h | h
    · rw [isDigits_of_mem h hd, Bool.false_and]
    · rcases List.mem_cons.mp h with h | h
      · exact absurd h hdot
      · rw [isDigits_of_mem h hd, Bool.and_false]

/-- The coercer returns unchanged a text made of the characters of a number
that holds a character other than a digit and a dot. -/
theorem parseValue_of_numChars (t : Str) (hall : t.all numChar = true) (c0 : Char)
    (hc0 : c0 ∈ t) (hd : isDigit c0 = false) (hdot : c0 ≠ '.') :
    parseValue t = .str t ∧ formatValue (.str t) = t := by
  cases t with
  | nil => simp at hc0
  | cons c cs =>
    have hc : numChar c = true := List.all_eq_true.mp hall c (by simp)
    have hh : (c :: cs).head? = some c := rfl
    constructor
    · rw [parseValue_eq, not_quoted_of_head hh (ne_of_numChar hc (by decide))
        (ne_of_numChar hc (by decide))]
      have ht : c :: cs ≠ "true".toList :=
        ne_of_head (d := 't') hh rfl (ne_of_numChar hc (by decide))
      have hf : c :: cs ≠ "false".toList :=
        ne_of_head (d := 'f') hh rfl (ne_of_numChar hc (by decide))
      have hb : startsWith (c :: cs) ['['] = false := by
        rw [startsWith_singleton, hh]
        exact decide_eq_false (by simpa using ne_of_numChar hc (by decide))
      simp only [Bool.false_eq_true, if_false, ht, hf, isDigits_of_mem hc0 hd,
        isDecimal_of_mem hc0 hd hdot, hb, Bool.false_and]
    · have h1 : (c :: cs).contains ' ' = false :=
        (contains_eq_false_iff _ _).mpr (not_mem_of_all_numChar hall (by decide))
      have h2 : (c :: cs).contains ':' = false :=
        (contains_eq_false_iff _ _).mpr (not_mem_of_all_numChar hall (by decide))
      simp only [formatValue, h1, h2, Bool.or_self, Bool.false_eq_true, if_false]

theorem e_mem_expPart (neg : Bool) (e : Nat) (s : Str) : 'e' ∈ s ++ expPart neg e := by
  simp [expPart]

/-- The text of a non-negative number that is not plain is in exponent form. -/
theorem e_mem_absToString (x : JSNumber)
    (h : (JSNumber.mk false x.whole x.frac).isPlain = false) : 'e' ∈ absToString x := by
  have hfd : JSNumber.fracDigits ⟨false, x.whole, x.frac⟩ = x.fracDigits := rfl
  simp only [JSNumber.isPlain, Bool.not_false, Bool.true_and, hfd] at h
  unfold absToString
  simp only
  split_ifs with h1 h2 h3 h4 h5
  · exfalso
    simp only [Bool.and_eq_true, List.isEmpty_eq_true] at h1
    have hw : x.whole = 0 := (natDigits_eq_nil_iff _).mp h1.1
    have hf : x.frac = none := by
      by_contra hne
      exact (fracDigits_ne_nil_iff x).mpr hne h1.2
    simp [hw, hf, natDigits, natDigitsAux] at h
  · exfalso
    have hw : x.whole ≠ 0 := by
      intro e; rw [e] at h2; simp [natDigits, natDigitsAux] at h2
    simp [h3, hw] at h
  · exfalso
    have hw : x.whole ≠ 0 := by
      intro e; rw [e] at h2; simp [natDigits, natDigitsAux] at h2
    simp [h3, hw] at h
  · exact e_mem_expPart _ _ _
  · exfalso
    have hw : natDigits x.whole = [] := by simpa using h2
    simp [hw, h5] at h
  · exact e_mem_expPart _ _ _

/-- Serializing the value read back from the text of a number gives the same
text. -/
theorem formatValue_parseValue_number (x : JSNumber) :
    formatValue (parseValue (numberToString x)) = numberToString x := by
  by_cases hp : x.isPlain = true
  · rw [parseValue_numberToString x hp]; rfl
  · have hall := all_numChar_numberToString x
    by_cases hneg : (x.neg && !x.isZero) = true
    · have hm : '-' ∈ numberToString x := by
        simp [numberToString, hneg]
      obtain ⟨h1, h2⟩ := parseValue_of_numChars _ hall '-' hm (by decide) (by decide)
      rw [h1, h2]
    · by_cases hz : x.isZero = true
      · obtain ⟨neg, w, frac⟩ := x
        simp only [JSNumber.isZero, Bool.and_eq_true, beq_iff_eq,
          Option.isNone_iff_eq_none] at hz
        obtain ⟨rfl, rfl⟩ := hz
        cases neg <;> rfl
      · have hn : x.neg = false := by
          cases hx : x.neg with
          | false => rfl
          | true => simp [hx, hz] at hneg
        have hp' : (JSNumber.mk false x.whole x.frac).isPlain = false := by
          obtain ⟨neg, w, frac⟩ := x
          simp only at hn
          subst hn
          simpa using hp
        have hm : 'e' ∈ numberToString x := by
          simp only [numberToString, hn, Bool.false_and, Bool.false_eq_true, if_false]
          exact e_mem_absToString x hp'
        obtain ⟨h1, h2⟩ := parseValue_of_numChars _ hall 'e' hm (by decide) (by decide)
        rw [h1, h2]

/-! ## Serialization followed by parsing -/

theorem formatValue_str_quoted (s : Str) (h : (s.contains ' ' || s.contains ':') = true) :
    formatValue (.str s) = dquote :: (s ++ [dquote]) := by
  simp only [formatValue, h, if_true]

theorem formatValue_str_plain (s : Str) (h : ¬ (s.contains ' ' || s.contains ':') = true) :
    formatValue (.str s) = s := by
  simp only [formatValue, h, if_false, Bool.false_eq_true]

theorem formatValue_reread_canonical (v : Value) (h : canonicalScalar v = true) :
    formatValue (parseValue (formatValue v)) = formatValue v := by
  cases v with
  | str s =>
    by_cases hq : (s.contains ' ' || s.contains ':') = true
    · rw [formatValue_str_quoted s hq, parseValue_quoted, formatValue_str_quoted s hq]
    · rw [formatValue_str_plain s hq]
      simp only [canonicalScalar, hq, if_false, Bool.false_eq_true, Bool.and_eq_true,
        decide_eq_true_eq] at h
      exact h.1
  | bool b => cases b <;> decide
  | num x => exact formatValue_parseValue_number x
  | arr xs => simp [canonicalScalar] at h

theorem body_congr (o : JSObject Value) (g : Str × Value → Str × Value)
    (h : ∀ e ∈ o, entryLine (g e) = entryLine e) : body (o.map g) = body o := by
  unfold body
  rw [List.map_map]
  congr 1
  apply List.map_congr_left
  intro e he
  simp only [Function.comp, h e he]

theorem serialize_congr (d1 d2 : ParsedAlnDoc) (hh : body d1.header = body d2.header)
    (hd : body d1.data = body d2.data) (hf : body d1.footer = body d2.footer) :
    serializeAlnDocument d1 = serializeAlnDocument d2 := by
  rw [serialize_eq, serialize_eq, hh, hd, hf]

/-- C1 (amended): when the three mappings of a document list the own
properties of objects, every entry is clean and every value is a canonical
scalar (a boolean, a number or a string written in quotes, or a string that is
the text of its own coerced value, every numeral in the text of a number or of
an unquoted string having at most 15 digits), serializing the parsed
serialization of the document gives the serialization of the document. -/
theorem serialize_parse_serialize (doc : ParsedAlnDoc)
    (hh : JSObject.fromEntries doc.header = doc.header)
    (hd : JSObject.fromEntries doc.data = doc.data)
    (hf : JSObject.fromEntries doc.footer = doc.footer)
    (hc : ∀ e ∈ doc.header ++ doc.data ++ doc.footer,
      CleanEntry e ∧ canonicalScalar e.2 = true) :
    serializeAlnDocument (parseAlnDocument (serializeAlnDocument doc)) =
      serializeAlnDocument doc := by
  have ch : ∀ e ∈ doc.header, CleanEntry e ∧ canonicalScalar e.2 = true :=
    fun e he => hc e (by simp [he])
  have cd : ∀ e ∈ doc.data, CleanEntry e ∧ canonicalScalar e.2 = true :=
    fun e he => hc e (by simp [he])
  have cf : ∀ e ∈ doc.footer, CleanEntry e ∧ canonicalScalar e.2 = true :=
    fun e he => hc e (by simp [he])
  obtain ⟨p1, p2, p3⟩ := parse_serialize doc (fun e he => (ch e he).1)
    (fun e he => (cd e he).1) (fun e he => (cf e he).1)
  have key : ∀ o : JSObject Value, (∀ e ∈ o, CleanEntry e ∧ canonicalScalar e.2 = true) →
      body (o.map reread) = body o := by
    intro o ho
    apply body_congr
    intro e he
    simp only [entryLine, reread, formatValue_reread_canonical e.2 (ho e he).2]
  apply serialize_congr
  · rw [p1, fromEntries_reread _ hh]; exact key _ ch
  · rw [p2, fromEntries_reread _ hd]; exact key _ cd
  · rw [p3, fromEntries_reread _ hf]; exact key _ cf

theorem serialize_parse_serialize_witness :
    serializeAlnDocument (parseAlnDocument (serializeAlnDocument validTransferDoc)) =
      serializeAlnDocument validTransferDoc :=
  serialize_parse_serialize validTransferDoc (by decide) (by decide) (by decide) (by decide)

/-- C1 (as stated) fails: the document whose header holds the string `007`,
a scalar with no comma, quote, space or colon, is serialized as `zip: 007`,
read back as the integer 7 and serialized again as `zip: 7`. -/
theorem serialize_parse_serialize_counterexample :
    serializeAlnDocument leadingZeroDoc = "[header]\nzip: 007\n\n[data]\n\n[footer]\n".toList ∧
    serializeAlnDocument (parseAlnDocument (serializeAlnDocument leadingZeroDoc)) =
      "[header]\nzip: 7\n\n[data]\n\n[footer]\n".toList ∧
    serializeAlnDocument (parseAlnDocument (serializeAlnDocument leadingZeroDoc)) ≠
      serializeAlnDocument leadingZeroDoc := by
  decide

theorem map_reread_faithful (o : JSObject Value) (h : ∀ e ∈ o, faithful e.2 = true) :
    o.map reread = o := by
  conv => rhs; rw [← List.map_id o]
  apply List.map_congr_left
  intro e he
  obtain ⟨k, v⟩ := e
  simp only [reread, id, (parseValue_formatValue v (h (k, v) he)).1]

/-- C2 (amended): when the three mappings of a document list the own
properties of objects, every entry is clean and every value is faithful,
parsing the serialization of the document gives back its header, data and
footer: the same keys in the same order with the same typed values. -/
theorem parse_serialize_left_inverse (doc : ParsedAlnDoc)
    (hh : JSObject.fromEntries doc.header = doc.header)
    (hd : JSObject.fromEntries doc.data = doc.data)
    (hf : JSObject.fromEntries doc.footer = doc.footer)
    (hc : ∀ e ∈ doc.header ++ doc.data ++ doc.footer, CleanEntry e ∧ faithful e.2 = true) :
    (parseAlnDocument (serializeAlnDocument doc)).header = doc.header ∧
      (parseAlnDocument (serializeAlnDocument doc)).data = doc.data ∧
      (parseAlnDocument (serializeAlnDocument doc)).footer = doc.footer := by
  have ch : ∀ e ∈ doc.header, CleanEntry e ∧ faithful e.2 = true :=
    fun e he => hc e (by simp [he])
  have cd : ∀ e ∈ doc.data, CleanEntry e ∧ faithful e.2 = true :=
    fun e he => hc e (by simp [he])
  have cf : ∀ e ∈ doc.footer, CleanEntry e ∧ faithful e.2 = true :=
    fun e he => hc e (by simp [he])
  obtain ⟨p1, p2, p3⟩ := parse_serialize doc (fun e he => (ch e he).1)
    (fun e he => (cd e he).1) (fun e he => (cf e he).1)
  rw [p1, p2, p3, fromEntries_reread _ hh, fromEntries_reread _ hd, fromEntries_reread _ hf]
  exact ⟨map_reread_faithful _ (fun e he => (ch e he).2),
    map_reread_faithful _ (fun e he => (cd e he).2),
    map_reread_faithful _ (fun e he => (cf e he).2)⟩

theorem parse_serialize_left_inverse_witness :
    (parseAlnDocument (serializeAlnDocument mixedDoc)).header = mixedDoc.header ∧
      (parseAlnDocument (serializeAlnDocument mixedDoc)).data = mixedDoc.data ∧
      (parseAlnDocument (serializeAlnDocument mixedDoc)).footer = mixedDoc.footer :=
  parse_serialize_left_inverse mixedDoc (by decide) (by decide) (by decide) (by decide)

/-- C2 (as stated) fails: the valid transfer document of the specification
holds the string `5` as `data.amount`; it is serialized as `amount: 5` and
read back as the integer 5. -/
theorem parse_serialize_left_inverse_counterexample :
    validTransferDoc.data = [(kAmount, .str "5".toList)] ∧
    (parseAlnDocument (serializeAlnDocument validTransferDoc)).data =
      [(kAmount, .num (.ofNat 5))] ∧
    (parseAlnDocument (serializeAlnDocument validTransferDoc)).data ≠ validTransferDoc.data := by
  decide

/-! ## The payload rules and the gas limit -/

/-- The occurrences of the transfer error among the errors of a run. -/
theorem count_transferErr (doc : ParsedAlnDoc) (bf bt bs : Bool) :
    (reportOf doc bf bt bs).errorMessages.count transferErr =
      if doc.header.get? kOpCode = some (.str opTransfer) ∧ falsyAt doc.data kAmount = true
      then 1 else 0 := by
  rw [count_reportOf doc bf bt bs transferErr (by simp [missingSectionMsg, transferErr])
    (by simp [missingHeaderFieldMsg, transferErr]) (by simp [invalidOpCodeMsg, transferErr])
    (by simp [missingFooterFieldMsg, transferErr]) (by decide), rule10_messages]
  have d1 : fromErr ≠ transferErr := by decide
  have d2 : toErr ≠ transferErr := by decide
  have d3 : nonceErr ≠ transferErr := by decide
  have e10 : ∀ l : List Str, (l.map proposalFieldMsg).count transferErr = 0 := fun l =>
    count_map_eq_zero _ _ _ (by simp [proposalFieldMsg, transferErr])
  simp only [List.count_append, count_flag, d1, d2, d3, and_false, if_false, Nat.zero_add]
  split_ifs <;> simp_all

/-- The test `!o[k]` holds when the property is absent, the empty string, a
numeric zero or `false`. -/
theorem falsyAt_iff (o : JSObject Value) (k : Str) :
    falsyAt o k = true ↔
      (o.get? k = none ∨ o.get? k = some (.str []) ∨
        (∃ x, o.get? k = some (.num x) ∧ x.isZero = true) ∨ o.get? k = some (.bool false)) := by
  unfold falsyAt
  cases h : o.get? k with
  | none => simp
  | some v =>
    cases v with
    | str s => cases s <;> simp [truthy]
    | bool b => cases b <;> simp [truthy]
    | num x => simp [truthy]
    | arr xs => simp [truthy]

/-- The amount of a transfer, in the reports returned: for every document,
every report that the validator returns holds the error `Transfer requires amount in data section` once when `header.op_code`
is `transfer` and `data.amount` is absent, the empty string, a numeric zero or
`false`, and not at all when `data.amount` is any other value or when
`header.op_code` is not `transfer`; a report is returned whenever
`header.from`, `header.to` and `footer.signature` are absent, falsy or
strings. -/
theorem transfer_amount_error (doc : ParsedAlnDoc) :
    (∀ r, validateChainlexemes doc = .ok r →
      (doc.header.get? kOpCode = some (.str "transfer".toList) →
        ((doc.data.get? kAmount = none ∨ doc.data.get? kAmount = some (.str []) ∨
            (∃ x, doc.data.get? kAmount = some (.num x) ∧ x.isZero = true) ∨
            doc.data.get? kAmount = some (.bool false)) →
          r.errorMessages.count "Transfer requires amount in data section".toList = 1) ∧
        (¬ (doc.data.get? kAmount = none ∨ doc.data.get? kAmount = some (.str []) ∨
            (∃ x, doc.data.get? kAmount = some (.num x) ∧ x.isZero = true) ∨
            doc.data.get? kAmount = some (.bool false)) →
          r.errorMessages.count "Transfer requires amount in data section".toList = 0)) ∧
      (doc.header.get? kOpCode ≠ some (.str "transfer".toList) →
        r.errorMessages.count "Transfer requires amount in data section".toList = 0)) ∧
    (strOrFalsy (doc.header.get? kFrom) = true ∧ strOrFalsy (doc.header.get? kTo) = true ∧
      strOrFalsy (doc.footer.get? kSignature) = true →
      ∃ r, validateChainlexemes doc = .ok r) := by
  refine ⟨?_, (validate_returns_iff doc).mpr⟩
  intro r h
  obtain ⟨bf, bt, bs, -, -, -, rfl⟩ := validate_ok_reportOf h
  have hc := count_transferErr doc bf bt bs
  have hf := falsyAt_iff doc.data kAmount
  refine ⟨fun hop => ⟨fun hd => ?_, fun hd => ?_⟩, fun hop => ?_⟩
  · show (reportOf doc bf bt bs).errorMessages.count transferErr = 1
    rw [hc, if_pos ⟨hop, hf.mpr hd⟩]
  · show (reportOf doc bf bt bs).errorMessages.count transferErr = 0
    rw [hc, if_neg (fun h => hd (hf.mp h.2))]
  · show (reportOf doc bf bt bs).errorMessages.count transferErr = 0
    rw [hc, if_neg (fun h => hop h.1)]

theorem transfer_amount_error_witness :
    ∃ r, validateChainlexemes zeroStringAmountDoc = .ok r ∧
      r.errorMessages.count "Transfer requires amount in data section".toList = 0 :=
  have h := transfer_amount_error zeroStringAmountDoc
  (h.2 (by decide)).elim fun r hr =>
    ⟨r, hr, ((h.1 r hr).1 (by decide)).2
      (fun hd => absurd ((falsyAt_iff _ _).mpr hd) (by decide))⟩

theorem proposalFieldMsg_injective {f g : Str} (h : proposalFieldMsg f = proposalFieldMsg g) :
    f = g := by
  unfold proposalFieldMsg at h
  rw [List.append_assoc, List.append_assoc] at h
  exact List.append_cancel_right (List.append_cancel_left h)

/-- The error of rule 10 for a field is reported exactly when the document is
a governance proposal and the field is required and absent or falsy. -/
theorem proposalMsg_mem (doc : ParsedAlnDoc) (bf bt bs : Bool) (f : Str) :
    proposalFieldMsg f ∈ (reportOf doc bf bt bs).errorMessages ↔
      doc.header.get? kOpCode = some (.str opProposal) ∧ f ∈ requiredProposalFields ∧
        falsyAt doc.data f = true := by
  rw [← List.count_pos_iff,
    count_reportOf doc bf bt bs (proposalFieldMsg f) (by simp [missingSectionMsg, proposalFieldMsg])
      (by simp [missingHeaderFieldMsg, proposalFieldMsg])
      (by simp [invalidOpCodeMsg, proposalFieldMsg])
      (by simp [missingFooterFieldMsg, proposalFieldMsg])
      (by simp [timestampErr, proposalFieldMsg]), rule10_messages]
  have d1 : fromErr ≠ proposalFieldMsg f := by simp [fromErr, proposalFieldMsg]
  have d2 : toErr ≠ proposalFieldMsg f := by simp [toErr, proposalFieldMsg]
  have d3 : nonceErr ≠ proposalFieldMsg f := by simp [nonceErr, proposalFieldMsg]
  have d4 : transferErr ≠ proposalFieldMsg f := by simp [transferErr, proposalFieldMsg]
  simp only [List.count_append, count_flag, d1, d2, d3, d4, and_false, if_false, Nat.zero_add]
  by_cases hop : doc.header.get? kOpCode = some (.str opProposal)
  · simp only [hop, if_true, true_and, List.count_pos_iff, List.mem_map, List.mem_filter]
    constructor
    · rintro ⟨g, hg, hfg⟩
      rw [← proposalFieldMsg_injective hfg]
      exact hg
    · intro h
      exact ⟨f, h, rfl⟩
  · simp [hop]

/-- C11 (amended): for every governance proposal and each of the fields
`proposal_id`, `title` and `category`, every report that the validator returns
holds the error `Governance proposal requires f in data section` exactly when
the field is absent from data or its value is falsy (the empty string, a
numeric zero or `false`); a report is returned whenever `header.from`,
`header.to` and `footer.signature` are absent, falsy or strings; and a
proposal whose data has `proposal_id` and `title` but no `category` gets the
one error on `category`. -/
theorem proposal_field_error (doc : ParsedAlnDoc)
    (hop : doc.header.get? kOpCode = some (.str "governance_proposal".toList)) :
    (∀ r, validateChainlexemes doc = .ok r →
      ("Governance proposal requires proposal_id in data section".toList ∈ r.errorMessages ↔
          falsyAt doc.data "proposal_id".toList = true) ∧
        ("Governance proposal requires title in data section".toList ∈ r.errorMessages ↔
          falsyAt doc.data "title".toList = true) ∧
        ("Governance proposal requires category in data section".toList ∈ r.errorMessages ↔
          falsyAt doc.data "category".toList = true)) ∧
    (strOrFalsy (doc.header.get? kFrom) = true ∧ strOrFalsy (doc.header.get? kTo) = true ∧
      strOrFalsy (doc.footer.get? kSignature) = true →
      ∃ r, validateChainlexemes doc = .ok r) ∧
    validateChainlexemes
        (proposalDoc [("proposal_id".toList, .str "p1".toList),
          ("title".toList, .str "T".toList)]) =
      .ok { isValid := false,
            errors := [⟨"Governance proposal requires category in data section".toList, none⟩],
            warnings := [] } := by
  refine ⟨?_, (validate_returns_iff doc).mpr, by decide⟩
  intro r h
  obtain ⟨bf, bt, bs, -, -, -, rfl⟩ := validate_ok_reportOf h
  have key : ∀ f, f ∈ requiredProposalFields →
      (proposalFieldMsg f ∈ (reportOf doc bf bt bs).errorMessages ↔
        falsyAt doc.data f = true) := by
    intro f hf
    rw [proposalMsg_mem]
    exact ⟨fun h => h.2.2, fun h => ⟨hop, hf, h⟩⟩
  exact ⟨key "proposal_id".toList (by decide), key "title".toList (by decide),
    key "category".toList (by decide)⟩

theorem proposal_field_error_witness :
    ∃ r, validateChainlexemes (proposalDoc [("proposal_id".toList, .num (.ofNat 0)),
          ("title".toList, .str "T".toList), ("category".toList, .str "c".toList)]) = .ok r ∧
      "Governance proposal requires proposal_id in data section".toList ∈ r.errorMessages ∧
      "Governance proposal requires title in data section".toList ∉ r.errorMessages :=
  have h := proposal_field_error (proposalDoc [("proposal_id".toList, .num (.ofNat 0)),
    ("title".toList, .str "T".toList), ("category".toList, .str "c".toList)]) (by decide)
  (h.2.1 (by decide)).elim fun r hr =>
    ⟨r, hr, (h.1 r hr).1.mpr (by decide), fun e => absurd ((h.1 r hr).2.1.mp e) (by decide)⟩

/-- C11 (as stated) fails: in a governance proposal whose data holds
`proposal_id: 0`, `title` and `category`, the key `proposal_id` is present in
data and yet its error is reported, because the value `0` is falsy. -/
theorem proposal_field_error_counterexample :
    JSObject.has (proposalDoc [("proposal_id".toList, .num (.ofNat 0)),
        ("title".toList, .str "T".toList), ("category".toList, .str "c".toList)]).data
      "proposal_id".toList = true ∧
    validateChainlexemes (proposalDoc [("proposal_id".toList, .num (.ofNat 0)),
        ("title".toList, .str "T".toList), ("category".toList, .str "c".toList)]) =
      .ok { isValid := false,
            errors := [⟨"Governance proposal requires proposal_id in data section".toList, none⟩],
            warnings := [] } := by
  decide

theorem ofInt_ltNat (i : Int) (n : Nat) : (JSNumber.ofInt i).ltNat n = decide (i < (n : Int)) := by
  unfold JSNumber.ofInt JSNumber.ltNat JSNumber.isZero
  simp only [Option.isNone_none, Bool.and_true, beq_iff_eq]
  by_cases h0 : i.natAbs = 0
  · have : i = 0 := Int.natAbs_eq_zero.mp h0
    subst this
    simp
  · simp only [h0, if_false]
    by_cases hneg : i < 0
    · have : i < (n : Int) := by omega
      simp [hneg, this]
    · have : (i.natAbs < n) ↔ i < (n : Int) := by omega
      simp [hneg, this]

/-- C13: the valid transfer document extended with `footer.gas_limit` an
integer `g` (more generally, every document that meets the conditions of a
valid transfer and holds such a gas limit) is validated with no error and
`isValid = true`; its only warning is `Gas limit below minimum (21000)` when
`g < 21000`, and it has no warning when `g >= 21000`. -/
theorem gas_limit_warning (doc : ParsedAlnDoc) (f t a s : Str) (n ts : JSNumber) (g : Int)
    (hop : doc.header.get? kOpCode = some (.str "transfer".toList))
    (hfrom : doc.header.get? kFrom = some (.str f)) (hf : startsWith f "aln1".toList = true)
    (hto : doc.header.get? kTo = some (.str t)) (ht : startsWith t "aln1".toList = true)
    (hnonce : doc.header.get? kNonce = some (.num n))
    (hn : n.isInteger = true ∧ n.ltZero = false)
    (hamount : doc.data.get? kAmount = some (.str a)) (ha : a ≠ [])
    (hsig : doc.footer.get? kSignature = some (.str s))
    (hs : startsWith s "ed25519:".toList = true)
    (hts : doc.footer.get? kTimestamp = some (.num ts))
    (hpos : ts.isInteger = true ∧ ts.leZero = false)
    (hgas : doc.footer.get? kGasLimit = some (.num (.ofInt g))) :
    validateChainlexemes doc =
      .ok { isValid := true, errors := [],
            warnings := if g < 21000 then [⟨"Gas limit below minimum (21000)".toList, none⟩]
              else [] } := by
  have hf' : f ≠ [] := startsWith_ne_nil (by decide) hf
  have ht' : t ≠ [] := startsWith_ne_nil (by decide) ht
  have hs' : s ≠ [] := startsWith_ne_nil (by decide) hs
  have hh : doc.header ≠ [] := get?_some_ne_nil hop
  have hd : doc.data ≠ [] := get?_some_ne_nil hamount
  have hft : doc.footer ≠ [] := get?_some_ne_nil hsig
  have hop' : doc.header.get? kOpCode = some (.str opTransfer) := hop
  have hne : opTransfer ≠ opProposal := by decide
  have ha' : a.isEmpty = false := by cases a <;> simp_all
  have hlen : ∀ o : JSObject Value, o ≠ [] → ¬ (o.keys.length = 0) := by
    intro o ho; cases o <;> simp_all [JSObject.keys]
  rw [validate_eq]
  simp only [prefixTests, hfrom, hto, hsig, lacksPrefix_str _ _ _ hf', lacksPrefix_str _ _ _ ht',
    lacksPrefix_str _ _ _ hs', bind, Except.bind, pure, Except.pure, Except.map]
  have e1 : rule1 doc {} = {} := by
    simp [rule1, hlen _ hh, hlen _ hd, hlen _ hft]
  have e2 : rule2 doc {} = {} := by
    simp [rule2, requireFields, requiredHeaderFields, JSObject.has, hop', hfrom, hto, hnonce]
  have e3 : rule3 doc {} = {} := by
    simp [rule3, hop', truthy, includesOpCode, validOpCodes, opTransfer]
  have e5 : rule5 doc {} = {} := by
    simp [rule5, hnonce, hn.2]
  have e6 : rule6 doc {} = {} := by
    simp [rule6, requireFields, requiredFooterFields, JSObject.has, hsig, hts]
  have e8 : rule8 doc {} = {} := by
    simp [rule8, hts, hpos.2]
  have e9 : rule9 doc {} = if g < 21000 then ({} : ValidationReport).addWarning gasWarn else {} := by
    have : (21000 : Int) = ((21000 : Nat) : Int) := rfl
    simp only [rule9, hgas, toNumber, JSNumeric.ltNat, ofInt_ltNat, decide_eq_true_eq]
    rfl
  have e10 : rule10 doc {} = {} := by
    simp [rule10, hop', hne, falsyAt, hamount, truthy, ha']
  have b1 : startsWith f addrPrefix = true := hf
  have b2 : startsWith t addrPrefix = true := ht
  have b3 : startsWith s sigPrefix = true := hs
  simp only [reportOf, e1, e2, e3, e5, e6, e8, e9, e10, b1, b2, b3, flagError, flagWarning,
    Bool.not_true, Bool.false_eq_true, if_false, empty_append, append_empty]
  split_ifs <;> rfl

theorem gas_limit_warning_witness :
    validateChainlexemes (gasDoc 10000) =
      .ok { isValid := true, errors := [],
            warnings := [⟨"Gas limit below minimum (21000)".toList, none⟩] } :=
  gas_limit_warning (gasDoc 10000) "aln1abc".toList "aln1def".toList "5".toList
    "ed25519:00".toList (.ofNat 0) (.ofNat 1700000000) 10000
    (by decide) (by decide) (by decide) (by decide) (by decide) (by decide) (by decide)
    (by decide) (by decide) (by decide) (by decide) (by decide) (by decide) (by decide)

/-! ## The rules of the coercer -/

theorem parseValue_squoted (s : Str) : parseValue (squote :: (s ++ [squote])) = .str s := by
  rw [parseValue_eq, startsWith_singleton, endsWith_singleton, startsWith_singleton,
    endsWith_singleton, head?_wrap, getLast?_wrap]
  simp only [decide_True, Bool.and_self, Bool.or_true, if_true, slice1_wrap]

/-- C14: for every string `s`, the coercer reads `s` wrapped in two double
quotes, or in two single quotes, as the string `s`: the two wrapping
characters are removed and nothing else is interpreted, whatever `s` looks
like; so the quoted `a b` is the string `a b`, the quoted `5` is the string
`5` and not a number, and the quoted `[1]` and `true` are strings. -/
theorem parseValue_strips_quotes :
    (∀ s : Str, parseValue (dquote :: (s ++ [dquote])) = .str s) ∧
    (∀ s : Str, parseValue (squote :: (s ++ [squote])) = .str s) ∧
    parseValue (dquote :: ("a b".toList ++ [dquote])) = .str "a b".toList ∧
    parseValue (dquote :: ("5".toList ++ [dquote])) = .str "5".toList ∧
    parseValue (dquote :: ("5".toList ++ [dquote])) ≠ .num (.ofNat 5) ∧
    parseValue (squote :: ("[1]".toList ++ [squote])) = .str "[1]".toList ∧
    parseValue (squote :: ("true".toList ++ [squote])) = .str "true".toList :=
  ⟨parseValue_quoted, parseValue_squoted, by decide, by decide, by decide, by decide, by decide⟩

/-- The coercer reads an array literal whose pieces hold no comma and no white
space at either end as the array of the coerced pieces. -/
theorem parseValue_array (parts : List Str) (hne : parts ≠ [])
    (hc : ∀ p ∈ parts, ',' ∉ p ∧ trim p = p) :
    parseValue ('[' :: (joinWith ", ".toList parts ++ [']'])) = .arr (parts.map parseValue) := by
  have hh := head?_wrap '[' ']' (joinWith ", ".toList parts)
  rw [parseValue_eq, not_quoted_of_head hh (by decide) (by decide)]
  have ht : '[' :: (joinWith ", ".toList parts ++ [']']) ≠ "true".toList :=
    ne_of_head (d := 't') hh rfl (by decide)
  have hf : '[' :: (joinWith ", ".toList parts ++ [']']) ≠ "false".toList :=
    ne_of_head (d := 'f') hh rfl (by decide)
  simp only [Bool.false_eq_true, if_false, ht, hf,
    isDigits_of_head_not_digit hh (by decide), isDecimal_of_head_not_digit hh (by decide)]
  rw [startsWith_singleton, endsWith_singleton, hh, getLast?_wrap]
  simp only [decide_True, Bool.and_self, if_true, slice1_wrap]
  rw [map_trim_split_join _ hne (fun p hp => (hc p hp).1)]
  congr 1
  rw [List.map_congr_left (fun p hp => (hc p hp).2), List.map_id'']
  intro; rfl

/-- The coercer reads the decimal rendering of a natural up to `2^53` as that
integer. -/
theorem parseValue_natToStr (n : Nat) (_h : n ≤ 2 ^ 53) :
    parseValue (natToStr n) = .num (.ofNat n) := by
  unfold natToStr
  split_ifs with h0
  · subst h0; decide
  · have hne : natDigits n ≠ [] := fun e => h0 ((natDigits_eq_nil_iff n).mp e)
    rw [parseValue_digits _ hne, JSNumber.ofDigits, digitsValue_natDigits]
    rfl

theorem natToStr_clean (n : Nat) : ',' ∉ natToStr n ∧ trim (natToStr n) = natToStr n :=
  ⟨not_mem_of_all_numChar (all_numChar_natToStr n) (by decide),
    trim_of_all_numChar _ (all_numChar_natToStr n)⟩

theorem bitLengthAux_le (k : Nat) : ∀ fuel n, n < 2 ^ k → bitLengthAux fuel n ≤ k := by
  induction k with
  | zero =>
    intro fuel n h
    have h0 : n = 0 := by simpa using h
    subst h0
    cases fuel <;> simp [bitLengthAux]
  | succ k ih =>
    intro fuel n h
    cases fuel with
    | zero => simp [bitLengthAux]
    | succ fuel =>
      unfold bitLengthAux
      split_ifs
      · exact Nat.zero_le _
      · have : n / 2 < 2 ^ k := by
          rw [Nat.div_lt_iff_lt_mul (by decide)]
          rw [pow_succ] at h
          exact h
        exact Nat.succ_le_succ (ih fuel (n / 2) this)

/-- Every natural up to `2^53` is the value of a double. -/
theorem nearestDouble_of_le (n : Nat) (h : n ≤ 2 ^ 53) : nearestDouble n = n := by
  rcases Nat.lt_or_ge n (2 ^ 53) with hlt | hge
  · have hb : bitLength n - 53 = 0 := Nat.sub_eq_zero_of_le (bitLengthAux_le 53 n n hlt)
    unfold nearestDouble
    simp [hb, Nat.mod_one]
  · have : n = 2 ^ 53 := Nat.le_antisymm h hge
    subst this
    decide

/-- Arrays of naturals up to `2^53`: for every non-empty list of such naturals
the coercer reads the bracketed list of their decimal renderings, joined by a
comma and a space, as the array of those integers, in order; and it reads the
decimal rendering of every natural up to `2^53` as that integer.  Each of
these naturals is the value of a double, so the integer is the Number that
`parseInt` returns.  The texts `[1, 2, 3]` and `42` are instances. -/
theorem parseValue_nat_array :
    (∀ ns : List Nat, ns ≠ [] → (∀ n ∈ ns, n ≤ 2 ^ 53) →
      parseValue ('[' :: (joinWith ", ".toList (ns.map natToStr) ++ [']'])) =
          .arr (ns.map fun n => .num (.ofNat n)) ∧
        ns.map nearestDouble = ns) ∧
    (∀ n : Nat, n ≤ 2 ^ 53 →
      parseValue (natToStr n) = .num (.ofNat n) ∧ nearestDouble n = n) ∧
    parseValue "[1, 2, 3]".toList = .arr [.num (.ofNat 1), .num (.ofNat 2), .num (.ofNat 3)] ∧
    parseValue "42".toList = .num (.ofNat 42) := by
  refine ⟨?_, fun n hn => ⟨parseValue_natToStr n hn, nearestDouble_of_le n hn⟩, by decide,
    by decide⟩
  intro ns hne hle
  constructor
  · rw [parseValue_array _ (by simpa using hne)]
    · rw [List.map_map]
      congr 1
      apply List.map_congr_left
      intro n hn
      exact parseValue_natToStr n (hle n hn)
    · intro p hp
      obtain ⟨n, -, rfl⟩ := List.mem_map.mp hp
      exact natToStr_clean n
  · conv_rhs => rw [← List.map_id ns]
    apply List.map_congr_left
    intro n hn
    exact nearestDouble_of_le n (hle n hn)

theorem parseValue_nat_array_example :
    ([7, 0, 9007199254740992] ≠ ([] : List Nat) ∧
      ∀ n ∈ ([7, 0, 9007199254740992] : List Nat), n ≤ 2 ^ 53) ∧
      parseValue ('[' :: (joinWith ", ".toList
          (([7, 0, 9007199254740992] : List Nat).map natToStr) ++ [']'])) =
        .arr (([7, 0, 9007199254740992] : List Nat).map fun n => .num (.ofNat n)) :=
  ⟨⟨by decide, by decide⟩,
    (parseValue_nat_array.1 [7, 0, 9007199254740992] (by decide) (by decide)).1⟩

/-- Above `2^53` the Number that `parseInt` computes is not always the
integer written: the decimal rendering of `9007199254740993`, which is
`2^53 + 1`, is a string of digits, read by rule 3 of the coercer, and the
double nearest to that natural has the value `9007199254740992`.  The
embedding keeps the numeral as written and leaves this rounding out. -/
theorem nearestDouble_above_safe_range :
    natToStr 9007199254740993 = "9007199254740993".toList ∧
    isDigits "9007199254740993".toList = true ∧
    nearestDouble 9007199254740993 = 9007199254740992 ∧
    nearestDouble 9007199254740993 ≠ 9007199254740993 := by
  decide

theorem allSome_map_some {α β : Type} (g : α → β) (l : List α) (f : α → Option β)
    (h : ∀ a ∈ l, f a = some (g a)) : allSome (l.map f) = some (l.map g) := by
  induction l with
  | nil => rfl
  | cons a as ih =>
    rw [List.map_cons, h a (by simp), allSome, ih (fun b hb => h b (List.mem_cons_of_mem _ hb))]
    rfl

/-- With more fuel than the length of the text, the bounded coercer returns
the value of `parseValue`. -/
theorem parseValueFuel_eq (fuel : Nat) (s : Str) (h : s.length < fuel) :
    parseValueFuel fuel s = some (parseValue s) := by
  induction fuel generalizing s with
  | zero => omega
  | succ f ih =>
    rw [parseValue_eq]
    unfold parseValueFuel
    split_ifs with h1 h2 h3 h4 h5 h6
    · rfl
    · rfl
    · rfl
    · rfl
    · rfl
    · rw [allSome_map_some parseValue]
      · rfl
      · intro item hi
        have hl := item_length_lt h6 hi
        exact ih item (by omega)
    · rfl

/-- C16: the coercer is total: every recursive call, on a piece of a bracketed
array literal, is on a strictly shorter string, and run with any bound on the
depth of the recursion that exceeds the length of the text it returns one
value, the value of `parseValue`. -/
theorem parseValue_total :
    (∀ s item : Str, (startsWith s ['['] && endsWith s [']']) = true →
      item ∈ (splitOnChar ',' (slice1 s)).map trim → item.length < s.length) ∧
    (∀ (s : Str) (fuel : Nat), s.length < fuel → parseValueFuel fuel s = some (parseValue s)) :=
  ⟨fun _ _ hb hi => by have := item_length_lt hb hi; omega,
    fun s fuel h => parseValueFuel_eq fuel s h⟩

theorem parseValue_total_witness :
    "[[1, 2], [x]]".toList.length < 14 ∧
      parseValueFuel 14 "[[1, 2], [x]]".toList = some (parseValue "[[1, 2], [x]]".toList) ∧
      "[1".toList ∈ (splitOnChar ',' (slice1 "[[1, 2], [x]]".toList)).map trim ∧
      "[1".toList.length < "[[1, 2], [x]]".toList.length :=
  ⟨by decide, parseValue_total.2 "[[1, 2], [x]]".toList 14 (by decide), by decide,
    parseValue_total.1 "[[1, 2], [x]]".toList "[1".toList (by decide) (by decide)⟩

/-- C20: a raw string that matches none of the first five rules of the coercer
(its first and last characters are not the same quote character, it is neither
`true` nor `false`, neither all digits nor digits-dot-digits, and it is not
bracketed by `[` and `]`) is returned as the string itself, unchanged. -/
theorem parseValue_default (raw : Str)
    (hdq : ¬ (raw.head? = some dquote ∧ raw.getLast? = some dquote))
    (hsq : ¬ (raw.head? = some squote ∧ raw.getLast? = some squote))
    (htrue : raw ≠ "true".toList) (hfalse : raw ≠ "false".toList)
    (hint : isDigits raw = false) (hdec : isDecimal raw = false)
    (harr : ¬ (raw.head? = some '[' ∧ raw.getLast? = some ']')) :
    parseValue raw = .str raw := by
  have q1 : (startsWith raw [dquote] && endsWith raw [dquote]) = false := by
    rw [startsWith_singleton, endsWith_singleton]
    simpa using hdq
  have q2 : (startsWith raw [squote] && endsWith raw [squote]) = false := by
    rw [startsWith_singleton, endsWith_singleton]
    simpa using hsq
  have q3 : (startsWith raw ['['] && endsWith raw [']']) = false := by
    rw [startsWith_singleton, endsWith_singleton]
    simpa using harr
  rw [parseValue_eq, q1, q2, q3]
  simp only [Bool.or_self, Bool.false_eq_true, if_false, htrue, hfalse, hint, hdec]

theorem parseValue_default_witness :
    parseValue ("say ".toList ++ [dquote] ++ "hi".toList ++ [dquote]) =
      .str ("say ".toList ++ [dquote] ++ "hi".toList ++ [dquote]) :=
  parseValue_default _ (by decide) (by decide) (by decide) (by decide) (by decide) (by decide)
    (by decide)

/-! ## The loop of the parser, line by line -/

/-- One iteration of the loop, by the kind of the line. -/
theorem parseLine_eq (st : ParseState) (line : Str) :
    parseLine st line =
      if isSkippedLine line then st.skip
      else if isMarkerLine line then st.declare (markerName line)
      else
        match keyValueOf line, st.currentSection with
        | some kv, some sec => if sec ≠ [] then st.withEntry sec kv.1 kv.2 else st.skip
        | _, _ => st.skip := by
  obtain ⟨doc, cur, ln⟩ := st
  unfold parseLine keyValueOf isMarkerLine isSkippedLine
  simp only []
  by_cases h1 : ((trim line).isEmpty || startsWith (trim line) ['#']) = true
  · simp only [h1, if_true]
    rfl
  · have h1' : ((trim line).isEmpty || startsWith (trim line) ['#']) = false := by
      simpa using h1
    simp only [h1', Bool.false_eq_true, if_false, Bool.not_false, Bool.true_and, Bool.false_or]
    by_cases h2 : (startsWith (trim line) ['['] && endsWith (trim line) [']']) = true
    · simp only [h2, if_true]
      rfl
    · simp only [h2, if_false, Bool.false_eq_true]
      cases hi : indexOf ':' (trim line) with
      | none => cases cur <;> rfl
      | some i =>
        cases cur with
        | none =>
          simp only []
          by_cases hpos : 0 < i <;> simp [hpos, ParseState.skip]
        | some sec =>
          simp only []
          by_cases hpos : 0 < i
          · by_cases hsec : sec = []
            · subst hsec; simp [hpos, ParseState.skip]
            · have : sec.isEmpty = false := by cases sec <;> simp_all
              simp [hpos, hsec, this, ParseState.withEntry]
          · simp [hpos, ParseState.skip]

theorem indexOf_of_first (ch : Char) (s : Str) (i : Nat) (h1 : ch ∉ s.take i)
    (h2 : s[i]? = some ch) : indexOf ch s = some i := by
  obtain ⟨hi, hget⟩ := List.getElem?_eq_some.mp h2
  have hs : s = s.take i ++ ch :: s.drop (i + 1) := by
    conv => lhs; rw [← List.take_append_drop i s]
    rw [List.drop_eq_getElem_cons hi, hget]
  have hl : (s.take i).length = i := by
    rw [List.length_take]; omega
  have := indexOf_append_of_not_mem ch (s.take i) (s.drop (i + 1)) h1
  rw [← hs, hl] at this
  exact this

theorem indexOf_of_head (ch : Char) (s : Str) (h : s.head? = some ch) :
    indexOf ch s = some 0 := by
  cases s with
  | nil => simp at h
  | cons c cs =>
    have : c = ch := by simpa using h
    simp [indexOf, this]

theorem isSkippedLine_eq_false (line : Str) (hblank : trim line ≠ [])
    (hcomment : (trim line).head? ≠ some '#') : isSkippedLine line = false := by
  unfold isSkippedLine
  rw [startsWith_singleton, decide_eq_false hcomment]
  cases h : trim line with
  | nil => exact absurd h hblank
  | cons c cs => rfl

theorem isMarkerLine_eq_false (line : Str)
    (hmarker : ¬ ((trim line).head? = some '[' ∧ (trim line).getLast? = some ']')) :
    isMarkerLine line = false := by
  unfold isMarkerLine
  rw [startsWith_singleton, endsWith_singleton]
  have : (decide ((trim line).head? = some '[') && decide ((trim line).getLast? = some ']')) =
      false := by simpa using hmarker
  rw [this, Bool.and_false]

/-- C19 (amended): a line reached while a section with a non-empty name is
current, that is neither blank nor a comment nor a section marker, contributes
an entry when the first colon of its trimmed content is at a position greater
than zero: the key is the trimmed text before that colon and the raw value the
trimmed text after it; when the trimmed content has no colon, or begins with a
colon, the line contributes nothing. -/
theorem line_contribution (st : ParseState) (line sec : Str)
    (hsec : st.currentSection = some sec) (hne : sec ≠ [])
    (hblank : trim line ≠ []) (hcomment : (trim line).head? ≠ some '#')
    (hmarker : ¬ ((trim line).head? = some '[' ∧ (trim line).getLast? = some ']')) :
    (∀ i, 0 < i → ':' ∉ (trim line).take i → (trim line)[i]? = some ':' →
      parseLine st line =
        st.withEntry sec (trim ((trim line).take i)) (trim ((trim line).drop (i + 1)))) ∧
    ((':' ∉ trim line ∨ (trim line).head? = some ':') → parseLine st line = st.skip) := by
  have hs := isSkippedLine_eq_false line hblank hcomment
  have hm := isMarkerLine_eq_false line hmarker
  have hp := parseLine_eq st line
  simp only [hs, hm, Bool.false_eq_true, if_false, hsec] at hp
  constructor
  · intro i hpos h1 h2
    have hi := indexOf_of_first ':' (trim line) i h1 h2
    have hk : keyValueOf line =
        some (trim ((trim line).take i), trim ((trim line).drop (i + 1))) := by
      simp only [keyValueOf, hs, hm, Bool.or_self, Bool.false_eq_true, if_false, hi, hpos,
        if_true]
    rw [hp, hk]
    simp only [ne_eq, hne, not_false_eq_true, if_true]
  · intro h
    have hk : keyValueOf line = none := by
      rcases h with h | h
      · simp only [keyValueOf, hs, hm, Bool.or_self, Bool.false_eq_true, if_false,
          indexOf_eq_none_of_not_mem _ _ h]
      · simp only [keyValueOf, hs, hm, Bool.or_self, Bool.false_eq_true, if_false,
          indexOf_of_head _ _ h, Nat.lt_irrefl]
    rw [hp, hk]

theorem line_contribution_witness :
    parseLine (parseLine {} "[meta]".toList) " a:b : c ".toList =
      (parseLine {} "[meta]".toList).withEntry "meta".toList "a".toList "b : c".toList :=
  (line_contribution (parseLine {} "[meta]".toList) " a:b : c ".toList "meta".toList
    (by decide) (by decide) (by decide) (by decide) (by decide)).1 1 (by decide) (by decide)
    (by decide)

/-- C19 (as stated) fails: under the section `header` the line `:a:b` has a
colon at position 2, and the first colon at a position greater than zero would
give the key `:a` and the value `b`; the loop looks at the first colon, at
position 0, and the line contributes nothing. -/
theorem line_contribution_counterexample :
    (parseLine {} "[header]".toList).currentSection = some "header".toList ∧
    (trim ":a:b".toList)[2]? = some ':' ∧
    parseLine (parseLine {} "[header]".toList) ":a:b".toList =
      (parseLine {} "[header]".toList).skip ∧
    (parseAlnDocument "[header]\n:a:b".toList).header = [] ∧
    (parseAlnDocument "[header]\n:a:b".toList).rawSections.get? "header".toList = some [] := by
  decide

/-! ## Lookup after an assignment -/

namespace JSObject

variable {α : Type}

theorem get?_cons (e : Str × α) (rest : JSObject α) (k : Str) :
    get? (e :: rest) k = if e.1 = k then some e.2 else get? rest k := by
  obtain ⟨a, b⟩ := e
  rfl

theorem get?_replace (o : JSObject α) (k : Str) (v : α) (k' : Str) :
    (o.replace k v).get? k' = if k' = k then (o.get? k).map (fun _ => v) else o.get? k' := by
  induction o with
  | nil => simp [replace, get?]
  | cons e es ih =>
    obtain ⟨a, b⟩ := e
    have ih' : get? (List.map (fun e => if e.1 = k then (k, v) else e) es) k' =
        if k' = k then (get? es k).map (fun _ => v) else get? es k' := ih
    simp only [replace, List.map_cons, get?_cons, ih']
    by_cases hak : a = k
    · subst hak
      by_cases hk : k' = a
      · subst hk; simp
      · have hk' : ¬ a = k' := fun e => hk e.symm
        simp [hk, hk']
    · by_cases hk : k' = k
      · subst hk; simp [hak]
      · simp [hak, hk]

theorem get?_insertIndex (k : Str) (i : Nat) (v : α) (o : JSObject α) (k' : Str)
    (h : o.get? k = none) :
    (insertIndex k i v o).get? k' = if k' = k then some v else o.get? k' := by
  induction o with
  | nil =>
    by_cases hk : k' = k
    · subst hk; simp [insertIndex, get?]
    · have : ¬ k = k' := fun e => hk e.symm
      simp [insertIndex, get?, hk, this]
  | cons e es ih =>
    obtain ⟨a, b⟩ := e
    have hak : ¬ a = k := by
      intro e; simp [get?, e] at h
    have hes : get? es k = none := by
      simpa [get?, hak] using h
    have step : ∀ rest : JSObject α, get? ((k, v) :: rest) k' =
        if k' = k then some v else get? rest k' := by
      intro rest
      by_cases hk : k' = k
      · subst hk; simp [get?]
      · have : ¬ k = k' := fun e => hk e.symm
        simp [get?, hk, this]
    unfold insertIndex
    cases indexValue a with
    | none => exact step _
    | some j =>
      simp only
      split_ifs with hj hk
      · subst hk
        simp only [get?, hak, if_false]
        rw [ih hes]; simp
      · simp only [get?]
        rw [ih hes]; simp [hk]
      · rw [step]; simp [*]
      · rw [step]; simp [*]

theorem get?_append_single (o : JSObject α) (k : Str) (v : α) (k' : Str)
    (h : o.get? k = none) :
    (o ++ [(k, v)]).get? k' = if k' = k then some v else o.get? k' := by
  induction o with
  | nil =>
    by_cases hk : k' = k
    · subst hk; simp [get?]
    · have : ¬ k = k' := fun e => hk e.symm
      simp [get?, hk, this]
  | cons e es ih =>
    obtain ⟨a, b⟩ := e
    have hak : ¬ a = k := by
      intro e; simp [get?, e] at h
    have hes : get? es k = none := by
      simpa [get?, hak] using h
    rw [List.cons_append, get?_cons, get?_cons, ih hes]
    by_cases hk : k' = k
    · subst hk; simp [hak]
    · simp [hk]

/-- The lookup of a key after the assignment `o[k] = v`. -/
theorem get?_set (o : JSObject α) (k : Str) (v : α) (k' : Str) (hk : k ≠ protoKey) :
    (o.set k v).get? k' = if k' = k then some v else o.get? k' := by
  unfold set
  rw [if_neg hk]
  by_cases hh : o.has k = true
  · rw [if_pos hh, get?_replace]
    have : ∃ x, o.get? k = some x := Option.isSome_iff_exists.mp hh
    obtain ⟨x, hx⟩ := this
    simp [hx]
  · have hnone : o.get? k = none := by
      simpa [has] using hh
    rw [if_neg hh]
    cases indexValue k with
    | none => exact get?_append_single o k v k' hnone
    | some i => exact get?_insertIndex k i v o k' hnone

theorem get?_map_update (o : JSObject α) (n : Str) (f : α → α) (k' : Str) :
    get? (o.map fun p => if p.1 = n then (p.1, f p.2) else p) k' =
      if k' = n then (o.get? n).map f else o.get? k' := by
  induction o with
  | nil => simp [get?]
  | cons e es ih =>
    obtain ⟨a, b⟩ := e
    simp only [List.map_cons, get?_cons, ih]
    by_cases han : a = n
    · subst han
      by_cases hk : k' = a
      · subst hk; simp
      · have : ¬ a = k' := fun e => hk e.symm
        simp [hk, this]
    · by_cases hk : k' = n
      · subst hk; simp [han]
      · simp [han, hk]

end JSObject

namespace RawSections

/-- The lookup of a section after the assignment `rawSections[n] = []`. -/
theorem get?_declare (r : RawSections) (n m : Str) :
    (r.declare n).get? m = if m = n then some [] else r.get? m := by
  unfold declare get?
  by_cases hn : n = protoKey
  · subst hn
    by_cases hm : m = protoKey <;> simp [hm]
  · by_cases hm : m = protoKey
    · subst hm
      have : ¬ protoKey = n := fun e => hn e.symm
      simp [hn, this]
    · simp only [hn, if_false, hm]
      exact JSObject.get?_set _ _ _ _ hn

/-- The lookup of a section after the call `rawSections[n].push(e)`. -/
theorem get?_push (r : RawSections) (n : Str) (e : RawEntry) (m : Str) :
    (r.push n e).get? m = if m = n then (r.get? n).map (· ++ [e]) else r.get? m := by
  unfold push get?
  by_cases hn : n = protoKey
  · subst hn
    by_cases hm : m = protoKey <;> simp [hm]
  · by_cases hm : m = protoKey
    · subst hm
      have : ¬ protoKey = n := fun e => hn e.symm
      simp [hn, this]
    · simp only [hn, if_false, hm]
      exact JSObject.get?_map_update r.own n (· ++ [e]) m

end RawSections

/-! ## The raw entries of a parsed text -/

theorem storeEntry_rawSections (doc : ParsedAlnDoc) (sec key value : Str) :
    (storeEntry doc sec key value).rawSections = doc.rawSections := by
  unfold storeEntry
  split_ifs <;> rfl

theorem good_init : ParseState.Good {} := by
  constructor
  · intro sec h; simp at h
  · intro name es h
    have : RawSections.get? {} name = none := by
      unfold RawSections.get?
      split_ifs <;> rfl
    rw [show ({} : ParseState).doc.rawSections = {} from rfl, this] at h
    simp at h

theorem good_skip {st : ParseState} (h : st.Good) : st.skip.Good := by
  constructor
  · exact h.declared
  · intro name es hes
    obtain ⟨h1, h2⟩ := h.ordered name es hes
    exact ⟨h1, fun e he => Nat.le_succ_of_le (h2 e he)⟩

theorem good_declare {st : ParseState} (h : st.Good) (sec : Str) : (st.declare sec).Good := by
  constructor
  · intro s hs _
    have : s = sec := by
      simp only [ParseState.declare, Option.some.injEq] at hs
      exact hs.symm
    subst this
    simp [ParseState.declare, RawSections.get?_declare]
  · intro name es hes
    simp only [ParseState.declare, RawSections.get?_declare] at hes
    split_ifs at hes with hn
    · have : es = [] := by simpa using hes.symm
      subst this
      simp
    · obtain ⟨h1, h2⟩ := h.ordered name es hes
      exact ⟨h1, fun e he => Nat.le_succ_of_le (h2 e he)⟩

theorem good_withEntry {st : ParseState} (h : st.Good) (sec key value : Str)
    (hs : st.currentSection = some sec) (hne : sec ≠ []) :
    (st.withEntry sec key value).Good := by
  have hd := h.declared sec hs hne
  obtain ⟨old, hold⟩ := Option.isSome_iff_exists.mp hd
  constructor
  · intro s hs' _
    have : s = sec := by
      simp only [ParseState.withEntry, Option.some.injEq] at hs'
      exact hs'.symm
    subst this
    simp [ParseState.withEntry, storeEntry_rawSections, RawSections.get?_push, hold]
  · intro name es hes
    simp only [ParseState.withEntry, storeEntry_rawSections, RawSections.get?_push] at hes
    split_ifs at hes with hn
    · rw [hold] at hes
      have : es = old ++ [⟨key, value, st.lineNumber + 1⟩] := by simpa using hes.symm
      subst this
      obtain ⟨h1, h2⟩ := h.ordered sec old hold
      constructor
      · rw [List.pairwise_append]
        refine ⟨h1, by simp, ?_⟩
        intro a ha b hb
        have : b = ⟨key, value, st.lineNumber + 1⟩ := by simpa using hb
        subst this
        exact Nat.lt_succ_of_le (h2 a ha)
      · intro e he
        rcases List.mem_append.mp he with he | he
        · exact Nat.le_succ_of_le (h2 e he)
        · have : e = ⟨key, value, st.lineNumber + 1⟩ := by simpa using he
          subst this
          exact Nat.le_refl _
    · obtain ⟨h1, h2⟩ := h.ordered name es hes
      exact ⟨h1, fun e he => Nat.le_succ_of_le (h2 e he)⟩

theorem good_parseLine {st : ParseState} (h : st.Good) (line : Str) :
    (parseLine st line).Good := by
  rw [parseLine_eq]
  split_ifs
  · exact good_skip h
  · exact good_declare h _
  · cases hk : keyValueOf line with
    | none => exact good_skip h
    | some kv =>
      cases hs : st.currentSection with
      | none => exact good_skip h
      | some sec =>
        simp only
        split_ifs with hne
        · exact good_withEntry h sec kv.1 kv.2 hs hne
        · exact good_skip h

theorem good_foldl (lines : List Str) {st : ParseState} (h : st.Good) :
    (lines.foldl parseLine st).Good := by
  induction lines generalizing st with
  | nil => exact h
  | cons l ls ih => exact ih (good_parseLine h l)

theorem lineNumber_parseLine (st : ParseState) (line : Str) :
    (parseLine st line).lineNumber = st.lineNumber + 1 := by
  rw [parseLine_eq]
  split_ifs
  · rfl
  · rfl
  · cases keyValueOf line with
    | none => rfl
    | some kv =>
      cases st.currentSection with
      | none => rfl
      | some sec =>
        simp only
        split_ifs <;> rfl

theorem lineNumber_foldl (lines : List Str) (st : ParseState) :
    (lines.foldl parseLine st).lineNumber = st.lineNumber + lines.length := by
  induction lines generalizing st with
  | nil => rfl
  | cons l ls ih =>
    rw [List.foldl_cons, ih, lineNumber_parseLine, List.length_cons]
    omega

/-- A recorded entry stays recorded over a line that does not declare its
section again. -/
theorem recorded_parseLine (st : ParseState) (line sec : Str) (e : RawEntry)
    (h : ∃ es, st.doc.rawSections.get? sec = some es ∧ e ∈ es)
    (hm : isMarkerLine line = true → markerName line ≠ sec) :
    ∃ es, (parseLine st line).doc.rawSections.get? sec = some es ∧ e ∈ es := by
  obtain ⟨es, hes, he⟩ := h
  have hpush : ∀ s k v, ∃ es', (st.withEntry s k v).doc.rawSections.get? sec = some es' ∧
      e ∈ es' := by
    intro s k v
    simp only [ParseState.withEntry, storeEntry_rawSections, RawSections.get?_push]
    split_ifs with hs
    · subst hs
      rw [hes]
      exact ⟨_, rfl, List.mem_append_left _ he⟩
    · exact ⟨es, hes, he⟩
  rw [parseLine_eq]
  split_ifs with h1 h2
  · exact ⟨es, hes, he⟩
  · refine ⟨es, ?_, he⟩
    simp only [ParseState.declare, RawSections.get?_declare]
    rw [if_neg (fun e' => hm h2 e'.symm)]
    exact hes
  · cases hk : keyValueOf line with
    | none => exact ⟨es, hes, he⟩
    | some kv =>
      cases hs : st.currentSection with
      | none => exact ⟨es, hes, he⟩
      | some s =>
        simp only
        split_ifs
        · exact hpush s kv.1 kv.2
        · exact ⟨es, hes, he⟩

theorem recorded_foldl (lines : List Str) (st : ParseState) (sec : Str) (e : RawEntry)
    (h : ∃ es, st.doc.rawSections.get? sec = some es ∧ e ∈ es)
    (hm : ∀ m ∈ lines, isMarkerLine m = true → markerName m ≠ sec) :
    ∃ es, (lines.foldl parseLine st).doc.rawSections.get? sec = some es ∧ e ∈ es := by
  induction lines generalizing st with
  | nil => exact h
  | cons l ls ih =>
    rw [List.foldl_cons]
    exact ih _ (recorded_parseLine st l sec e h (hm l (by simp)))
      (fun m hmem => hm m (List.mem_cons_of_mem _ hmem))

/-- C17 (amended): for every text whose section markers are ASCII, a
key-value line reached while a section with a non-empty name is current is
recorded in the raw entries of the parsed document under that section name,
with its key, its raw value and its 1-based line number, provided no later
line declares that section name again (a declaration starts the list of its
name afresh); and the entries of every section are in text order, their line
numbers increasing. -/
theorem raw_entries_recorded (text : Str) (_hascii : asciiMarkers text = true) :
    (∀ (pre post : List Str) (line sec key value : Str),
      splitOnChar '\n' text = pre ++ line :: post →
      (pre.foldl parseLine {}).currentSection = some sec → sec ≠ [] →
      keyValueOf line = some (key, value) →
      (∀ m ∈ post, isMarkerLine m = true → markerName m ≠ sec) →
      ∃ es, (parseAlnDocument text).rawSections.get? sec = some es ∧
        ⟨key, value, pre.length + 1⟩ ∈ es) ∧
    (∀ name es, (parseAlnDocument text).rawSections.get? name = some es →
      es.Pairwise (fun a b => a.line < b.line)) := by
  by_cases ht : text = []
  · subst ht
    constructor
    · intro pre post line sec key value hsplit hcur
      have h1 : splitOnChar '\n' [] = [[]] := rfl
      rw [h1] at hsplit
      cases pre with
      | nil => simp at hcur
      | cons p ps =>
        have := congrArg List.length hsplit
        simp at this
    · intro name es hes
      have : RawSections.get? {} name = none := by
        unfold RawSections.get?
        split_ifs <;> rfl
      rw [show (parseAlnDocument []).rawSections = {} from rfl, this] at hes
      simp at hes
  · have hne : text.isEmpty = false := by cases text <;> simp_all
    have hparse : parseAlnDocument text = ((splitOnChar '\n' text).foldl parseLine {}).doc := by
      simp [parseAlnDocument, hne]
    constructor
    · intro pre post line sec key value hsplit hcur hsec hkv hpost
      rw [hparse, hsplit, List.foldl_append, List.foldl_cons]
      have hgood : (pre.foldl parseLine {}).Good := good_foldl pre good_init
      have hln : (pre.foldl parseLine {}).lineNumber = pre.length := by
        rw [lineNumber_foldl]; simp
      have hskip : isSkippedLine line = false := by
        by_contra hc
        simp [keyValueOf, hc] at hkv
      have hmark : isMarkerLine line = false := by
        by_contra hc
        simp [keyValueOf, hc] at hkv
      have hline : parseLine (pre.foldl parseLine {}) line =
          (pre.foldl parseLine {}).withEntry sec key value := by
        rw [parseLine_eq, hskip, hmark, hkv, hcur]
        simp [hsec]
      obtain ⟨old, hold⟩ := Option.isSome_iff_exists.mp (hgood.declared sec hcur hsec)
      apply recorded_foldl post _ sec _ _ hpost
      rw [hline]
      refine ⟨old ++ [⟨key, value, pre.length + 1⟩], ?_, by simp⟩
      simp [ParseState.withEntry, storeEntry_rawSections, RawSections.get?_push, hold, hln]
    · intro name es hes
      rw [hparse] at hes
      exact ((good_foldl _ good_init).ordered name es hes).1

theorem raw_entries_recorded_witness :
    asciiMarkers "[meta]\n# note\nk: v w\n[data]\nx: 1".toList = true ∧
    ∃ es, (parseAlnDocument "[meta]\n# note\nk: v w\n[data]\nx: 1".toList).rawSections.get?
        "meta".toList = some es ∧ ⟨"k".toList, "v w".toList, 3⟩ ∈ es :=
  ⟨by decide,
   (raw_entries_recorded "[meta]\n# note\nk: v w\n[data]\nx: 1".toList (by decide)).1
    ["[meta]".toList, "# note".toList] ["[data]".toList, "x: 1".toList] "k: v w".toList
    "meta".toList "k".toList "v w".toList (by decide) (by decide) (by decide) (by decide)
    (by decide)⟩

/-- C17 (as stated) fails: in the text `[a]`, `x: 1`, `[a]`, `y: 2` the line
`x: 1` is read while the section `a` is current, but the second declaration of
`a` starts its list afresh, so the raw entries of `a` hold only the entry of
line 4. -/
theorem raw_entries_recorded_counterexample :
    asciiMarkers "[a]\nx: 1\n[a]\ny: 2".toList = true ∧
    (["[a]".toList].foldl parseLine {}).currentSection = some "a".toList ∧
    keyValueOf "x: 1".toList = some ("x".toList, "1".toList) ∧
    (parseAlnDocument "[a]\nx: 1\n[a]\ny: 2".toList).rawSections.get? "a".toList =
      some [⟨"y".toList, "2".toList, 4⟩] := by
  decide

/-! ## The order of the serialized keys -/

theorem storeEntry_mapping (doc : ParsedAlnDoc) (sec key value name : Str)
    (hn : name ∈ recognizedSections) :
    (storeEntry doc sec key value).mapping name =
      if sec = name then (doc.mapping name).set key (parseValue value) else doc.mapping name := by
  have d1 : "header".toList ≠ "data".toList := by decide
  have d2 : "header".toList ≠ "footer".toList := by decide
  have d3 : "data".toList ≠ "footer".toList := by decide
  simp only [recognizedSections, List.mem_cons, List.mem_singleton, List.not_mem_nil,
    or_false] at hn
  rcases hn with rfl | rfl | rfl <;> unfold storeEntry ParsedAlnDoc.mapping <;>
    split_ifs <;> first | rfl | (exfalso; simp_all)

theorem sectionEntries_cons (name : Str) (cur : Option Str) (line : Str) (rest : List Str) :
    sectionEntries name cur (line :: rest) =
      if isSkippedLine line then sectionEntries name cur rest
      else if isMarkerLine line then sectionEntries name (some (markerName line)) rest
      else
        match keyValueOf line, cur with
        | some kv, some sec =>
          if sec ≠ [] ∧ sec = name then kv :: sectionEntries name cur rest
          else sectionEntries name cur rest
        | _, _ => sectionEntries name cur rest := by
  cases cur <;> cases h : keyValueOf line <;> simp [sectionEntries, h]

/-- The mapping of a recognized section after the loop: the entries read under
that section, with their values coerced, assigned in text order. -/
theorem mapping_foldl (name : Str) (hn : name ∈ recognizedSections) (lines : List Str)
    (st : ParseState) :
    (lines.foldl parseLine st).doc.mapping name =
      ((sectionEntries name st.currentSection lines).map
        fun kv => (kv.1, parseValue kv.2)).foldl (fun o e => o.set e.1 e.2)
        (st.doc.mapping name) := by
  induction lines generalizing st with
  | nil => rfl
  | cons line rest ih =>
    rw [List.foldl_cons, ih, parseLine_eq, sectionEntries_cons]
    by_cases h1 : isSkippedLine line = true
    · rw [if_pos h1, if_pos h1]; rfl
    · rw [if_neg h1, if_neg h1]
      by_cases h2 : isMarkerLine line = true
      · rw [if_pos h2, if_pos h2]; rfl
      · rw [if_neg h2, if_neg h2]
        cases hk : keyValueOf line with
        | none => rfl
        | some kv =>
          cases hs : st.currentSection with
          | none => simp only []; rw [← hs]; rfl
          | some sec =>
            simp only []
            by_cases hne : sec = []
            · have hc : ¬ (sec ≠ [] ∧ sec = name) := fun h => h.1 hne
              rw [if_neg (not_not.mpr hne), if_neg hc, ← hs]; rfl
            · rw [if_pos hne]
              have hm := storeEntry_mapping st.doc sec kv.1 kv.2 name hn
              have hcur : (st.withEntry sec kv.1 kv.2).currentSection = some sec := rfl
              have hdoc : (st.withEntry sec kv.1 kv.2).doc.mapping name =
                  (storeEntry st.doc sec kv.1 kv.2).mapping name := rfl
              rw [hcur, hdoc, hm]
              by_cases hsn : sec = name
              · rw [if_pos hsn, if_pos ⟨hne, hsn⟩]; rfl
              · rw [if_neg hsn, if_neg (fun h => hsn h.2)]

namespace JSObject

variable {α : Type}

theorem has_iff_mem_keys (o : JSObject α) (k : Str) : o.has k = true ↔ k ∈ o.keys := by
  induction o with
  | nil => simp [has, get?, keys]
  | cons e es ih =>
    have hc : has (e :: es) k = if e.1 = k then true else has es k := by
      unfold has
      rw [JSObject.get?_cons]
      split_ifs <;> rfl
    rw [hc]
    by_cases h : e.1 = k
    · rw [if_pos h]
      refine ⟨fun _ => ?_, fun _ => rfl⟩
      unfold keys
      rw [List.map_cons, List.mem_cons]
      exact Or.inl h.symm
    · simp only [h, if_false]
      refine ih.trans ?_
      simp only [keys, List.map_cons, List.mem_cons]
      constructor
      · exact Or.inr
      · rintro (h' | h')
        · exact absurd h'.symm h
        · exact h'

theorem keys_replace (o : JSObject α) (k : Str) (v : α) : (o.replace k v).keys = o.keys := by
  induction o with
  | nil => rfl
  | cons e es ih =>
    unfold keys replace at ih ⊢
    rw [List.map_cons, List.map_cons, List.map_cons, ih]
    by_cases h : e.1 = k <;> simp [h]

/-- Assigning a key that is neither an array index nor `__proto__` keeps the
keys when the key is there and adds it at the end otherwise. -/
theorem keys_set (o : JSObject α) (k : Str) (v : α) (hi : indexValue k = none)
    (hp : k ≠ protoKey) : (o.set k v).keys = addKey o.keys k := by
  unfold set addKey
  rw [if_neg hp, hi]
  by_cases h : o.has k = true
  · rw [if_pos h, if_pos ((has_iff_mem_keys o k).mp h)]
    exact keys_replace o k v
  · rw [if_neg h, if_neg (fun hm => h ((has_iff_mem_keys o k).mpr hm))]
    simp [keys]

theorem keys_foldl_set (es : List (Str × α)) (o : JSObject α)
    (h : ∀ e ∈ es, indexValue e.1 = none ∧ e.1 ≠ protoKey) :
    (es.foldl (fun o e => o.set e.1 e.2) o).keys = (es.map (·.1)).foldl addKey o.keys := by
  induction es generalizing o with
  | nil => rfl
  | cons e es ih =>
    have he := h e (List.mem_cons_self _ _)
    rw [List.foldl_cons, List.map_cons, List.foldl_cons, ih _ (fun x hx =>
      h x (List.mem_cons_of_mem _ hx)), keys_set o e.1 e.2 he.1 he.2]

end JSObject

theorem sectionEntries_blank (name : Str) : sectionEntries name none [[]] = [] := by
  have h : isSkippedLine [] = true := by decide
  rw [sectionEntries_cons, if_pos h]
  rfl

theorem mapping_parse (text name : Str) (hn : name ∈ recognizedSections) :
    (parseAlnDocument text).mapping name =
      JSObject.fromEntries ((sectionEntries name none (splitOnChar '\n' text)).map
        fun kv => (kv.1, parseValue kv.2)) := by
  have hempty : ({} : ParsedAlnDoc).mapping name = [] := by
    unfold ParsedAlnDoc.mapping
    split_ifs <;> rfl
  unfold parseAlnDocument
  cases text with
  | nil =>
    have hs : splitOnChar '\n' ([] : Str) = [[]] := rfl
    rw [hs, sectionEntries_blank]
    simp only [List.isEmpty_nil, if_true, List.map_nil]
    unfold ParsedAlnDoc.mapping
    split_ifs <;> rfl
  | cons c cs =>
    simp only [List.isEmpty_cons, Bool.false_eq_true, if_false]
    rw [mapping_foldl name hn]
    show List.foldl _ (({} : ParsedAlnDoc).mapping name) _ = _
    rw [hempty]
    rfl

/-- C18 (amended): the serialized text of every document is the three markers,
each followed by one line `key: text` per entry of its mapping in the order of
`Object.entries`; the empty document gives the three markers alone; and for a
parsed text each mapping is the result of assigning, in text order, the
entries read under its section, so that its keys stand in the order of their
first appearance whenever none of them is an array index or `__proto__`. -/
theorem serialize_layout :
    (∀ doc : ParsedAlnDoc, serializeAlnDocument doc =
      "[header]\n".toList ++
        (doc.header.map fun e => e.1 ++ ": ".toList ++ formatValue e.2 ++ "\n".toList).flatten ++
      "\n[data]\n".toList ++
        (doc.data.map fun e => e.1 ++ ": ".toList ++ formatValue e.2 ++ "\n".toList).flatten ++
      "\n[footer]\n".toList ++
        (doc.footer.map fun e => e.1 ++ ": ".toList ++ formatValue e.2 ++ "\n".toList).flatten) ∧
    serializeAlnDocument {} = "[header]\n\n[data]\n\n[footer]\n".toList ∧
    (∀ text name : Str, name ∈ recognizedSections →
      (parseAlnDocument text).mapping name =
        JSObject.fromEntries ((sectionEntries name none (splitOnChar '\n' text)).map
          fun kv => (kv.1, parseValue kv.2)) ∧
      ((∀ kv ∈ sectionEntries name none (splitOnChar '\n' text),
          indexValue kv.1 = none ∧ kv.1 ≠ protoKey) →
        ((parseAlnDocument text).mapping name).keys =
          firstOccurrences ((sectionEntries name none (splitOnChar '\n' text)).map (·.1)))) := by
  refine ⟨fun doc => ?_, by decide, fun text name hn => ⟨mapping_parse text name hn, fun h => ?_⟩⟩
  · rw [serialize_eq]
    simp [body, entryLine, List.append_assoc]
  · rw [mapping_parse text name hn]
    unfold JSObject.fromEntries firstOccurrences
    rw [JSObject.keys_foldl_set]
    · simp only [List.map_map]
      rfl
    · intro e he
      simp only [List.mem_map] at he
      obtain ⟨kv, hkv, rfl⟩ := he
      exact h kv hkv

/-- The text of the witness of the order of the keys. -/
theorem serialize_layout_witness :
    (∀ kv ∈ sectionEntries "data".toList none
        (splitOnChar '\n' "[data]\nb: 1\na: 2\n[header]\nc: 0\n[data]\nb: 3".toList),
      indexValue kv.1 = none ∧ kv.1 ≠ protoKey) ∧
    ((parseAlnDocument "[data]\nb: 1\na: 2\n[header]\nc: 0\n[data]\nb: 3".toList).mapping
      "data".toList).keys =
      firstOccurrences ((sectionEntries "data".toList none
        (splitOnChar '\n' "[data]\nb: 1\na: 2\n[header]\nc: 0\n[data]\nb: 3".toList)).map (·.1)) ∧
    firstOccurrences ((sectionEntries "data".toList none
        (splitOnChar '\n' "[data]\nb: 1\na: 2\n[header]\nc: 0\n[data]\nb: 3".toList)).map (·.1)) =
      ["b".toList, "a".toList] :=
  ⟨by decide,
   (serialize_layout.2.2 "[data]\nb: 1\na: 2\n[header]\nc: 0\n[data]\nb: 3".toList "data".toList
      (by decide)).2 (by decide),
   by decide⟩

/-- C18 (as stated) fails: in the text `[header]`, `2: a`, `1: b` the key `2`
appears first, and the serialized text of the parsed document has the line of
the key `1` first, since array-index keys are enumerated in ascending order. -/
theorem serialize_layout_counterexample :
    (sectionEntries "header".toList none (splitOnChar '\n' "[header]\n2: a\n1: b".toList)).map
        (·.1) = ["2".toList, "1".toList] ∧
    (parseAlnDocument "[header]\n2: a\n1: b".toList).header.keys = ["1".toList, "2".toList] ∧
    serializeAlnDocument (parseAlnDocument "[header]\n2: a\n1: b".toList) =
      "[header]\n1: b\n2: a\n\n[data]\n\n[footer]\n".toList := by
  decide

/-! ## The report of the empty document -/

/-- C21: for every document whose header, data and footer are all empty (the
fail-fast document among them) the validator returns an invalid report with
exactly nine errors and no warning, in this order: the three missing
sections, the four missing header fields `op_code`, `from`, `to`, `nonce` and
the two missing footer fields `signature`, `timestamp`; and the errors of
every report that the validator returns are the errors of the rules, each
computed from the document alone, one rule after the other. -/
theorem empty_document_report :
    (∀ doc : ParsedAlnDoc, doc.header = [] → doc.data = [] → doc.footer = [] →
      validateChainlexemes doc =
        .ok { isValid := false,
              errors := [⟨"Missing required [header] section".toList, none⟩,
                ⟨"Missing required [data] section".toList, none⟩,
                ⟨"Missing required [footer] section".toList, none⟩,
                ⟨"Missing required header field: op_code".toList, none⟩,
                ⟨"Missing required header field: from".toList, none⟩,
                ⟨"Missing required header field: to".toList, none⟩,
                ⟨"Missing required header field: nonce".toList, none⟩,
                ⟨"Missing required footer field: signature".toList, none⟩,
                ⟨"Missing required footer field: timestamp".toList, none⟩],
              warnings := [] }) ∧
    (∀ (doc : ParsedAlnDoc) (r : ValidationReport), validateChainlexemes doc = .ok r →
      ∃ bf bt : Bool,
        r.errorMessages =
          (rule1 doc {}).errorMessages ++ ((rule2 doc {}).errorMessages ++
          ((rule3 doc {}).errorMessages ++ ((if bf then [fromErr] else []) ++
          ((if bt then [toErr] else []) ++ ((rule5 doc {}).errorMessages ++
          ((rule6 doc {}).errorMessages ++ ((rule8 doc {}).errorMessages ++
          (rule10 doc {}).errorMessages)))))))) := by
  constructor
  · intro doc hh hd hf
    obtain ⟨header, data, footer, raw, valid, errs⟩ := doc
    simp only at hh hd hf
    subst hh hd hf
    rfl
  · intro doc r h
    obtain ⟨bf, bt, bs, -, -, -, rfl⟩ := validate_ok_reportOf h
    exact ⟨bf, bt, reportOf_messages doc bf bt bs⟩

theorem empty_document_report_witness :
    ((parseAlnDocument []).header = [] ∧ (parseAlnDocument []).data = [] ∧
      (parseAlnDocument []).footer = []) ∧
    (∃ r, validateChainlexemes (parseAlnDocument []) = .ok r ∧ r.errors.length = 9 ∧
      r.warnings = [] ∧ r.isValid = false) :=
  ⟨⟨rfl, rfl, rfl⟩, _, empty_document_report.1 (parseAlnDocument []) rfl rfl rfl, rfl, rfl, rfl⟩

/-! ## Quoted strings at the value level -/

/-- C23: for every string that holds a space or a colon, the serializer writes
the string between two double quotes and the coercer reads that text back as
the string itself, whatever else the string holds (double quotes, commas,
brackets). -/
theorem quoted_string_read_back (s : Str)
    (h : (s.contains ' ' || s.contains ':') = true) :
    formatValue (.str s) = dquote :: (s ++ [dquote]) ∧
    parseValue (formatValue (.str s)) = .str s := by
  rw [formatValue_str_quoted s h]
  exact ⟨rfl, parseValue_quoted s⟩

theorem quoted_string_read_back_witness :
    (("a ".toList ++ [dquote] ++ "b, [c]:".toList ++ [dquote, ']', ',']).contains ' ' ||
      ("a ".toList ++ [dquote] ++ "b, [c]:".toList ++ [dquote, ']', ',']).contains ':') = true ∧
    parseValue (formatValue
        (.str ("a ".toList ++ [dquote] ++ "b, [c]:".toList ++ [dquote, ']', ',']))) =
      .str ("a ".toList ++ [dquote] ++ "b, [c]:".toList ++ [dquote, ']', ',']) :=
  ⟨by decide,
    (quoted_string_read_back ("a ".toList ++ [dquote] ++ "b, [c]:".toList ++ [dquote, ']', ','])
      (by decide)).2⟩

/-! ## The entries written into the mappings -/

theorem lastValue_cons {α : Type} (e : Str × α) (rest : List (Str × α)) (k : Str) :
    lastValue (e :: rest) k =
      match lastValue rest k with
      | some w => some w
      | none => if e.1 = k then some e.2 else none := by
  rw [lastValue]

namespace JSObject

variable {α : Type}

/-- The lookup of a key other than `__proto__` after a sequence of
assignments: the value assigned last to the key, or else the value held
before. -/
theorem get?_foldl_set (es : List (Str × α)) (o : JSObject α) (k : Str) (hk : k ≠ protoKey) :
    (es.foldl (fun o e => o.set e.1 e.2) o).get? k =
      match lastValue es k with
      | some w => some w
      | none => o.get? k := by
  induction es generalizing o with
  | nil => rfl
  | cons e rest ih =>
    rw [List.foldl_cons, ih, lastValue_cons]
    cases hl : lastValue rest k with
    | some w => rfl
    | none =>
      simp only []
      by_cases hp : e.1 = protoKey
      · have hne : e.1 ≠ k := fun h => hk (h ▸ hp)
        rw [if_neg hne]
        unfold set
        rw [if_pos hp]
      · rw [JSObject.get?_set o e.1 e.2 k hp]
        by_cases hek : e.1 = k
        · rw [if_pos hek, if_pos hek.symm]
        · rw [if_neg hek, if_neg (fun h => hek h.symm)]

/-- No sequence of assignments makes `__proto__` a key. -/
theorem get?_foldl_set_proto (es : List (Str × α)) (o : JSObject α) :
    (es.foldl (fun o e => o.set e.1 e.2) o).get? protoKey = o.get? protoKey := by
  induction es generalizing o with
  | nil => rfl
  | cons e rest ih =>
    rw [List.foldl_cons, ih]
    by_cases hp : e.1 = protoKey
    · unfold set
      rw [if_pos hp]
    · rw [JSObject.get?_set o e.1 e.2 protoKey hp, if_neg (fun h => hp h.symm)]

end JSObject

theorem lastValue_map {α β : Type} (g : α → β) (es : List (Str × α)) (k : Str) :
    lastValue (es.map fun kv => (kv.1, g kv.2)) k = (lastValue es k).map g := by
  induction es with
  | nil => rfl
  | cons e rest ih =>
    rw [List.map_cons, lastValue_cons, lastValue_cons, ih]
    cases lastValue rest k with
    | some w => rfl
    | none =>
      simp only [Option.map_none']
      by_cases h : e.1 = k
      · rw [if_pos h, if_pos h]; rfl
      · rw [if_neg h, if_neg h]; rfl

/-- For every text, each recognized section and every key other than
`__proto__`, the mapping of the section holds the coerced value of the last
key-value line with that key read under the section, and has no such key when
there is no such line. -/
theorem mapping_last_occurrence (text name key : Str) (hn : name ∈ recognizedSections)
    (hk : key ≠ protoKey) :
    ((parseAlnDocument text).mapping name).get? key =
      (lastValue (sectionEntries name none (splitOnChar '\n' text)) key).map parseValue := by
  rw [mapping_parse text name hn]
  unfold JSObject.fromEntries
  rw [JSObject.get?_foldl_set _ _ _ hk, lastValue_map]
  cases lastValue (sectionEntries name none (splitOnChar '\n' text)) key <;> rfl

theorem mapping_no_proto (text name : Str) (hn : name ∈ recognizedSections) :
    ((parseAlnDocument text).mapping name).get? protoKey = none := by
  rw [mapping_parse text name hn]
  unfold JSObject.fromEntries
  rw [JSObject.get?_foldl_set_proto]
  rfl

/-- C22: under `[header]` the line `__proto__: x` is a key-value
line with the key `__proto__`, recorded as such in the raw entries, and yet
the header of the parsed document has no key: the assignment
`doc.header[key] = ...` runs the inherited setter of `__proto__` and creates
no property.  No text at all makes `__proto__` a key of a mapping. -/
theorem proto_key_not_written :
    (∀ text : Str, (parseAlnDocument text).header.get? protoKey = none ∧
      (parseAlnDocument text).data.get? protoKey = none ∧
      (parseAlnDocument text).footer.get? protoKey = none) ∧
    sectionEntries "header".toList none (splitOnChar '\n' "[header]\n__proto__: x".toList) =
      [(protoKey, "x".toList)] ∧
    (parseAlnDocument "[header]\n__proto__: x".toList).header = [] ∧
    (parseAlnDocument "[header]\n__proto__: x".toList).rawSections.get? "header".toList =
      some [⟨protoKey, "x".toList, 2⟩] ∧
    (parseAlnDocument "[header]\nop_code: x".toList).header =
      [("op_code".toList, .str "x".toList)] := by
  refine ⟨fun text => ⟨?_, ?_, ?_⟩, by decide, by decide, by decide, by decide⟩
  · exact mapping_no_proto text "header".toList (by decide)
  · exact mapping_no_proto text "data".toList (by decide)
  · exact mapping_no_proto text "footer".toList (by decide)

/-- The marker `[HEADER]` populates the header, lines under `[meta]` leave the
three mappings empty, and a key read twice holds its last value. -/
theorem recognized_section_examples :
    (parseAlnDocument "[HEADER]\na: 1".toList).header = [("a".toList, .num (.ofNat 1))] ∧
    (parseAlnDocument "[meta]\na: 1".toList).header = [] ∧
    (parseAlnDocument "[meta]\na: 1".toList).data = [] ∧
    (parseAlnDocument "[meta]\na: 1".toList).footer = [] ∧
    (parseAlnDocument "[data]\na: 1\nb: x\na: true".toList).data =
      [("a".toList, .bool true), ("b".toList, .str "x".toList)] := by
  decide

/-! ## Reports lost to the `TypeError` of rules 4 and 7 -/

/-- C6: the text `[header]`, `from: 5` has no data and no footer entry, and
the validator returns no report for the parsed document, hence no invalid
report with the errors `Missing required [data] section` and
`Missing required [footer] section`: rule 4 calls `startsWith` on the number
`5` and throws. -/
theorem missing_section_report_lost :
    (parseAlnDocument "[header]\nfrom: 5".toList).data = [] ∧
    (parseAlnDocument "[header]\nfrom: 5".toList).footer = [] ∧
    validateChainlexemes (parseAlnDocument "[header]\nfrom: 5".toList) =
      .error "TypeError: doc.header.from.startsWith is not a function".toList := by
  decide

/-- C9: in the document parsed from `[header]`, `from: bob`, `to: aln1def`,
`[footer]`, `signature: 12345` the addresses are non-empty strings and `from`
does not begin with `aln1`, and the validator returns no report, hence none
with the error on `from`: rule 7 calls `startsWith` on the number `12345` and
throws after rule 4 has recorded the error. -/
theorem address_error_report_lost :
    (parseAlnDocument "[header]\nfrom: bob\nto: aln1def\n[footer]\nsignature: 12345".toList).header
      = [(kFrom, .str "bob".toList), (kTo, .str "aln1def".toList)] ∧
    (parseAlnDocument
        "[header]\nfrom: bob\nto: aln1def\n[footer]\nsignature: 12345".toList).footer.get?
      kSignature = some (.num (.ofNat 12345)) ∧
    validateChainlexemes (parseAlnDocument
        "[header]\nfrom: bob\nto: aln1def\n[footer]\nsignature: 12345".toList) =
      .error "TypeError: doc.footer.signature.startsWith is not a function".toList := by
  decide

/-- C12: the document parsed from `[header]`, `op_code: transfer`, `to: true`
is a transfer with no amount, and the validator returns no report, hence none
with the error `Transfer requires amount in data section`: rule 4 calls
`startsWith` on the boolean `true` and throws before rule 10 is reached. -/
theorem transfer_amount_report_lost :
    (parseAlnDocument "[header]\nop_code: transfer\nto: true".toList).header =
      [(kOpCode, .str "transfer".toList), (kTo, .bool true)] ∧
    (parseAlnDocument "[header]\nop_code: transfer\nto: true".toList).data.get? kAmount = none ∧
    validateChainlexemes (parseAlnDocument "[header]\nop_code: transfer\nto: true".toList) =
      .error "TypeError: doc.header.to.startsWith is not a function".toList := by
  decide

end ALN
